import Mathlib

/-!
# Verification of the azure-spar material codec, boolean minimizer and diff core

This file gives a shallow embedding, faithful to the TypeScript sources, of:

* the binary cursor (`src/binary/reader.ts`, `src/binary/writer.ts`),
* the WHATWG UTF-8 encoder/decoder semantics used by `TextEncoder` /
  `TextDecoder("utf-8")` (non-fatal mode, as constructed in the sources),
* the enum catalog and version-dependent platform mapping
  (`src/material/enums.ts`),
* the material container codec (`src/material/*.ts`),
* the AES-GCM-compatible encryption layer (`src/material/encryption.ts`),
  parameterized over the AES block function,
* the Quine–McCluskey boolean minimizer (`src/boolean/simplify.ts`),
* the Myers diff and multi-way permutation diff of the decompiler.

Conventions: JavaScript numbers that hold nonnegative integers are `Nat`;
wrapping of `DataView.setUintN` is modelled with `% 2^N`; JavaScript strings
are lists of Unicode code points (`JStr`); JavaScript objects whose entries
are iterated with `Object.entries` are association lists in entry order;
fallible code returns `Except JsErr`.
-/

set_option maxHeartbeats 1000000

namespace AzureSpar

/-- A JavaScript string, modelled as its list of Unicode code points. -/
abbrev JStr := List Nat

/-- Code points of a Lean string literal (all literals used are ASCII/BMP). -/
def jstr (s : String) : JStr := s.data.map Char.toNat

/-- Errors thrown by the embedded code.  `rangeError` is the `RangeError`
thrown by `DataView` accessors past the end of the buffer; the others are the
repository's error classes from `src/errors.ts` plus generic `Error`s. -/
inductive JsErr where
  | rangeError : JsErr
  | formatError : JStr → JsErr
  | unsupportedVersion : Nat → JsErr
  | encryptionError : JStr → JsErr
  | genericError : JStr → JsErr
deriving DecidableEq, Repr

instance {ε α : Type} [DecidableEq ε] [DecidableEq α] :
    DecidableEq (Except ε α) := fun x y =>
  match x, y with
  | .ok a, .ok b =>
    if h : a = b then .isTrue (by rw [h]) else .isFalse (fun hc => h (Except.ok.inj hc))
  | .error a, .error b =>
    if h : a = b then .isTrue (by rw [h]) else .isFalse (fun hc => h (Except.error.inj hc))
  | .ok _, .error _ => .isFalse (fun hc => by cases hc)
  | .error _, .ok _ => .isFalse (fun hc => by cases hc)

/-- State of `BinaryReader`: the owned byte buffer and the cursor offset. -/
structure BReader where
  bytes : List Nat
  off : Nat
deriving DecidableEq, Repr

/-- The reader monad: state-passing over `BReader`, failing with `JsErr`. -/
def RM (α : Type) : Type := BReader → Except JsErr (α × BReader)

instance : Monad RM where
  pure a := fun s => .ok (a, s)
  bind x f := fun s =>
    match x s with
    | .error e => .error e
    | .ok (a, s') => f a s'

/-- `throw` for `RM`. -/
def rThrow {α : Type} (e : JsErr) : RM α := fun _ => .error e

theorem rm_bind_def {α β : Type} (x : RM α) (f : α → RM β) (s : BReader) :
    (x >>= f) s =
      match x s with
      | .error e => .error e
      | .ok (a, s') => f a s' := rfl

theorem rm_pure_def {α : Type} (a : α) (s : BReader) :
    (pure a : RM α) s = .ok (a, s) := rfl

theorem rm_bind_ok {α β : Type} {x : RM α} {f : α → RM β} {s s' : BReader}
    {a : α} (h : x s = .ok (a, s')) : (x >>= f) s = f a s' := by
  simp [rm_bind_def, h]

theorem rm_bind_err {α β : Type} {x : RM α} {f : α → RM β} {s : BReader}
    {e : JsErr} (h : x s = .error e) : (x >>= f) s = .error e := by
  simp [rm_bind_def, h]

/-- Element at index `i` (the buffers we read at in-range indices only). -/
def byteAt (b : List Nat) (i : Nat) : Nat := b.getD i 0

/-- `readUbyte`: `DataView.getUint8`, throws `RangeError` past the end. -/
def readUbyte : RM Nat := fun s =>
  if s.off + 1 ≤ s.bytes.length then
    .ok (byteAt s.bytes s.off, ⟨s.bytes, s.off + 1⟩)
  else .error .rangeError

/-- `readUshort`: little-endian `getUint16`. -/
def readUshort : RM Nat := fun s =>
  if s.off + 2 ≤ s.bytes.length then
    .ok (byteAt s.bytes s.off + 256 * byteAt s.bytes (s.off + 1),
      ⟨s.bytes, s.off + 2⟩)
  else .error .rangeError

/-- `readUlong`: little-endian `getUint32`. -/
def readUlong : RM Nat := fun s =>
  if s.off + 4 ≤ s.bytes.length then
    .ok (byteAt s.bytes s.off + 256 * byteAt s.bytes (s.off + 1)
      + 256 ^ 2 * byteAt s.bytes (s.off + 2) + 256 ^ 3 * byteAt s.bytes (s.off + 3),
      ⟨s.bytes, s.off + 4⟩)
  else .error .rangeError

/-- `readUlonglong`: little-endian `getBigUint64` (as a `Nat`). -/
def readUlonglong : RM Nat := fun s =>
  if s.off + 8 ≤ s.bytes.length then
    .ok (byteAt s.bytes s.off + 256 * byteAt s.bytes (s.off + 1)
      + 256 ^ 2 * byteAt s.bytes (s.off + 2) + 256 ^ 3 * byteAt s.bytes (s.off + 3)
      + 256 ^ 4 * byteAt s.bytes (s.off + 4) + 256 ^ 5 * byteAt s.bytes (s.off + 5)
      + 256 ^ 6 * byteAt s.bytes (s.off + 6) + 256 ^ 7 * byteAt s.bytes (s.off + 7),
      ⟨s.bytes, s.off + 8⟩)
  else .error .rangeError

/-- `readBool` = `readUbyte() !== 0`. -/
def readBool : RM Bool := do
  let b ← readUbyte
  pure (b ≠ 0)

/-- `readBytes(count)`: `bytes.slice(off, off + count)` clamps at the end and
never throws; the offset still advances by the full `count`. -/
def readBytes (count : Nat) : RM (List Nat) := fun s =>
  .ok ((s.bytes.drop s.off).take count, ⟨s.bytes, s.off + count⟩)

/-- `readArray` = `u32 length || bytes`. -/
def readArray : RM (List Nat) := do
  let length ← readUlong
  readBytes length

/-- `readFloat32`: modelled as the raw little-endian 32-bit pattern; the
float fields of the data model are carried as their bit patterns. -/
def readFloat32 : RM Nat := readUlong

/-- `readFloat32Array(count)`. -/
def readFloat32Array (count : Nat) : RM (List Nat) :=
  match count with
  | 0 => pure []
  | n + 1 => do
    let v ← readFloat32
    let rest ← readFloat32Array n
    pure (v :: rest)

-- ── Writer primitives ───────────────────────────────────────────
-- `BinaryWriter` only appends, so writes are modelled as the byte lists
-- they produce.  `DataView.setUintN` wraps its argument to N bits (for the
-- u64 case the source only ever passes in-range BigInts; out-of-range
-- BigInts would throw where this model wraps, and all theorems below stay
-- within range).

/-- Little-endian u16 bytes of `v % 2^16`. -/
def u16le (v : Nat) : List Nat := [v % 256, v / 256 % 256]

/-- Little-endian u32 bytes of `v % 2^32`. -/
def u32le (v : Nat) : List Nat :=
  [v % 256, v / 256 % 256, v / 256 ^ 2 % 256, v / 256 ^ 3 % 256]

/-- Little-endian u64 bytes of `v % 2^64`. -/
def u64le (v : Nat) : List Nat :=
  [v % 256, v / 256 % 256, v / 256 ^ 2 % 256, v / 256 ^ 3 % 256,
   v / 256 ^ 4 % 256, v / 256 ^ 5 % 256, v / 256 ^ 6 % 256, v / 256 ^ 7 % 256]

/-- `writeUbyte`. -/
def wUbyte (v : Nat) : List Nat := [v % 256]

/-- `writeBool`. -/
def wBool (b : Bool) : List Nat := [if b then 1 else 0]

-- ── UTF-8 (`TextEncoder` / `TextDecoder("utf-8")`) ──────────────

/-- `TextEncoder` bytes of one code point (lone surrogates become U+FFFD). -/
def encChar (c : Nat) : List Nat :=
  if c < 0x80 then [c]
  else if c < 0x800 then [0xC0 + c / 64, 0x80 + c % 64]
  else if 0xD800 ≤ c ∧ c < 0xE000 then [0xEF, 0xBF, 0xBD]
  else if c < 0x10000 then
    [0xE0 + c / 4096, 0x80 + c / 64 % 64, 0x80 + c % 64]
  else
    [0xF0 + c / 262144, 0x80 + c / 4096 % 64, 0x80 + c / 64 % 64, 0x80 + c % 64]

/-- `TextEncoder.encode` over a whole string. -/
def utf8Enc (s : JStr) : List Nat := s.flatMap encChar

/-- Lower bound for the first continuation byte (WHATWG UTF-8 decoder). -/
def contLow (b0 : Nat) : Nat :=
  if b0 = 0xE0 then 0xA0 else if b0 = 0xF0 then 0x90 else 0x80

/-- Upper bound for the first continuation byte (WHATWG UTF-8 decoder). -/
def contHigh (b0 : Nat) : Nat :=
  if b0 = 0xED then 0x9F else if b0 = 0xF4 then 0x8F else 0xBF

/-- `TextDecoder("utf-8")` in its default non-fatal mode (as constructed in
`src/binary/reader.ts`): the WHATWG UTF-8 decoder, which never fails.  On a
malformed sequence it emits U+FFFD and restarts at the offending byte. -/
def utf8Dec : List Nat → JStr
  | [] => []
  | b0 :: bs =>
    if b0 < 0x80 then b0 :: utf8Dec bs
    else if 0xC2 ≤ b0 ∧ b0 ≤ 0xDF then
      match bs with
      | [] => [0xFFFD]
      | b1 :: bs1 =>
        if 0x80 ≤ b1 ∧ b1 ≤ 0xBF then
          ((b0 - 0xC0) * 64 + (b1 - 0x80)) :: utf8Dec bs1
        else 0xFFFD :: utf8Dec (b1 :: bs1)
    else if 0xE0 ≤ b0 ∧ b0 ≤ 0xEF then
      match bs with
      | [] => [0xFFFD]
      | b1 :: bs1 =>
        if contLow b0 ≤ b1 ∧ b1 ≤ contHigh b0 then
          match bs1 with
          | [] => [0xFFFD]
          | b2 :: bs2 =>
            if 0x80 ≤ b2 ∧ b2 ≤ 0xBF then
              ((b0 - 0xE0) * 4096 + (b1 - 0x80) * 64 + (b2 - 0x80)) :: utf8Dec bs2
            else 0xFFFD :: utf8Dec (b2 :: bs2)
        else 0xFFFD :: utf8Dec (b1 :: bs1)
    else if 0xF0 ≤ b0 ∧ b0 ≤ 0xF4 then
      match bs with
      | [] => [0xFFFD]
      | b1 :: bs1 =>
        if contLow b0 ≤ b1 ∧ b1 ≤ contHigh b0 then
          match bs1 with
          | [] => [0xFFFD]
          | b2 :: bs2 =>
            if 0x80 ≤ b2 ∧ b2 ≤ 0xBF then
              match bs2 with
              | [] => [0xFFFD]
              | b3 :: bs3 =>
                if 0x80 ≤ b3 ∧ b3 ≤ 0xBF then
                  ((b0 - 0xF0) * 262144 + (b1 - 0x80) * 4096
                    + (b2 - 0x80) * 64 + (b3 - 0x80)) :: utf8Dec bs3
                else 0xFFFD :: utf8Dec (b3 :: bs3)
            else 0xFFFD :: utf8Dec (b2 :: bs2)
        else 0xFFFD :: utf8Dec (b1 :: bs1)
    else 0xFFFD :: utf8Dec bs

/-- A Unicode scalar value: a code point that is not a lone surrogate. -/
def ScalarCp (c : Nat) : Prop := c < 0x110000 ∧ ¬(0xD800 ≤ c ∧ c < 0xE000)

instance (c : Nat) : Decidable (ScalarCp c) := by
  unfold ScalarCp; infer_instance

/-- A well-formed JavaScript string: every code point is a scalar value. -/
def ScalarStr (s : JStr) : Prop := ∀ c ∈ s, ScalarCp c

instance (s : JStr) : Decidable (ScalarStr s) := by
  unfold ScalarStr; infer_instance

theorem utf8Dec_ascii (b0 : Nat) (bs : List Nat) (h : b0 < 0x80) :
    utf8Dec (b0 :: bs) = b0 :: utf8Dec bs := by
  rw [utf8Dec.eq_def]
  simp [h]

theorem utf8Dec_two (b0 b1 : Nat) (bs : List Nat)
    (h0 : 0xC2 ≤ b0 ∧ b0 ≤ 0xDF) (h1 : 0x80 ≤ b1 ∧ b1 ≤ 0xBF) :
    utf8Dec (b0 :: b1 :: bs) = ((b0 - 0xC0) * 64 + (b1 - 0x80)) :: utf8Dec bs := by
  rw [utf8Dec.eq_def]
  have : ¬ b0 < 0x80 := by omega
  simp [this, h0, h1]

theorem utf8Dec_three (b0 b1 b2 : Nat) (bs : List Nat)
    (h0 : 0xE0 ≤ b0 ∧ b0 ≤ 0xEF) (h1 : contLow b0 ≤ b1 ∧ b1 ≤ contHigh b0)
    (h2 : 0x80 ≤ b2 ∧ b2 ≤ 0xBF) :
    utf8Dec (b0 :: b1 :: b2 :: bs) =
      ((b0 - 0xE0) * 4096 + (b1 - 0x80) * 64 + (b2 - 0x80)) :: utf8Dec bs := by
  rw [utf8Dec.eq_def]
  have hn1 : ¬ b0 < 0x80 := by omega
  have hn2 : ¬ (0xC2 ≤ b0 ∧ b0 ≤ 0xDF) := by omega
  simp [hn1, hn2, h0, h1, h2]

theorem utf8Dec_four (b0 b1 b2 b3 : Nat) (bs : List Nat)
    (h0 : 0xF0 ≤ b0 ∧ b0 ≤ 0xF4) (h1 : contLow b0 ≤ b1 ∧ b1 ≤ contHigh b0)
    (h2 : 0x80 ≤ b2 ∧ b2 ≤ 0xBF) (h3 : 0x80 ≤ b3 ∧ b3 ≤ 0xBF) :
    utf8Dec (b0 :: b1 :: b2 :: b3 :: bs) =
      ((b0 - 0xF0) * 262144 + (b1 - 0x80) * 4096 + (b2 - 0x80) * 64 + (b3 - 0x80))
        :: utf8Dec bs := by
  rw [utf8Dec.eq_def]
  have hn1 : ¬ b0 < 0x80 := by omega
  have hn2 : ¬ (0xC2 ≤ b0 ∧ b0 ≤ 0xDF) := by omega
  have hn3 : ¬ (0xE0 ≤ b0 ∧ b0 ≤ 0xEF) := by omega
  simp [hn1, hn2, hn3, h0, h1, h2, h3]

theorem utf8Dec_encChar (c : Nat) (hc : ScalarCp c) (bs : List Nat) :
    utf8Dec (encChar c ++ bs) = c :: utf8Dec bs := by
  obtain ⟨hlt, hsur⟩ := hc
  -- base-64 digit decompositions of `c`, consumed by `omega` below
  have e1 : c / 64 / 64 = c / 4096 := by
    rw [Nat.div_div_eq_div_mul]
  have e2 : c / 4096 / 64 = c / 262144 := by
    rw [Nat.div_div_eq_div_mul]
  have d0 := Nat.div_add_mod c 64
  have d1 := Nat.div_add_mod (c / 64) 64
  have d2 := Nat.div_add_mod (c / 4096) 64
  rw [e1] at d1
  rw [e2] at d2
  have hm1 : c % 64 < 64 := Nat.mod_lt _ (by omega)
  have hm2 : c / 64 % 64 < 64 := Nat.mod_lt _ (by omega)
  have hm3 : c / 4096 % 64 < 64 := Nat.mod_lt _ (by omega)
  by_cases h1 : c < 0x80
  · simp only [encChar, if_pos h1, List.cons_append, List.nil_append]
    exact utf8Dec_ascii c bs h1
  · by_cases h2 : c < 0x800
    · simp only [encChar, if_neg h1, if_pos h2, List.cons_append, List.nil_append]
      rw [utf8Dec_two _ _ _ (by omega) (by omega)]
      have : (0xC0 + c / 64 - 0xC0) * 64 + (0x80 + c % 64 - 0x80) = c := by omega
      rw [this]
    · by_cases h3 : c < 0x10000
      · simp only [encChar, if_neg h1, if_neg h2, if_neg hsur, if_pos h3,
          List.cons_append, List.nil_append]
        have hcont : contLow (0xE0 + c / 4096) ≤ 0x80 + c / 64 % 64 ∧
            0x80 + c / 64 % 64 ≤ contHigh (0xE0 + c / 4096) := by
          by_cases he0 : c / 4096 = 0
          · rw [he0]
            have : contLow (0xE0 + 0) = 0xA0 := by norm_num [contLow]
            rw [this]
            have : contHigh (0xE0 + 0) = 0xBF := by norm_num [contHigh]
            rw [this]
            omega
          · by_cases hed : c / 4096 = 0xD
            · rw [hed]
              have : contLow (0xE0 + 0xD) = 0x80 := by norm_num [contLow]
              rw [this]
              have : contHigh (0xE0 + 0xD) = 0x9F := by norm_num [contHigh]
              rw [this]
              -- c is in [0xD000, 0xD800) here since it is not a surrogate
              omega
            · have hlo : contLow (0xE0 + c / 4096) = 0x80 := by
                unfold contLow
                rw [if_neg (by omega), if_neg (by omega)]
              have hhi : contHigh (0xE0 + c / 4096) = 0xBF := by
                unfold contHigh
                rw [if_neg (by omega), if_neg (by omega)]
              rw [hlo, hhi]
              omega
        rw [utf8Dec_three _ _ _ _ (by omega) hcont (by omega)]
        have : (0xE0 + c / 4096 - 0xE0) * 4096 + (0x80 + c / 64 % 64 - 0x80) * 64
            + (0x80 + c % 64 - 0x80) = c := by omega
        rw [this]
      · have hs4 : ¬(0xD800 ≤ c ∧ c < 0xE000) := by omega
        simp only [encChar, if_neg h1, if_neg h2, if_neg hs4, if_neg h3,
          List.cons_append, List.nil_append]
        have hd4 : c / 262144 ≤ 4 := by omega
        have hcont : contLow (0xF0 + c / 262144) ≤ 0x80 + c / 4096 % 64 ∧
            0x80 + c / 4096 % 64 ≤ contHigh (0xF0 + c / 262144) := by
          by_cases hf0 : c / 262144 = 0
          · rw [hf0]
            have : contLow (0xF0 + 0) = 0x90 := by norm_num [contLow]
            rw [this]
            have : contHigh (0xF0 + 0) = 0xBF := by norm_num [contHigh]
            rw [this]
            omega
          · by_cases hf4 : c / 262144 = 4
            · rw [hf4]
              have : contLow (0xF0 + 4) = 0x80 := by norm_num [contLow]
              rw [this]
              have : contHigh (0xF0 + 4) = 0x8F := by norm_num [contHigh]
              rw [this]
              omega
            · have hlo : contLow (0xF0 + c / 262144) = 0x80 := by
                unfold contLow
                rw [if_neg (by omega), if_neg (by omega)]
              have hhi : contHigh (0xF0 + c / 262144) = 0xBF := by
                unfold contHigh
                rw [if_neg (by omega), if_neg (by omega)]
              rw [hlo, hhi]
              omega
        rw [utf8Dec_four _ _ _ _ _ (by omega) hcont (by omega) (by omega)]
        have : (0xF0 + c / 262144 - 0xF0) * 262144 + (0x80 + c / 4096 % 64 - 0x80) * 4096
            + (0x80 + c / 64 % 64 - 0x80) * 64 + (0x80 + c % 64 - 0x80) = c := by omega
        rw [this]

/-- `TextDecoder.decode ∘ TextEncoder.encode` is the identity on well-formed
strings. -/
theorem utf8Dec_utf8Enc (s : JStr) (hs : ScalarStr s) : utf8Dec (utf8Enc s) = s := by
  induction s with
  | nil => rfl
  | cons c rest ih =>
    have hc : ScalarCp c := hs c (by simp)
    have hrest : ScalarStr rest := fun d hd => hs d (by simp [hd])
    simp only [utf8Enc, List.flatMap_cons]
    rw [utf8Dec_encChar c hc]
    simp only [utf8Enc] at ih
    rw [ih hrest]

-- ── Enum catalog (`src/material/enums.ts`) ──────────────────────

/-- `ShaderStage`. -/
inductive ShaderStage where
  | Vertex | Fragment | Compute | Unknown
deriving DecidableEq, Repr

/-- The numeric value of a `ShaderStage` member. -/
def stageVal : ShaderStage → Nat
  | .Vertex => 0
  | .Fragment => 1
  | .Compute => 2
  | .Unknown => 3

/-- `SHADER_STAGE_NAMES`. -/
def stageName : ShaderStage → JStr
  | .Vertex => jstr "Vertex"
  | .Fragment => jstr "Fragment"
  | .Compute => jstr "Compute"
  | .Unknown => jstr "Unknown"

/-- `Object.entries(SHADER_STAGE_NAMES)` in key order. -/
def stageEntries : List (ShaderStage × JStr) :=
  [(.Vertex, jstr "Vertex"), (.Fragment, jstr "Fragment"),
   (.Compute, jstr "Compute"), (.Unknown, jstr "Unknown")]

/-- `shaderStageFromName`. -/
def shaderStageFromName (name : JStr) : Except JsErr ShaderStage :=
  match stageEntries.find? (fun e => e.2 == name) with
  | some e => .ok e.1
  | none => .error (.genericError (jstr "Unknown shader stage"))

/-- `ShaderPlatform`. -/
inductive ShaderPlatform where
  | Direct3D_SM40 | Direct3D_SM50 | Direct3D_SM60 | Direct3D_SM65
  | Direct3D_XB1 | Direct3D_XBX | GLSL_120 | GLSL_430
  | ESSL_300 | ESSL_310 | Metal | Vulkan | Nvn | PSSL | Unknown
deriving DecidableEq, Repr

/-- The numeric value of a `ShaderPlatform` member (1-based, as declared). -/
def platVal : ShaderPlatform → Nat
  | .Direct3D_SM40 => 1
  | .Direct3D_SM50 => 2
  | .Direct3D_SM60 => 3
  | .Direct3D_SM65 => 4
  | .Direct3D_XB1 => 5
  | .Direct3D_XBX => 6
  | .GLSL_120 => 7
  | .GLSL_430 => 8
  | .ESSL_300 => 9
  | .ESSL_310 => 10
  | .Metal => 11
  | .Vulkan => 12
  | .Nvn => 13
  | .PSSL => 14
  | .Unknown => 15

/-- `SHADER_PLATFORM_NAMES`. -/
def platName : ShaderPlatform → JStr
  | .Direct3D_SM40 => jstr "Direct3D_SM40"
  | .Direct3D_SM50 => jstr "Direct3D_SM50"
  | .Direct3D_SM60 => jstr "Direct3D_SM60"
  | .Direct3D_SM65 => jstr "Direct3D_SM65"
  | .Direct3D_XB1 => jstr "Direct3D_XB1"
  | .Direct3D_XBX => jstr "Direct3D_XBX"
  | .GLSL_120 => jstr "GLSL_120"
  | .GLSL_430 => jstr "GLSL_430"
  | .ESSL_300 => jstr "ESSL_300"
  | .ESSL_310 => jstr "ESSL_310"
  | .Metal => jstr "Metal"
  | .Vulkan => jstr "Vulkan"
  | .Nvn => jstr "Nvn"
  | .PSSL => jstr "PSSL"
  | .Unknown => jstr "Unknown"

/-- The platform constructors in ascending numeric order (the order of
`Object.entries` over the numeric-keyed name record). -/
def allPlatforms : List ShaderPlatform :=
  [.Direct3D_SM40, .Direct3D_SM50, .Direct3D_SM60, .Direct3D_SM65,
   .Direct3D_XB1, .Direct3D_XBX, .GLSL_120, .GLSL_430,
   .ESSL_300, .ESSL_310, .Metal, .Vulkan, .Nvn, .PSSL, .Unknown]

/-- `shaderPlatformFromName`. -/
def shaderPlatformFromName (name : JStr) : Except JsErr ShaderPlatform :=
  match allPlatforms.find? (fun p => platName p == name) with
  | some p => .ok p
  | none => .error (.genericError (jstr "Unknown shader platform"))

/-- `platformMapping`.  At runtime the map's values are plain JavaScript
numbers: a TypeScript numeric-enum member such as `ShaderPlatform.ESSL_310`
is the number `10`.  The v≥25 table's "platform conversion" entry
`[ESSL_300, ShaderPlatform.ESSL_310]` therefore stores the number `10`
(`platVal .ESSL_310`), indistinguishable from a wire index. -/
def platformMapping (version : Nat) : List (ShaderPlatform × Nat) :=
  if 25 ≤ version then
    [(.Direct3D_SM40, 0), (.Direct3D_SM50, 1), (.Direct3D_SM60, 2),
     (.Direct3D_SM65, 3), (.Direct3D_XB1, 4), (.Direct3D_XBX, 5),
     (.GLSL_120, 6), (.GLSL_430, 7), (.ESSL_310, 8), (.Metal, 9),
     (.Vulkan, 10), (.Nvn, 11), (.PSSL, 12), (.Unknown, 13),
     (.ESSL_300, platVal .ESSL_310)]
  else
    [(.Direct3D_SM40, 0), (.Direct3D_SM50, 1), (.Direct3D_SM60, 2),
     (.Direct3D_SM65, 3), (.Direct3D_XB1, 4), (.Direct3D_XBX, 5),
     (.GLSL_120, 6), (.GLSL_430, 7), (.ESSL_300, 8), (.ESSL_310, 9),
     (.Metal, 10), (.Vulkan, 11), (.Nvn, 12), (.PSSL, 13), (.Unknown, 14)]

/-- `Map.get`. -/
def mapGet (m : List (ShaderPlatform × Nat)) (p : ShaderPlatform) : Option Nat :=
  (m.find? (fun e => e.1 == p)).map (·.2)

/-- `getPlatformValue`.  The source's conversion branch
`if (typeof value !== "number" && value !== undefined)` can never be taken:
whenever the key is present the stored value is a number (numeric enum
members are numbers at runtime), so the function returns the stored value
directly. -/
def getPlatformValue (platform : ShaderPlatform) (version : Nat) : Except JsErr Nat :=
  match mapGet (platformMapping version) platform with
  | some value => .ok value
  | none => .error (.genericError (jstr "Platform is not supported"))

/-- `getPlatformName`.  The branch `if (typeof value === "number")` is taken
whenever the key is present (see `getPlatformValue`), so the function
returns the platform's own name whenever the mapping has the key. -/
def getPlatformName (platform : ShaderPlatform) (version : Nat) : Except JsErr JStr :=
  match mapGet (platformMapping version) platform with
  | some _ => .ok (platName platform)
  | none => .error (.genericError (jstr "Platform is not supported"))

/-- `getPlatformList`.  The filter `typeof value === "number"` keeps every
entry (see `getPlatformValue`), so this is the key list in insertion order. -/
def getPlatformList (version : Nat) : List ShaderPlatform :=
  (platformMapping version).map (·.1)

/-- `platformFromIndex`: first entry whose stored value equals `index`. -/
def platformFromIndex (index : Nat) (version : Nat) : Except JsErr ShaderPlatform :=
  match (platformMapping version).find? (fun e => e.2 == index) with
  | some e => .ok e.1
  | none => .error (.genericError (jstr "No platform found for index"))

/-- `EncryptionType` (a string enum). -/
inductive EncryptionType where
  | NONE | SIMPLE_PASSPHRASE | KEY_PAIR
deriving DecidableEq, Repr

/-- The string value of an `EncryptionType` member. -/
def etTag : EncryptionType → JStr
  | .NONE => jstr "NONE"
  | .SIMPLE_PASSPHRASE => jstr "SMPL"
  | .KEY_PAIR => jstr "KYPR"

/-- `readEncryptionType`: four bytes, decoded then reversed, must be one of
the enum's values. -/
def readEncryptionType : RM EncryptionType := do
  let bytes ← readBytes 4
  let tag := utf8Dec bytes
  let reversed := tag.reverse
  if reversed = etTag .NONE then pure .NONE
  else if reversed = etTag .SIMPLE_PASSPHRASE then pure .SIMPLE_PASSPHRASE
  else if reversed = etTag .KEY_PAIR then pure .KEY_PAIR
  else rThrow (.encryptionError (jstr "Unknown encryption type"))

/-- `writeEncryptionType`: the tag's characters reversed, UTF-8 encoded. -/
def writeEncryptionType (t : EncryptionType) : List Nat :=
  utf8Enc (etTag t).reverse

-- ── Cursor string/array operations and helpers ──────────────────

/-- `readString` = `readArray` decoded by the shared non-fatal decoder. -/
def readString : RM JStr := do
  let bytes ← readArray
  pure (utf8Dec bytes)

/-- `BinaryWriter.writeArray` = `u32 length || bytes`. -/
def writeArrayB (val : List Nat) : List Nat := u32le val.length ++ val

/-- `BinaryWriter.writeString` = `writeArray(utf8(val))`. -/
def writeString (val : JStr) : List Nat := writeArrayB (utf8Enc val)

/-- Lift a plain `Except` computation into the reader monad. -/
def liftE {α : Type} (x : Except JsErr α) : RM α := fun s =>
  match x with
  | .ok a => .ok (a, s)
  | .error e => .error e

/-- Read `n` successive items (the counted `for` loops of the codec). -/
def readN {α : Type} (n : Nat) (item : RM α) : RM (List α) :=
  match n with
  | 0 => pure []
  | n + 1 => do
    let a ← item
    let rest ← readN n item
    pure (a :: rest)

/-- `reader.remaining` (clamped at zero; it is only ever compared `> 0`,
which agrees with the JavaScript signed value). -/
def rmRemaining : RM Nat := fun s =>
  .ok (s.bytes.length - s.off, s)

/-- JavaScript `ToUint8` of a (possibly negative) integral number. -/
def toUint8I (v : Int) : Nat := (v % 256).toNat

/-- JavaScript `ToUint16` of a (possibly negative) integral number. -/
def toUint16I (v : Int) : Nat := (v % 65536).toNat

-- ── Data model (`src/material/*.ts`) ────────────────────────────
-- Enum-typed fields that the reader fills by casting a raw byte are `Nat`;
-- fields whose enum carries a `-1` sentinel (`Precision.None`,
-- `Interpolation.None`, `BlendMode.Unspecified`, `BgfxShader.size`) are
-- `Int`.  String-keyed records are association lists in `Object.entries`
-- order.

/-- `SamplerState`. -/
structure SamplerState where
  filter : Nat
  wrapping : Nat
deriving DecidableEq, Repr

/-- `createSamplerState`. -/
def createSamplerState (value : Nat) : Except JsErr SamplerState :=
  if value > 3 then
    .error (.genericError (jstr "Sampler state intrinsic value is outside of accepted range!"))
  else
    .ok ⟨value &&& 1, (value >>> 1) &&& 1⟩

/-- `getSamplerStateValue`. -/
def getSamplerStateValue (s : SamplerState) : Nat := s.filter ||| (s.wrapping <<< 1)

/-- `CustomTypeInfo`. -/
structure CustomTypeInfo where
  struct : JStr
  size : Nat
deriving DecidableEq, Repr

/-- `MaterialBuffer`. -/
structure MaterialBuffer where
  name : JStr
  reg1 : Nat
  access : Nat
  precision : Int
  unorderedAccess : Bool
  type : Nat
  textureFormat : JStr
  alwaysOne : Nat
  reg2 : Nat
  samplerState : Option SamplerState
  defaultTexture : JStr
  texturePath : JStr
  customTypeInfo : Option CustomTypeInfo
deriving DecidableEq, Repr

/-- The `readBool() ? readString() : ""` ternary used for optional strings. -/
def readOptString : RM JStr := do
  let has ← readBool
  if has then readString else pure []

/-- The optional sampler-state ternary of `readMaterialBuffer`. -/
def readOptSampler : RM (Option SamplerState) := do
  let has ← readBool
  if has then do
    let v ← readUbyte
    let s ← liftE (createSamplerState v)
    pure (some s)
  else pure none

/-- The optional custom-type-info ternary of `readMaterialBuffer`. -/
def readOptCustom : RM (Option CustomTypeInfo) := do
  let has ← readBool
  if has then do
    let st ← readString
    let sz ← readUlong
    pure (some (⟨st, sz⟩ : CustomTypeInfo))
  else pure none

/-- The optional blend-mode ternary of `readPass`. -/
def readBlendMode : RM Int := do
  let has ← readBool
  if has then do
    let m ← readUshort
    pure ((m : Int))
  else pure (-1 : Int)

/-- `readMaterialBuffer`. -/
def readMaterialBuffer (_version : Nat) : RM MaterialBuffer := do
  let name ← readString
  let reg1 ← readUshort
  let access ← readUbyte
  let precision ← readUbyte
  let unorderedAccess ← readBool
  let type ← readUbyte
  let textureFormat ← readString
  let alwaysOne ← readUlong
  let reg2 ← readUbyte
  let samplerState ← readOptSampler
  let defaultTexture ← readOptString
  let texturePath ← readOptString
  let customTypeInfo ← readOptCustom
  pure ⟨name, reg1, access, (precision : Int), unorderedAccess, type, textureFormat,
    alwaysOne, reg2, samplerState, defaultTexture, texturePath, customTypeInfo⟩

/-- `writeMaterialBuffer`. -/
def writeMaterialBuffer (_version : Nat) (buf : MaterialBuffer) : List Nat :=
  writeString buf.name ++ u16le buf.reg1 ++ wUbyte buf.access
  ++ [toUint8I buf.precision] ++ wBool buf.unorderedAccess ++ wUbyte buf.type
  ++ writeString buf.textureFormat ++ u32le buf.alwaysOne ++ wUbyte buf.reg2
  ++ wBool buf.samplerState.isSome
  ++ (match buf.samplerState with
      | some s => wUbyte (getSamplerStateValue s)
      | none => [])
  ++ wBool (buf.defaultTexture ≠ [])
  ++ (if buf.defaultTexture ≠ [] then writeString buf.defaultTexture else [])
  ++ wBool (buf.texturePath ≠ [])
  ++ (if buf.texturePath ≠ [] then writeString buf.texturePath else [])
  ++ wBool buf.customTypeInfo.isSome
  ++ (match buf.customTypeInfo with
      | some c => writeString c.struct ++ u32le c.size
      | none => [])

/-- `Uniform` (`src/material/uniform.ts`).  `default` holds f32 bit
patterns (see `readFloat32`). -/
structure MUniform where
  name : JStr
  type : Nat
  count : Nat
  default : List Nat
deriving DecidableEq, Repr

/-- `FLOAT_COUNTS` (`Vec4 = 2 → 4`, `Mat3 = 3 → 9`, `Mat4 = 4 → 16`). -/
def floatCounts (type : Nat) : Option Nat :=
  if type = 2 then some 4 else if type = 3 then some 9
  else if type = 4 then some 16 else none

/-- `readUniform`. -/
def readUniform (_version : Nat) : RM MUniform := do
  let name ← readString
  let type ← readUshort
  let (count, hasData) ←
    if 2 ≤ type ∧ type ≤ 4 then do
      let c ← readUlong
      let h ← readBool
      pure (c, h)
    else pure (0, false)
  let defaultValues ←
    if hasData then
      match floatCounts type with
      | some fc => readFloat32Array fc
      | none => pure []
    else pure []
  if type = 5 then
    pure (⟨name, type, count, defaultValues⟩ : MUniform)
  else if type < 2 ∨ type > 5 then
    rThrow (.genericError (jstr "Unrecognized uniform type"))
  else
    pure ⟨name, type, count, defaultValues⟩

/-- `writeUniform`. -/
def writeUniform (_version : Nat) (u : MUniform) : List Nat :=
  writeString u.name ++ u16le u.type
  ++ (if 2 ≤ u.type ∧ u.type ≤ 4 then
        u32le u.count ++ wBool (u.default.length > 0)
      else [])
  ++ (if u.default.length > 0 then u.default.flatMap u32le else [])

/-- `InputSemantic`. -/
structure InputSemantic where
  index : Nat
  subIndex : Nat
deriving DecidableEq, Repr

/-- `ShaderInput`. -/
structure ShaderInput where
  name : JStr
  type : Nat
  semantic : InputSemantic
  perInstance : Bool
  precision : Int
  interpolation : Int
deriving DecidableEq, Repr

/-- `readShaderInput`. -/
def readShaderInput : RM ShaderInput := do
  let name ← readString
  let type ← readUbyte
  let si ← readUbyte
  let ssub ← readUbyte
  let perInstance ← readBool
  let hasPrec ← readBool
  let precision ← if hasPrec then do
      let p ← readUbyte
      pure (p : Int)
    else pure (-1 : Int)
  let hasInterp ← readBool
  let interpolation ← if hasInterp then do
      let i ← readUbyte
      pure ((i : Int))
    else pure (-1 : Int)
  pure ⟨name, type, ⟨si, ssub⟩, perInstance, precision, interpolation⟩

/-- `writeShaderInput`. -/
def writeShaderInput (inp : ShaderInput) : List Nat :=
  writeString inp.name ++ wUbyte inp.type ++ wUbyte inp.semantic.index
  ++ wUbyte inp.semantic.subIndex ++ wBool inp.perInstance
  ++ wBool (inp.precision ≠ -1)
  ++ (if inp.precision ≠ -1 then [toUint8I inp.precision] else [])
  ++ wBool (inp.interpolation ≠ -1)
  ++ (if inp.interpolation ≠ -1 then [toUint8I inp.interpolation] else [])

/-- `BgfxUniform`. -/
structure BgfxUniform where
  name : JStr
  typeBits : Nat
  count : Nat
  regIndex : Nat
  regCount : Nat
deriving DecidableEq, Repr

/-- `BgfxShader`. -/
structure BgfxShader where
  hash : Nat
  uniforms : List BgfxUniform
  groupSize : List Nat
  shaderBytes : List Nat
  attributes : List Nat
  size : Int
deriving DecidableEq, Repr

/-- `readBgfxUniform` (name length is a single byte). -/
def readBgfxUniform : RM BgfxUniform := do
  let nameLength ← readUbyte
  let nameBytes ← readBytes nameLength
  let name := utf8Dec nameBytes
  let typeBits ← readUbyte
  let count ← readUbyte
  let regIndex ← readUshort
  let regCount ← readUshort
  pure ⟨name, typeBits, count, regIndex, regCount⟩

/-- `writeBgfxUniform`. -/
def writeBgfxUniform (u : BgfxUniform) : List Nat :=
  wUbyte (utf8Enc u.name).length ++ utf8Enc u.name ++ wUbyte u.typeBits
  ++ wUbyte u.count ++ u16le u.regIndex ++ u16le u.regCount

/-- The `readBgfxShader` body as a cursor program over the wrapper bytes. -/
def readBgfxShaderRM (platform : ShaderPlatform) (stage : ShaderStage) :
    RM BgfxShader := do
  let headerBytes ← readBytes 3
  let header := utf8Dec headerBytes
  if header ≠ jstr "VSH" ∧ header ≠ jstr "FSH" ∧ header ≠ jstr "CSH" then
    rThrow (.genericError (jstr "Unrecognized BGFX shader bin header"))
  else do
    let version ← readUbyte
    if ¬(version = 5 ∨ (version = 3 ∧ header = jstr "CSH")) then
      rThrow (.genericError (jstr "Unsupported BGFX shader bin version"))
    else do
      -- NOTE: the wrapper hash is read with `readUlong` — four bytes.
      let hash ← readUlong
      let uniformCount ← readUshort
      let uniforms ← readN uniformCount readBgfxUniform
      let groupSize ←
        if platform = .Metal ∧ stage = .Compute then do
          let a ← readUshort
          let b ← readUshort
          let c ← readUshort
          pure [a, b, c]
        else pure []
      let shaderByteLength ← readUlong
      let shaderBytes ← readBytes shaderByteLength
      let _pad ← readUbyte
      let rem ← rmRemaining
      let (attributes, size) ←
        if rem > 0 then do
          let attributeCount ← readUbyte
          let attrs ← readN attributeCount readUshort
          let size ← readUshort
          pure (attrs, (size : Int))
        else pure ([], (-1 : Int))
      pure ⟨hash, uniforms, groupSize, shaderBytes, attributes, size⟩

/-- `readBgfxShader`: runs over its own fresh reader. -/
def readBgfxShader (data : List Nat) (platform : ShaderPlatform)
    (stage : ShaderStage) : Except JsErr BgfxShader :=
  match readBgfxShaderRM platform stage ⟨data, 0⟩ with
  | .ok (sh, _) => .ok sh
  | .error e => .error e

/-- `writeBgfxShader` (its own inner writer; returns the wrapper bytes).
The hash is written with `writeUlong` — four bytes. -/
def writeBgfxShader (platform : ShaderPlatform) (stage : ShaderStage)
    (shader : BgfxShader) : List Nat :=
  let header : JStr :=
    if stage = .Vertex then jstr "VSH"
    else if stage = .Compute then jstr "CSH"
    else jstr "FSH"
  let version : Nat := if stage = .Compute then 3 else 5
  utf8Enc header ++ wUbyte version ++ u32le shader.hash
  ++ u16le shader.uniforms.length ++ shader.uniforms.flatMap writeBgfxUniform
  ++ (if platform = .Metal ∧ stage = .Compute then
        u16le (shader.groupSize.getD 0 0) ++ u16le (shader.groupSize.getD 1 0)
        ++ u16le (shader.groupSize.getD 2 0)
      else [])
  ++ u32le shader.shaderBytes.length ++ shader.shaderBytes ++ [0]
  ++ (if shader.size ≠ -1 then
        wUbyte shader.attributes.length ++ shader.attributes.flatMap u16le
        ++ u16le (toUint16I shader.size)
      else [])

/-- `ShaderDefinition`. -/
structure ShaderDefinition where
  stage : ShaderStage
  platform : ShaderPlatform
  inputs : List ShaderInput
  hash : Nat
  bgfxShader : BgfxShader
deriving DecidableEq, Repr

/-- `readShaderDefinition`. -/
def readShaderDefinition (version : Nat) : RM ShaderDefinition := do
  let stageNameS ← readString
  let platformNameS ← readString
  let stage ← liftE (shaderStageFromName stageNameS)
  let platform ← liftE (shaderPlatformFromName platformNameS)
  let stageIndex ← readUbyte
  if stageVal stage ≠ stageIndex then
    rThrow (.genericError (jstr "Stage name and index do not match!"))
  else do
    let platformIndex ← readUbyte
    let expectedPlatformIndex ← liftE (getPlatformValue platform version)
    if expectedPlatformIndex ≠ platformIndex then
      rThrow (.genericError (jstr "Platform name and index do not match!"))
    else do
      let inputCount ← readUshort
      let inputs ← readN inputCount readShaderInput
      let hash ← readUlonglong
      let bgfxShaderData ← readArray
      let bgfxShader ← liftE (readBgfxShader bgfxShaderData platform stage)
      pure ⟨stage, platform, inputs, hash, bgfxShader⟩

/-- Sequentially write a list of items with a fallible writer (the
`for`-loops of the writers, which stop at the first thrown error). -/
def mapME {α : Type} (f : α → Except JsErr (List Nat)) : List α → Except JsErr (List (List Nat))
  | [] => pure []
  | a :: rest => do
    let w ← f a
    let ws ← mapME f rest
    pure (w :: ws)

/-- `writeShaderDefinition` (`Except` because the platform lookups throw
for absent keys). -/
def writeShaderDefinition (version : Nat) (d : ShaderDefinition) :
    Except JsErr (List Nat) := do
  let pname ← getPlatformName d.platform version
  let pval ← getPlatformValue d.platform version
  pure (writeString (stageName d.stage) ++ writeString pname
    ++ wUbyte (stageVal d.stage) ++ wUbyte pval
    ++ u16le d.inputs.length ++ d.inputs.flatMap writeShaderInput
    ++ u64le d.hash
    ++ writeArrayB (writeBgfxShader d.platform d.stage d.bgfxShader))

/-- `Variant`. -/
structure Variant where
  isSupported : Bool
  flags : List (JStr × JStr)
  shaders : List ShaderDefinition
deriving DecidableEq, Repr

/-- `readVariant`. -/
def readVariant (version : Nat) : RM Variant := do
  let isSupported ← readBool
  let flagCount ← readUshort
  let shaderCount ← readUshort
  let flags ← readN flagCount (do
    let k ← readString
    let v ← readString
    pure (k, v))
  let shaders ← readN shaderCount (readShaderDefinition version)
  pure ⟨isSupported, flags, shaders⟩

/-- `writeVariant`. -/
def writeVariant (version : Nat) (v : Variant) : Except JsErr (List Nat) := do
  let shaderChunks ← mapME (writeShaderDefinition version) v.shaders
  pure (wBool v.isSupported ++ u16le v.flags.length ++ u16le v.shaders.length
    ++ v.flags.flatMap (fun kv => writeString kv.1 ++ writeString kv.2)
    ++ shaderChunks.flatten)

-- ── Supported platforms (`src/material/supported-platforms.ts`) ──
-- The platform map always holds all fifteen platforms keyed in ascending
-- numeric order, so it is modelled as a list of fifteen booleans indexed
-- by `platVal - 1`.

/-- The map value for one platform. -/
def spGet (sp : List Bool) (p : ShaderPlatform) : Bool := sp.getD (platVal p - 1) true

/-- `Map.set` for one platform. -/
def spSet (sp : List Bool) (p : ShaderPlatform) (b : Bool) : List Bool :=
  sp.set (platVal p - 1) b

/-- `validateBitString`. -/
def validateBitString (bitString : JStr) (length : Nat) : JStr :=
  if bitString.any (fun c => c ≠ ('0').toNat ∧ c ≠ ('1').toNat) then
    List.replicate length ('1').toNat
  else bitString

/-- `formatBitString`: truncate to `length`, then pad with leading zeros. -/
def formatBitString (bitString : JStr) (length : Nat) : JStr :=
  let truncated := bitString.take length
  List.replicate (length - truncated.length) ('0').toNat ++ truncated

/-- `parseSupportedPlatforms`. -/
def parseSupportedPlatforms (bitString : JStr) (version : Nat) : List Bool :=
  let platformList := getPlatformList version
  let length := platformList.length
  let validated := validateBitString bitString length
  let formatted := formatBitString validated length
  platformList.enum.foldl
    (fun acc ip => spSet acc ip.2 (formatted.getD ip.1 0 = ('1').toNat))
    (List.replicate 15 true)

/-- `getSupportedPlatformsBitString`. -/
def getSupportedPlatformsBitString (sp : List Bool) (version : Nat) : JStr :=
  (getPlatformList version).map
    (fun p => if spGet sp p then ('1').toNat else ('0').toNat)

/-- `Pass`. -/
structure Pass where
  name : JStr
  supportedPlatforms : List Bool
  fallbackPass : JStr
  defaultBlendMode : Int
  defaultVariant : List (JStr × JStr)
  framebufferBinding : Nat
  variants : List Variant
deriving DecidableEq, Repr

/-- `readPass`. -/
def readPass (version : Nat) : RM Pass := do
  let name ← readString
  let spString ← readString
  let supportedPlatforms := parseSupportedPlatforms spString version
  let fallbackPass ← readString
  let defaultBlendMode ← readBlendMode
  let defaultFlagCount ← readUshort
  let defaultVariant ← readN defaultFlagCount (do
    let k ← readString
    let v ← readString
    pure (k, v))
  let framebufferBinding ← if 23 ≤ version then readUlong else pure 0
  let variantCount ← readUshort
  let variants ← readN variantCount (readVariant version)
  pure ⟨name, supportedPlatforms, fallbackPass, defaultBlendMode, defaultVariant,
    framebufferBinding, variants⟩

/-- `writePass`. -/
def writePass (version : Nat) (p : Pass) : Except JsErr (List Nat) := do
  let variantChunks ← mapME (writeVariant version) p.variants
  pure (writeString p.name
    ++ writeString (getSupportedPlatformsBitString p.supportedPlatforms version)
    ++ writeString p.fallbackPass
    ++ wBool (p.defaultBlendMode ≠ -1)
    ++ (if p.defaultBlendMode ≠ -1 then u16le (toUint16I p.defaultBlendMode) else [])
    ++ u16le p.defaultVariant.length
    ++ p.defaultVariant.flatMap (fun kv => writeString kv.1 ++ writeString kv.2)
    ++ (if 23 ≤ version then u32le p.framebufferBinding else [])
    ++ u16le p.variants.length
    ++ variantChunks.flatten)

-- ── Encryption layer (`src/material/encryption.ts`) ─────────────
-- `crypto.subtle` AES-CTR with `{counter: nonce12 || 0x00000002, length: 32}`
-- XORs the data with the keystream `E(key, counterBlock(j))`, incrementing
-- only the low 32 bits of the counter block (mod 2^32).  The AES block
-- function `E` itself is an external primitive; every definition below is
-- parameterized over it, and every theorem holds for arbitrary `E`.

/-- The 16-byte counter block: the (≤ 12 byte) truncated nonce, zero-padded
to 12 bytes, followed by the 32-bit big-endian counter. -/
def counterBlockBytes (nonce12 : List Nat) (ctr : Nat) : List Nat :=
  nonce12 ++ List.replicate (12 - nonce12.length) 0
  ++ [ctr / 256 ^ 3 % 256, ctr / 256 ^ 2 % 256, ctr / 256 % 256, ctr % 256]

/-- Byte `i` of the AES-CTR keystream (counter starts at 2: GCM reserves
counter 1 for the authentication tag). -/
def keystreamByte (E : List Nat → List Nat → List Nat)
    (key nonce12 : List Nat) (i : Nat) : Nat :=
  byteAt (E key (counterBlockBytes nonce12 ((2 + i / 16) % 2 ^ 32))) (i % 16)

/-- XOR the data with the keystream from byte index `i` on. -/
def xorKeystream (E : List Nat → List Nat → List Nat)
    (key nonce12 : List Nat) : Nat → List Nat → List Nat
  | _, [] => []
  | i, b :: bs => (b ^^^ keystreamByte E key nonce12 i) :: xorKeystream E key nonce12 (i + 1) bs

/-- `encryptAesGcm`: AES-CTR over the truncated nonce. -/
def encryptAesGcm (E : List Nat → List Nat → List Nat)
    (key nonce plaintext : List Nat) : List Nat :=
  xorKeystream E key (nonce.take 12) 0 plaintext

/-- `decryptAesGcm`: the identical CTR transform. -/
def decryptAesGcm (E : List Nat → List Nat → List Nat)
    (key nonce ciphertext : List Nat) : List Nat :=
  xorKeystream E key (nonce.take 12) 0 ciphertext

-- ── Material (`src/material/enums.ts`, second half) ─────────────

/-- `MAGIC`. -/
def MAGIC : Nat := 168942106

/-- `COMPILED_MATERIAL_DEFINITION`. -/
def CMD : JStr := jstr "RenderDragon.CompiledMaterialDefinition"

/-- `Material`. -/
structure Material where
  version : Nat
  name : JStr
  encryption : EncryptionType
  parent : JStr
  buffers : List MaterialBuffer
  uniforms : List MUniform
  uniformOverrides : List (JStr × JStr)
  passes : List Pass
  encryptionKey : List Nat
  encryptionNonce : List Nat
deriving DecidableEq, Repr

/-- The header reads of `readMaterial`: magic, identifier, version,
encryption tag. -/
def readMaterialHeader : RM (Nat × EncryptionType) := do
  let magic ← readUlonglong
  if magic ≠ MAGIC then
    rThrow (.formatError (jstr "Failed to match file magic"))
  else do
    let definition ← readString
    if definition ≠ CMD then
      rThrow (.formatError (jstr "Failed to recognize file as material"))
    else do
      let version ← readUlonglong
      if version < 22 ∨ version > 25 then
        rThrow (.unsupportedVersion version)
      else do
        let encryption ← readEncryptionType
        pure (version, encryption)

/-- The body reads of `readMaterial` (run on `bodyReader`). -/
def readMaterialBody (version : Nat) :
    RM (JStr × JStr × List MaterialBuffer × List MUniform
      × List (JStr × JStr) × List Pass) := do
  let name ← readString
  let parent ← readOptString
  let bufferCount ← readUbyte
  let buffers ← readN bufferCount (readMaterialBuffer version)
  let uniformCount ← readUshort
  let uniforms ← readN uniformCount (readUniform version)
  let uniformOverrides ←
    if name ≠ jstr "Core/Builtins" then do
      let overrideCount ← readUshort
      readN overrideCount (do
        let k ← readString
        let v ← readString
        pure (k, v))
    else pure []
  let passCount ← readUshort
  let passes ← readN passCount (readPass version)
  let trailingMagic ← readUlonglong
  if trailingMagic ≠ MAGIC then
    rThrow (.formatError (jstr "Failed to match trailing file magic"))
  else
    pure (name, parent, buffers, uniforms, uniformOverrides, passes)

/-- `readMaterial`. -/
def readMaterial (E : List Nat → List Nat → List Nat) (data : List Nat) :
    Except JsErr Material := do
  let ((version, encryption), s1) ← readMaterialHeader ⟨data, 0⟩
  match encryption with
  | .SIMPLE_PASSPHRASE => do
    let ((encryptionKey, encryptionNonce, encryptedData), _) ←
      (do
        let k ← readArray
        let n ← readArray
        let e ← readArray
        pure (k, n, e) : RM _) s1
    let decrypted := decryptAesGcm E encryptionKey encryptionNonce encryptedData
    let ((name, parent, buffers, uniforms, uniformOverrides, passes), _) ←
      readMaterialBody version ⟨decrypted, 0⟩
    pure ⟨version, name, encryption, parent, buffers, uniforms, uniformOverrides,
      passes, encryptionKey, encryptionNonce⟩
  | .KEY_PAIR => .error (.encryptionError (jstr "KEY_PAIR encryption is not supported"))
  | .NONE => do
    let ((name, parent, buffers, uniforms, uniformOverrides, passes), _) ←
      readMaterialBody version s1
    pure ⟨version, name, encryption, parent, buffers, uniforms, uniformOverrides,
      passes, [], []⟩

/-- `writeRemainingBody`. -/
def writeRemainingBody (m : Material) : Except JsErr (List Nat) := do
  let passChunks ← mapME (writePass m.version) m.passes
  pure (writeString m.name
    ++ wBool (m.parent ≠ [])
    ++ (if m.parent ≠ [] then writeString m.parent else [])
    ++ wUbyte m.buffers.length
    ++ m.buffers.flatMap (writeMaterialBuffer m.version)
    ++ u16le m.uniforms.length
    ++ m.uniforms.flatMap (writeUniform m.version)
    ++ (if m.name ≠ jstr "Core/Builtins" then
          u16le m.uniformOverrides.length
          ++ m.uniformOverrides.flatMap (fun kv => writeString kv.1 ++ writeString kv.2)
        else [])
    ++ u16le m.passes.length
    ++ passChunks.flatten
    ++ u64le MAGIC)

/-- `writeMaterial`. -/
def writeMaterial (E : List Nat → List Nat → List Nat) (m : Material) :
    Except JsErr (List Nat) := do
  let header := u64le MAGIC ++ writeString CMD ++ u64le m.version
    ++ writeEncryptionType m.encryption
  match m.encryption with
  | .SIMPLE_PASSPHRASE => do
    let body ← writeRemainingBody m
    let encrypted := encryptAesGcm E m.encryptionKey m.encryptionNonce body
    pure (header ++ writeArrayB m.encryptionKey ++ writeArrayB m.encryptionNonce
      ++ writeArrayB encrypted)
  | .KEY_PAIR => .error (.encryptionError (jstr "KEY_PAIR encryption is not supported"))
  | .NONE => do
    let body ← writeRemainingBody m
    pure (header ++ body)

-- ── Round-trip infrastructure ───────────────────────────────────

/-- `ReadsE r w a`: from any cursor whose remaining bytes start with `w`,
the reader `r` succeeds with value `a`, consuming exactly `w`. -/
def ReadsE {α : Type} (r : RM α) (w : List Nat) (a : α) : Prop :=
  ∀ bytes off rest, bytes.drop off = w ++ rest →
    r ⟨bytes, off⟩ = .ok (a, ⟨bytes, off + w.length⟩)

/-- `ReadsX r w a`: from a cursor whose remaining bytes are exactly `w`,
the reader `r` succeeds with value `a`, consuming all of `w`.  (Needed for
readers that inspect `remaining`.) -/
def ReadsX {α : Type} (r : RM α) (w : List Nat) (a : α) : Prop :=
  ∀ bytes off, bytes.drop off = w →
    r ⟨bytes, off⟩ = .ok (a, ⟨bytes, off + w.length⟩)

theorem drop_shift {bytes w rest : List Nat} {off : Nat}
    (h : bytes.drop off = w ++ rest) : bytes.drop (off + w.length) = rest := by
  have h2 := congrArg (List.drop w.length) h
  rw [List.drop_drop, List.drop_left] at h2
  exact h2

theorem ReadsE.toX {α : Type} {r : RM α} {w : List Nat} {a : α}
    (h : ReadsE r w a) : ReadsX r w a := by
  intro bytes off hd
  exact h bytes off [] (by simpa using hd)

theorem ReadsE.bind {α β : Type} {r : RM α} {f : α → RM β}
    {w1 w2 : List Nat} {a : α} {b : β}
    (h1 : ReadsE r w1 a) (h2 : ReadsE (f a) w2 b) :
    ReadsE (r >>= f) (w1 ++ w2) b := by
  intro bytes off rest h
  rw [List.append_assoc] at h
  rw [rm_bind_ok (h1 bytes off _ h)]
  rw [h2 bytes (off + w1.length) rest (drop_shift h)]
  simp [List.length_append, Nat.add_assoc]

theorem ReadsE.bindX {α β : Type} {r : RM α} {f : α → RM β}
    {w1 w2 : List Nat} {a : α} {b : β}
    (h1 : ReadsE r w1 a) (h2 : ReadsX (f a) w2 b) :
    ReadsX (r >>= f) (w1 ++ w2) b := by
  intro bytes off h
  rw [rm_bind_ok (h1 bytes off w2 (by simpa using h))]
  rw [h2 bytes (off + w1.length) (drop_shift (by simpa using h))]
  simp [List.length_append, Nat.add_assoc]

theorem ReadsE.pure {α : Type} (a : α) : ReadsE (pure a) [] a := by
  intro bytes off rest h
  simp [rm_pure_def]

theorem ReadsX.remaining_bind {α : Type} {f : Nat → RM α} {w : List Nat} {a : α}
    (h : ReadsX (f w.length) w a) : ReadsX (rmRemaining >>= f) w a := by
  intro bytes off hd
  have hlen : bytes.length - off = w.length := by
    rw [← List.length_drop, hd]
  have : rmRemaining ⟨bytes, off⟩ = .ok (w.length, ⟨bytes, off⟩) := by
    simp [rmRemaining, hlen]
  rw [rm_bind_ok this]
  exact h bytes off hd

theorem readsE_ubyte (b : Nat) : ReadsE readUbyte [b] b := by
  intro bytes off rest h
  have hlen : bytes.length - off = ([b] ++ rest).length := by
    rw [← List.length_drop, h]
  have hoff : off + 1 ≤ bytes.length := by
    simp at hlen; omega
  have hval : byteAt bytes off = b := by
    have h0 : ((bytes.drop off)[0]?).getD 0 = b := by rw [h]; simp
    rw [List.getElem?_drop] at h0
    simpa [byteAt, List.getD] using h0
  unfold readUbyte
  rw [if_pos hoff, hval]
  simp

theorem readsE_wUbyte {v : Nat} (hv : v < 256) : ReadsE readUbyte (wUbyte v) v := by
  have : v % 256 = v := Nat.mod_eq_of_lt hv
  simpa [wUbyte, this] using readsE_ubyte v

theorem readsE_bool (b : Bool) : ReadsE readBool (wBool b) b := by
  cases b
  · have h0 := readsE_ubyte 0
    intro bytes off rest h
    unfold readBool
    rw [rm_bind_ok (h0 bytes off rest (by simpa [wBool] using h))]
    simp [rm_pure_def, wBool]
  · have h1 := readsE_ubyte 1
    intro bytes off rest h
    unfold readBool
    rw [rm_bind_ok (h1 bytes off rest (by simpa [wBool] using h))]
    simp [rm_pure_def, wBool]

theorem ReadsE.of_eq {α : Type} {r : RM α} {w w' : List Nat} {a a' : α}
    (h : ReadsE r w a) (hw : w = w') (ha : a = a') : ReadsE r w' a' := by
  subst hw; subst ha; exact h

theorem ReadsE.congr_r {α : Type} {r r' : RM α} {w : List Nat} {a : α}
    (h : ReadsE r w a) (hr : r' = r) : ReadsE r' w a := by
  subst hr; exact h

theorem byteAt_of_drop {bytes w rest : List Nat} {off k : Nat}
    (h : bytes.drop off = w ++ rest) (hk : k < w.length) :
    byteAt bytes (off + k) = byteAt w k := by
  have h0 : ((bytes.drop off)[k]?) = w[k]? := by
    rw [h, List.getElem?_append, if_pos hk]
  rw [List.getElem?_drop] at h0
  simp [byteAt, List.getD, h0]

theorem len_ge_of_drop {bytes w rest : List Nat} {off : Nat}
    (h : bytes.drop off = w ++ rest) : off + w.length ≤ bytes.length ∨
      (bytes.length - off = w.length + rest.length) := by
  right
  rw [← List.length_drop, h, List.length_append]

theorem readsE_u16 {v : Nat} (hv : v < 2 ^ 16) : ReadsE readUshort (u16le v) v := by
  intro bytes off rest h
  have hlen : bytes.length - off = (u16le v ++ rest).length := by
    rw [← List.length_drop, h]
  simp only [u16le, List.length_append, List.length_cons] at hlen
  have hoff : off + 2 ≤ bytes.length := by
    simp at hlen; omega
  have h0 := byteAt_of_drop h (k := 0) (by simp [u16le])
  have h1 := byteAt_of_drop h (k := 1) (by simp [u16le])
  simp only [Nat.add_zero] at h0
  unfold readUshort
  rw [if_pos hoff, h0, h1]
  have hval : byteAt (u16le v) 0 + 256 * byteAt (u16le v) 1 = v := by
    simp [u16le, byteAt]
    omega
  rw [hval]
  simp [u16le]

theorem readsE_u32 {v : Nat} (hv : v < 2 ^ 32) : ReadsE readUlong (u32le v) v := by
  intro bytes off rest h
  have hlen : bytes.length - off = (u32le v ++ rest).length := by
    rw [← List.length_drop, h]
  simp only [u32le, List.length_append, List.length_cons] at hlen
  have hoff : off + 4 ≤ bytes.length := by
    simp at hlen; omega
  have h0 := byteAt_of_drop h (k := 0) (by simp [u32le])
  have h1 := byteAt_of_drop h (k := 1) (by simp [u32le])
  have h2 := byteAt_of_drop h (k := 2) (by simp [u32le])
  have h3 := byteAt_of_drop h (k := 3) (by simp [u32le])
  simp only [Nat.add_zero] at h0
  unfold readUlong
  rw [if_pos hoff, h0, h1, h2, h3]
  have hval : byteAt (u32le v) 0 + 256 * byteAt (u32le v) 1
      + 256 ^ 2 * byteAt (u32le v) 2 + 256 ^ 3 * byteAt (u32le v) 3 = v := by
    simp [u32le, byteAt]
    omega
  rw [hval]
  simp [u32le]

theorem readsE_u64 {v : Nat} (hv : v < 2 ^ 64) : ReadsE readUlonglong (u64le v) v := by
  intro bytes off rest h
  have hlen : bytes.length - off = (u64le v ++ rest).length := by
    rw [← List.length_drop, h]
  simp only [u64le, List.length_append, List.length_cons] at hlen
  have hoff : off + 8 ≤ bytes.length := by
    simp at hlen; omega
  have h0 := byteAt_of_drop h (k := 0) (by simp [u64le])
  have h1 := byteAt_of_drop h (k := 1) (by simp [u64le])
  have h2 := byteAt_of_drop h (k := 2) (by simp [u64le])
  have h3 := byteAt_of_drop h (k := 3) (by simp [u64le])
  have h4 := byteAt_of_drop h (k := 4) (by simp [u64le])
  have h5 := byteAt_of_drop h (k := 5) (by simp [u64le])
  have h6 := byteAt_of_drop h (k := 6) (by simp [u64le])
  have h7 := byteAt_of_drop h (k := 7) (by simp [u64le])
  simp only [Nat.add_zero] at h0
  unfold readUlonglong
  rw [if_pos hoff, h0, h1, h2, h3, h4, h5, h6, h7]
  have hval : byteAt (u64le v) 0 + 256 * byteAt (u64le v) 1
      + 256 ^ 2 * byteAt (u64le v) 2 + 256 ^ 3 * byteAt (u64le v) 3
      + 256 ^ 4 * byteAt (u64le v) 4 + 256 ^ 5 * byteAt (u64le v) 5
      + 256 ^ 6 * byteAt (u64le v) 6 + 256 ^ 7 * byteAt (u64le v) 7 = v := by
    simp [u64le, byteAt]
    omega
  rw [hval]
  simp [u64le]

theorem readsE_bytesExact (w : List Nat) : ReadsE (readBytes w.length) w w := by
  intro bytes off rest h
  unfold readBytes
  rw [h, List.take_left]

theorem readsE_array {w : List Nat} (hw : w.length < 2 ^ 32) :
    ReadsE readArray (writeArrayB w) w := by
  unfold readArray writeArrayB
  exact ReadsE.bind (readsE_u32 hw) (readsE_bytesExact w)

/-- `ValidStr`: well-formed scalar values whose encoding fits the u32
length prefix. -/
def ValidStr (s : JStr) : Prop := ScalarStr s ∧ (utf8Enc s).length < 2 ^ 32

instance (s : JStr) : Decidable (ValidStr s) := by
  unfold ValidStr; infer_instance

theorem readsE_string {s : JStr} (hs : ValidStr s) :
    ReadsE readString (writeString s) s := by
  unfold readString writeString
  refine ReadsE.of_eq (ReadsE.bind (readsE_array hs.2) (ReadsE.pure (utf8Dec (utf8Enc s))))
    (by simp) (utf8Dec_utf8Enc s hs.1)

theorem readsE_liftE {α : Type} {x : Except JsErr α} {a : α} (h : x = .ok a) :
    ReadsE (liftE x) [] a := by
  intro bytes off rest hd
  simp [liftE, h]

theorem readsE_N {α : Type} {item : RM α} {wItem : α → List Nat} (L : List α)
    (h : ∀ a ∈ L, ReadsE item (wItem a) a) :
    ReadsE (readN L.length item) (L.flatMap wItem) L := by
  induction L with
  | nil =>
    simpa [readN] using ReadsE.pure ([] : List α)
  | cons a rest ih =>
    simp only [List.length_cons, List.flatMap_cons]
    unfold readN
    refine ReadsE.of_eq (ReadsE.bind (h a (by simp)) (ReadsE.bind
      (ih (fun x hx => h x (by simp [hx])))
      (ReadsE.pure (a :: rest)))) (by simp) rfl

-- ── Validity (the data model's "valid fields", spec §3) ─────────

/-- Valid `SamplerState`: one-bit filter and wrap. -/
def ValidSampler (s : SamplerState) : Prop := s.filter ≤ 1 ∧ s.wrapping ≤ 1

/-- Valid `MaterialBuffer`: strings well-formed, integers within their wire
widths (`precision` is a byte-backed enum, so `None = -1` is excluded). -/
def ValidBuffer (b : MaterialBuffer) : Prop :=
  ValidStr b.name ∧ b.reg1 < 2 ^ 16 ∧ b.access < 256
  ∧ 0 ≤ b.precision ∧ b.precision < 256 ∧ b.type < 256
  ∧ ValidStr b.textureFormat ∧ b.alwaysOne < 2 ^ 32 ∧ b.reg2 < 256
  ∧ (∀ ss ∈ b.samplerState, ValidSampler ss)
  ∧ ValidStr b.defaultTexture ∧ ValidStr b.texturePath
  ∧ (∀ c ∈ b.customTypeInfo, ValidStr c.struct ∧ c.size < 2 ^ 32)

/-- Valid `Uniform`: type in 2..5; `count`/`default` only for 2..4 with the
default sized by `FLOAT_COUNTS`; `External` (5) carries no extra data. -/
def ValidUniform (u : MUniform) : Prop :=
  ValidStr u.name ∧ 2 ≤ u.type ∧ u.type ≤ 5 ∧ u.count < 2 ^ 32
  ∧ (∀ x ∈ u.default, x < 2 ^ 32)
  ∧ (match floatCounts u.type with
     | some fc => u.default.length = 0 ∨ u.default.length = fc
     | none => u.default = [])
  ∧ (u.type = 5 → u.count = 0)

/-- Valid `ShaderInput`. -/
def ValidInput (i : ShaderInput) : Prop :=
  ValidStr i.name ∧ i.type < 256 ∧ i.semantic.index < 256 ∧ i.semantic.subIndex < 256
  ∧ (i.precision = -1 ∨ (0 ≤ i.precision ∧ i.precision < 256))
  ∧ (i.interpolation = -1 ∨ (0 ≤ i.interpolation ∧ i.interpolation < 256))

/-- Valid `BgfxUniform` (the name's length prefix is a single byte). -/
def ValidBgfxUniform (u : BgfxUniform) : Prop :=
  ScalarStr u.name ∧ (utf8Enc u.name).length < 256 ∧ u.typeBits < 256
  ∧ u.count < 256 ∧ u.regIndex < 2 ^ 16 ∧ u.regCount < 2 ^ 16

/-- Valid `BgfxShader` for a given platform and stage: hash within the u32
wire width, `groupSize` exactly for Metal compute, attribute block present
iff `size ≠ -1`. -/
def ValidBgfx (platform : ShaderPlatform) (stage : ShaderStage) (sh : BgfxShader) : Prop :=
  sh.hash < 2 ^ 32 ∧ sh.uniforms.length < 2 ^ 16
  ∧ (∀ u ∈ sh.uniforms, ValidBgfxUniform u)
  ∧ (if platform = .Metal ∧ stage = .Compute then
       sh.groupSize.length = 3 ∧ ∀ x ∈ sh.groupSize, x < 2 ^ 16
     else sh.groupSize = [])
  ∧ sh.shaderBytes.length < 2 ^ 32 ∧ (∀ b ∈ sh.shaderBytes, b < 256)
  ∧ (sh.size = -1 → sh.attributes = [])
  ∧ (sh.size = -1 ∨ (0 ≤ sh.size ∧ sh.size < 2 ^ 16))
  ∧ sh.attributes.length < 256 ∧ (∀ x ∈ sh.attributes, x < 2 ^ 16)

/-- Valid `ShaderDefinition`. -/
def ValidShaderDef (d : ShaderDefinition) : Prop :=
  (∀ i ∈ d.inputs, ValidInput i) ∧ d.inputs.length < 2 ^ 16 ∧ d.hash < 2 ^ 64
  ∧ ValidBgfx d.platform d.stage d.bgfxShader
  ∧ (writeBgfxShader d.platform d.stage d.bgfxShader).length < 2 ^ 32

/-- Valid `Variant`. -/
def ValidVariant (v : Variant) : Prop :=
  v.flags.length < 2 ^ 16 ∧ v.shaders.length < 2 ^ 16
  ∧ (∀ kv ∈ v.flags, ValidStr kv.1 ∧ ValidStr kv.2)
  ∧ (∀ d ∈ v.shaders, ValidShaderDef d)

/-- Valid `Pass` under a container version: the platform map always holds
all fifteen platforms, and `framebufferBinding` is zero below version 23
(where it has no wire representation). -/
def ValidPass (version : Nat) (p : Pass) : Prop :=
  ValidStr p.name ∧ p.supportedPlatforms.length = 15 ∧ ValidStr p.fallbackPass
  ∧ (p.defaultBlendMode = -1 ∨ (0 ≤ p.defaultBlendMode ∧ p.defaultBlendMode < 2 ^ 16))
  ∧ p.defaultVariant.length < 2 ^ 16
  ∧ (∀ kv ∈ p.defaultVariant, ValidStr kv.1 ∧ ValidStr kv.2)
  ∧ p.framebufferBinding < 2 ^ 32 ∧ (version < 23 → p.framebufferBinding = 0)
  ∧ p.variants.length < 2 ^ 16 ∧ (∀ v ∈ p.variants, ValidVariant v)

/-- Valid `Material` (claim C1's "valid fields"): version 22–25, encryption
not `KEY_PAIR`, enum/count fields within wire widths, overrides absent for
`Core/Builtins`, encryption key/nonce present only when encrypted (with an
AES-legal key length), and the encrypted body within the u32 array prefix. -/
def ValidMaterial (m : Material) : Prop :=
  22 ≤ m.version ∧ m.version ≤ 25 ∧ m.encryption ≠ .KEY_PAIR
  ∧ ValidStr m.name ∧ ValidStr m.parent
  ∧ m.buffers.length < 256 ∧ (∀ b ∈ m.buffers, ValidBuffer b)
  ∧ m.uniforms.length < 2 ^ 16 ∧ (∀ u ∈ m.uniforms, ValidUniform u)
  ∧ (m.name = jstr "Core/Builtins" → m.uniformOverrides = [])
  ∧ m.uniformOverrides.length < 2 ^ 16
  ∧ (∀ kv ∈ m.uniformOverrides, ValidStr kv.1 ∧ ValidStr kv.2)
  ∧ m.passes.length < 2 ^ 16 ∧ (∀ p ∈ m.passes, ValidPass m.version p)
  ∧ (m.encryption = .NONE → m.encryptionKey = [] ∧ m.encryptionNonce = [])
  ∧ (m.encryption = .SIMPLE_PASSPHRASE →
      (m.encryptionKey.length = 16 ∨ m.encryptionKey.length = 24
        ∨ m.encryptionKey.length = 32)
      ∧ m.encryptionNonce.length < 2 ^ 32
      ∧ ∀ body, writeRemainingBody m = .ok body → body.length < 2 ^ 32)

-- ── Entity read-write lemmas ────────────────────────────────────

theorem readsE_shaderInput {i : ShaderInput} (h : ValidInput i) :
    ReadsE readShaderInput (writeShaderInput i) i := by
  obtain ⟨hn, ht, hsi, hss, hp, hin⟩ := h
  obtain ⟨nm, ty, ⟨semi, sems⟩, pin, prec, itp⟩ := i
  simp only at hn ht hsi hss hp hin
  unfold readShaderInput writeShaderInput
  simp only
  rcases hp with hp | hp
  · subst hp
    rcases hin with hin | hin
    · subst hin
      exact ReadsE.of_eq (ReadsE.bind (readsE_string hn) (ReadsE.bind (readsE_wUbyte ht)
        (ReadsE.bind (readsE_wUbyte hsi) (ReadsE.bind (readsE_wUbyte hss)
        (ReadsE.bind (readsE_bool pin)
        (ReadsE.bind (readsE_bool false) (ReadsE.bind (ReadsE.pure (-1 : Int))
        (ReadsE.bind (readsE_bool false) (ReadsE.bind (ReadsE.pure (-1 : Int))
        (ReadsE.pure _)))))))))) (by simp) rfl
    · have hne : itp ≠ -1 := by omega
      have hv : ((toUint8I itp : Nat) : Int) = itp := by unfold toUint8I; omega
      refine ReadsE.of_eq (ReadsE.bind (readsE_string hn) (ReadsE.bind (readsE_wUbyte ht)
        (ReadsE.bind (readsE_wUbyte hsi) (ReadsE.bind (readsE_wUbyte hss)
        (ReadsE.bind (readsE_bool pin)
        (ReadsE.bind (readsE_bool false) (ReadsE.bind (ReadsE.pure (-1 : Int))
        (ReadsE.bind (readsE_bool true)
        (ReadsE.bind (readsE_ubyte (toUint8I itp))
        (ReadsE.bind (ReadsE.pure ((toUint8I itp : Nat) : Int))
        (ReadsE.pure _))))))))))) (by simp [hne, toUint8I]) (by simp [hv])
  · have hne : prec ≠ -1 := by omega
    have hv : ((toUint8I prec : Nat) : Int) = prec := by unfold toUint8I; omega
    rcases hin with hin | hin
    · subst hin
      refine ReadsE.of_eq (ReadsE.bind (readsE_string hn) (ReadsE.bind (readsE_wUbyte ht)
        (ReadsE.bind (readsE_wUbyte hsi) (ReadsE.bind (readsE_wUbyte hss)
        (ReadsE.bind (readsE_bool pin)
        (ReadsE.bind (readsE_bool true)
        (ReadsE.bind (readsE_ubyte (toUint8I prec))
        (ReadsE.bind (ReadsE.pure ((toUint8I prec : Nat) : Int))
        (ReadsE.bind (readsE_bool false) (ReadsE.bind (ReadsE.pure (-1 : Int))
        (ReadsE.pure _))))))))))) (by simp [hne, toUint8I]) (by simp [hv])
    · have hne2 : itp ≠ -1 := by omega
      have hv2 : ((toUint8I itp : Nat) : Int) = itp := by unfold toUint8I; omega
      refine ReadsE.of_eq (ReadsE.bind (readsE_string hn) (ReadsE.bind (readsE_wUbyte ht)
        (ReadsE.bind (readsE_wUbyte hsi) (ReadsE.bind (readsE_wUbyte hss)
        (ReadsE.bind (readsE_bool pin)
        (ReadsE.bind (readsE_bool true)
        (ReadsE.bind (readsE_ubyte (toUint8I prec))
        (ReadsE.bind (ReadsE.pure ((toUint8I prec : Nat) : Int))
        (ReadsE.bind (readsE_bool true)
        (ReadsE.bind (readsE_ubyte (toUint8I itp))
        (ReadsE.bind (ReadsE.pure ((toUint8I itp : Nat) : Int))
        (ReadsE.pure _)))))))))))) (by simp [hne, hne2, toUint8I]) (by simp [hv, hv2])

theorem readsE_optString_none : ReadsE readOptString (wBool false) [] := by
  unfold readOptString
  exact ReadsE.of_eq (ReadsE.bind (readsE_bool false) (ReadsE.pure []))
    (by simp) rfl

theorem readsE_optString_some {s : JStr} (hs : ValidStr s) (hne : s ≠ []) :
    ReadsE readOptString (wBool true ++ writeString s) s := by
  unfold readOptString
  exact ReadsE.bind (readsE_bool true) (readsE_string hs)

theorem getSamplerStateValue_lt {s : SamplerState} (h : ValidSampler s) :
    getSamplerStateValue s ≤ 3 := by
  obtain ⟨f, w⟩ := s
  obtain ⟨hf, hw⟩ := h
  simp only at hf hw
  unfold getSamplerStateValue
  simp only
  interval_cases f <;> interval_cases w <;> decide

theorem createSampler_roundtrip {s : SamplerState} (h : ValidSampler s) :
    createSamplerState (getSamplerStateValue s) = .ok s := by
  obtain ⟨f, w⟩ := s
  obtain ⟨hf, hw⟩ := h
  simp only at hf hw
  unfold createSamplerState getSamplerStateValue
  simp only
  interval_cases f <;> interval_cases w <;> rfl

theorem readsE_optSampler_none : ReadsE readOptSampler (wBool false) none := by
  unfold readOptSampler
  exact ReadsE.of_eq (ReadsE.bind (readsE_bool false) (ReadsE.pure none))
    (by simp) rfl

theorem readsE_optSampler_some {s : SamplerState} (h : ValidSampler s) :
    ReadsE readOptSampler (wBool true ++ wUbyte (getSamplerStateValue s)) (some s) := by
  unfold readOptSampler
  refine ReadsE.of_eq (ReadsE.bind (readsE_bool true)
    (ReadsE.bind (readsE_wUbyte (by have := getSamplerStateValue_lt h; omega))
    (ReadsE.bind (readsE_liftE (createSampler_roundtrip h)) (ReadsE.pure (some s)))))
    (by simp) rfl

theorem readsE_optCustom_none : ReadsE readOptCustom (wBool false) none := by
  unfold readOptCustom
  exact ReadsE.of_eq (ReadsE.bind (readsE_bool false) (ReadsE.pure none))
    (by simp) rfl

theorem readsE_optCustom_some {c : CustomTypeInfo} (hs : ValidStr c.struct)
    (hz : c.size < 2 ^ 32) :
    ReadsE readOptCustom (wBool true ++ writeString c.struct ++ u32le c.size) (some c) := by
  unfold readOptCustom
  exact ReadsE.of_eq (ReadsE.bind (readsE_bool true)
    (ReadsE.bind (readsE_string hs) (ReadsE.bind (readsE_u32 hz)
    (ReadsE.pure (some c)))))
    (by simp) rfl

theorem readsE_blendMode_none : ReadsE readBlendMode (wBool false) (-1 : Int) := by
  unfold readBlendMode
  exact ReadsE.of_eq (ReadsE.bind (readsE_bool false) (ReadsE.pure (-1 : Int)))
    (by simp) rfl

theorem readsE_blendMode_some {m : Int} (h0 : 0 ≤ m) (h1 : m < 2 ^ 16) :
    ReadsE readBlendMode (wBool true ++ u16le (toUint16I m)) m := by
  unfold readBlendMode
  have hlt : toUint16I m < 2 ^ 16 := by unfold toUint16I; omega
  have hv : ((toUint16I m : Nat) : Int) = m := by unfold toUint16I; omega
  exact ReadsE.of_eq (ReadsE.bind (readsE_bool true)
    (ReadsE.bind (readsE_u16 hlt) (ReadsE.pure ((toUint16I m : Nat) : Int))))
    (by simp) hv

theorem readsE_buffer {v : Nat} {b : MaterialBuffer} (h : ValidBuffer b) :
    ReadsE (readMaterialBuffer v) (writeMaterialBuffer v b) b := by
  obtain ⟨hn, hr1, hac, hp0, hp1, hty, htf, hao, hr2, hss, hdt, htp, hct⟩ := h
  obtain ⟨nm, reg1, access, precision, unordered, ty, tf, ao, reg2, ss, dt, tp, ct⟩ := b
  simp only at hn hr1 hac hp0 hp1 hty htf hao hr2 hss hdt htp hct
  unfold readMaterialBuffer writeMaterialBuffer
  simp only
  have hpv : ((toUint8I precision : Nat) : Int) = precision := by unfold toUint8I; omega
  have hdtex : ReadsE readOptString
      ((wBool (dt ≠ [])) ++ (if dt ≠ [] then writeString dt else [])) dt := by
    by_cases hd : dt = []
    · subst hd
      simpa using readsE_optString_none
    · simpa [hd] using readsE_optString_some hdt hd
  have htpath : ReadsE readOptString
      ((wBool (tp ≠ [])) ++ (if tp ≠ [] then writeString tp else [])) tp := by
    by_cases hd : tp = []
    · subst hd
      simpa using readsE_optString_none
    · simpa [hd] using readsE_optString_some htp hd
  cases ss with
  | none =>
    have HS := readsE_optSampler_none
    cases ct with
    | none =>
      have HC := readsE_optCustom_none
      refine ReadsE.of_eq (ReadsE.bind (readsE_string hn) (ReadsE.bind (readsE_u16 hr1)
      (ReadsE.bind (readsE_wUbyte hac) (ReadsE.bind (readsE_ubyte (toUint8I precision))
      (ReadsE.bind (readsE_bool unordered) (ReadsE.bind (readsE_wUbyte hty)
      (ReadsE.bind (readsE_string htf) (ReadsE.bind (readsE_u32 hao)
      (ReadsE.bind (readsE_wUbyte hr2) (ReadsE.bind HS
      (ReadsE.bind hdtex (ReadsE.bind htpath (ReadsE.bind HC
      (ReadsE.pure _)))))))))))))) (by simp) (by simp [hpv])
    | some c =>
      have HC := readsE_optCustom_some (hct c rfl).1 (hct c rfl).2
      refine ReadsE.of_eq (ReadsE.bind (readsE_string hn) (ReadsE.bind (readsE_u16 hr1)
      (ReadsE.bind (readsE_wUbyte hac) (ReadsE.bind (readsE_ubyte (toUint8I precision))
      (ReadsE.bind (readsE_bool unordered) (ReadsE.bind (readsE_wUbyte hty)
      (ReadsE.bind (readsE_string htf) (ReadsE.bind (readsE_u32 hao)
      (ReadsE.bind (readsE_wUbyte hr2) (ReadsE.bind HS
      (ReadsE.bind hdtex (ReadsE.bind htpath (ReadsE.bind HC
      (ReadsE.pure _)))))))))))))) (by simp) (by simp [hpv])
  | some s =>
    have HS := readsE_optSampler_some (hss s rfl)
    cases ct with
    | none =>
      have HC := readsE_optCustom_none
      refine ReadsE.of_eq (ReadsE.bind (readsE_string hn) (ReadsE.bind (readsE_u16 hr1)
      (ReadsE.bind (readsE_wUbyte hac) (ReadsE.bind (readsE_ubyte (toUint8I precision))
      (ReadsE.bind (readsE_bool unordered) (ReadsE.bind (readsE_wUbyte hty)
      (ReadsE.bind (readsE_string htf) (ReadsE.bind (readsE_u32 hao)
      (ReadsE.bind (readsE_wUbyte hr2) (ReadsE.bind HS
      (ReadsE.bind hdtex (ReadsE.bind htpath (ReadsE.bind HC
      (ReadsE.pure _)))))))))))))) (by simp) (by simp [hpv])
    | some c =>
      have HC := readsE_optCustom_some (hct c rfl).1 (hct c rfl).2
      refine ReadsE.of_eq (ReadsE.bind (readsE_string hn) (ReadsE.bind (readsE_u16 hr1)
      (ReadsE.bind (readsE_wUbyte hac) (ReadsE.bind (readsE_ubyte (toUint8I precision))
      (ReadsE.bind (readsE_bool unordered) (ReadsE.bind (readsE_wUbyte hty)
      (ReadsE.bind (readsE_string htf) (ReadsE.bind (readsE_u32 hao)
      (ReadsE.bind (readsE_wUbyte hr2) (ReadsE.bind HS
      (ReadsE.bind hdtex (ReadsE.bind htpath (ReadsE.bind HC
      (ReadsE.pure _)))))))))))))) (by simp) (by simp [hpv])

theorem readsE_f32array {L : List Nat} (h : ∀ x ∈ L, x < 2 ^ 32) :
    ReadsE (readFloat32Array L.length) (L.flatMap u32le) L := by
  induction L with
  | nil => simpa [readFloat32Array] using ReadsE.pure ([] : List Nat)
  | cons a rest ih =>
    simp only [List.length_cons, List.flatMap_cons]
    unfold readFloat32Array readFloat32
    refine ReadsE.of_eq (ReadsE.bind (readsE_u32 (h a (by simp))) (ReadsE.bind
      (ih (fun x hx => h x (by simp [hx])))
      (ReadsE.pure (a :: rest)))) (by simp) rfl

theorem readsE_uniform {v : Nat} {u : MUniform} (h : ValidUniform u) :
    ReadsE (readUniform v) (writeUniform v u) u := by
  obtain ⟨hn, ht2, ht5, hc, hd32, hlen, hext⟩ := h
  obtain ⟨nm, ty, cnt, dflt⟩ := u
  simp only at hn ht2 ht5 hc hd32 hlen hext
  unfold readUniform writeUniform
  simp only
  have hty : ty < 2 ^ 16 := by omega
  by_cases h5 : ty = 5
  · subst h5
    have hc0 : cnt = 0 := hext rfl
    subst hc0
    have hd : dflt = [] := by simpa [floatCounts] using hlen
    subst hd
    refine ReadsE.of_eq (ReadsE.bind (readsE_string hn) (ReadsE.bind (readsE_u16 hty)
      (ReadsE.congr_r (ReadsE.bind (ReadsE.pure ((0 : Nat), false))
        (ReadsE.congr_r (ReadsE.bind (ReadsE.pure ([] : List Nat)) (ReadsE.pure _))
          (if_neg (by simp))))
        (if_neg (by omega))))) (by norm_num) rfl
  · have h24 : 2 ≤ ty ∧ ty ≤ 4 := by omega
    by_cases hd0 : dflt = []
    · subst hd0
      refine ReadsE.of_eq (ReadsE.bind (readsE_string hn) (ReadsE.bind (readsE_u16 hty)
        (ReadsE.congr_r (ReadsE.bind (readsE_u32 hc) (ReadsE.bind (readsE_bool false)
          (ReadsE.bind (ReadsE.pure (cnt, false))
          (ReadsE.congr_r (ReadsE.bind (ReadsE.pure ([] : List Nat))
            (ReadsE.congr_r (ReadsE.congr_r (ReadsE.pure _) (if_neg (by omega)))
              (if_neg h5)))
            (if_neg (by simp))))))
          (if_pos h24)))) (by simp [h24]) rfl
    · have hfc : floatCounts ty = some dflt.length := by
        obtain ⟨hA, hB⟩ := h24
        interval_cases ty <;>
          simp [floatCounts] at hlen ⊢ <;>
          rcases hlen with h | h <;>
          first
          | exact absurd h hd0
          | omega
      have hlen0 : 0 < dflt.length := List.length_pos.mpr hd0
      refine ReadsE.of_eq (ReadsE.bind (readsE_string hn) (ReadsE.bind (readsE_u16 hty)
        (ReadsE.congr_r (ReadsE.bind (readsE_u32 hc) (ReadsE.bind (readsE_bool true)
          (ReadsE.bind (ReadsE.pure (cnt, true))
          (ReadsE.congr_r (ReadsE.bind (readsE_f32array hd32)
            (ReadsE.congr_r (ReadsE.congr_r (ReadsE.pure _)
                (if_neg (show ¬(ty < 2 ∨ ty > 5) by omega)))
              (if_neg h5)))
            (by rw [hfc]; rfl)))))
          (if_pos h24)))) (by simp [h24, hlen0]) rfl

theorem ReadsX.ofX_eq {α : Type} {r : RM α} {w w' : List Nat} {a a' : α}
    (h : ReadsX r w a) (hw : w = w') (ha : a = a') : ReadsX r w' a' := by
  subst hw; subst ha; exact h

theorem ReadsX.congrX_r {α : Type} {r r' : RM α} {w : List Nat} {a : α}
    (h : ReadsX r w a) (hr : r' = r) : ReadsX r' w a := by
  subst hr; exact h

theorem readsX_pure {α : Type} (a : α) : ReadsX (pure a : RM α) [] a :=
  ReadsE.toX (ReadsE.pure a)

theorem readsE_bgfxUniform {u : BgfxUniform} (h : ValidBgfxUniform u) :
    ReadsE readBgfxUniform (writeBgfxUniform u) u := by
  obtain ⟨hs, hl, htb, hcnt, hri, hrc⟩ := h
  obtain ⟨nm, tb, cnt, ri, rc⟩ := u
  simp only at hs hl htb hcnt hri hrc
  unfold readBgfxUniform writeBgfxUniform
  simp only
  refine ReadsE.of_eq (ReadsE.bind (readsE_wUbyte hl)
    (ReadsE.bind (readsE_bytesExact (utf8Enc nm))
    (ReadsE.bind (readsE_wUbyte htb) (ReadsE.bind (readsE_wUbyte hcnt)
    (ReadsE.bind (readsE_u16 hri) (ReadsE.bind (readsE_u16 hrc)
    (ReadsE.pure _))))))) (by simp) (by simp [utf8Dec_utf8Enc nm hs])

theorem stageFromName_stageName (st : ShaderStage) :
    shaderStageFromName (stageName st) = .ok st := by
  cases st <;> rfl

theorem platFromName_platName (p : ShaderPlatform) :
    shaderPlatformFromName (platName p) = .ok p := by
  cases p <;> rfl

theorem stageVal_lt (st : ShaderStage) : stageVal st < 256 := by
  cases st <;> decide

theorem validStr_stageName (st : ShaderStage) : ValidStr (stageName st) := by
  cases st <;> decide

theorem validStr_platName (p : ShaderPlatform) : ValidStr (platName p) := by
  cases p <;> decide

/-- The wire index stored for each platform in the v≤24 table. -/
def platIdx24 : ShaderPlatform → Nat
  | .Direct3D_SM40 => 0
  | .Direct3D_SM50 => 1
  | .Direct3D_SM60 => 2
  | .Direct3D_SM65 => 3
  | .Direct3D_XB1 => 4
  | .Direct3D_XBX => 5
  | .GLSL_120 => 6
  | .GLSL_430 => 7
  | .ESSL_300 => 8
  | .ESSL_310 => 9
  | .Metal => 10
  | .Vulkan => 11
  | .Nvn => 12
  | .PSSL => 13
  | .Unknown => 14

/-- The value stored for each platform in the v≥25 table.  Note:
`ESSL_300 ↦ 10`, the numeric value of the enum member `ESSL_310`, not
`ESSL_310`'s wire index 8. -/
def platIdx25 : ShaderPlatform → Nat
  | .Direct3D_SM40 => 0
  | .Direct3D_SM50 => 1
  | .Direct3D_SM60 => 2
  | .Direct3D_SM65 => 3
  | .Direct3D_XB1 => 4
  | .Direct3D_XBX => 5
  | .GLSL_120 => 6
  | .GLSL_430 => 7
  | .ESSL_310 => 8
  | .Metal => 9
  | .Vulkan => 10
  | .Nvn => 11
  | .PSSL => 12
  | .Unknown => 13
  | .ESSL_300 => 10

/-- The platform wire index used at a given version. -/
def platIdx (p : ShaderPlatform) (version : Nat) : Nat :=
  if 25 ≤ version then platIdx25 p else platIdx24 p

theorem getPlatformValue_eq (p : ShaderPlatform) (version : Nat) :
    getPlatformValue p version = .ok (platIdx p version) := by
  unfold getPlatformValue platformMapping mapGet platIdx
  by_cases h : 25 ≤ version
  · simp only [if_pos h]
    cases p <;> rfl
  · simp only [if_neg h]
    cases p <;> rfl

theorem getPlatformName_eq (p : ShaderPlatform) (version : Nat) :
    getPlatformName p version = .ok (platName p) := by
  unfold getPlatformName platformMapping mapGet
  by_cases h : 25 ≤ version
  · simp only [if_pos h]
    cases p <;> rfl
  · simp only [if_neg h]
    cases p <;> rfl

theorem platIdx_lt (p : ShaderPlatform) (version : Nat) : platIdx p version < 256 := by
  unfold platIdx
  by_cases h : 25 ≤ version
  · simp only [if_pos h]
    cases p <;> decide
  · simp only [if_neg h]
    cases p <;> decide

theorem readsX_remaining_if_pos {α : Type} {T E : RM α} {w : List Nat} {a : α}
    (hw : 0 < w.length) (h : ReadsX T w a) :
    ReadsX (rmRemaining >>= fun rem => if rem > 0 then T else E) w a := by
  intro bytes off hd
  have hlen : bytes.length - off = w.length := by
    rw [← List.length_drop, hd]
  have hrem : rmRemaining ⟨bytes, off⟩ = .ok (bytes.length - off, ⟨bytes, off⟩) := rfl
  rw [rm_bind_ok hrem]
  simp only [hlen]
  rw [if_pos hw]
  exact h bytes off hd

theorem readsX_remaining_if_neg {α : Type} {T E : RM α} {a : α}
    (h : ReadsX E [] a) :
    ReadsX (rmRemaining >>= fun rem => if rem > 0 then T else E) [] a := by
  intro bytes off hd
  have hlen : bytes.length - off = 0 := by
    rw [← List.length_drop, hd]
    rfl
  have hrem : rmRemaining ⟨bytes, off⟩ = .ok (bytes.length - off, ⟨bytes, off⟩) := rfl
  rw [rm_bind_ok hrem]
  simp only [hlen]
  rw [if_neg (by omega)]
  exact h bytes off hd

theorem readsX_bgfxRM {platform : ShaderPlatform} {stage : ShaderStage}
    {sh : BgfxShader} (h : ValidBgfx platform stage sh) :
    ReadsX (readBgfxShaderRM platform stage) (writeBgfxShader platform stage sh) sh := by
  obtain ⟨hh, hulen, hus, hgs, hsb, hsbB, hsz1, hsz2, halen, hax⟩ := h
  obtain ⟨hsH, uni, gs, sb, at_, sz⟩ := sh
  simp only at hh hulen hus hgs hsb hsbB hsz1 hsz2 halen hax
  unfold readBgfxShaderRM writeBgfxShader
  simp only
  cases stage with
  | Vertex =>
    have hMC : ¬(platform = ShaderPlatform.Metal ∧ ShaderStage.Vertex = ShaderStage.Compute) := by
      simp
    rw [if_neg hMC] at hgs
    subst hgs
    rcases hsz2 with hsz | hsz
    · have hat : at_ = [] := hsz1 hsz
      subst hat
      subst hsz
      refine ReadsX.ofX_eq (ReadsE.bindX (readsE_bytesExact (utf8Enc (jstr "VSH")))
        (ReadsX.congrX_r (ReadsE.bindX (readsE_ubyte 5)
          (ReadsX.congrX_r (ReadsE.bindX (readsE_u32 hh)
            (ReadsE.bindX (readsE_u16 hulen)
            (ReadsE.bindX (readsE_N uni (fun x hx => readsE_bgfxUniform (hus x hx)))
            (ReadsX.congrX_r (ReadsE.bindX (ReadsE.pure ([] : List Nat))
              (ReadsE.bindX (readsE_u32 hsb)
              (ReadsE.bindX (readsE_bytesExact sb)
              (ReadsE.bindX (readsE_ubyte 0)
               (readsX_remaining_if_neg (ReadsX.ofX_eq
                 (ReadsE.bindX (ReadsE.pure (([] : List Nat), (-1 : Int)))
                  (readsX_pure ({ hash := hsH, uniforms := uni, groupSize := ([] : List Nat), shaderBytes := sb, attributes := [], size := -1 } : BgfxShader)))
                 (by simp) rfl))))))
              (if_neg hMC)))))
            (if_neg (by decide))))
          (if_neg (by decide)))) ?_ ?_
      · simp [hMC, wUbyte, List.append_assoc]
      · rfl
    · have hszne : sz ≠ -1 := by omega
      have hsz16 : toUint16I sz < 2 ^ 16 := by unfold toUint16I; omega
      have hszv : ((toUint16I sz : Nat) : Int) = sz := by unfold toUint16I; omega
      refine ReadsX.ofX_eq (ReadsE.bindX (readsE_bytesExact (utf8Enc (jstr "VSH")))
        (ReadsX.congrX_r (ReadsE.bindX (readsE_ubyte 5)
          (ReadsX.congrX_r (ReadsE.bindX (readsE_u32 hh)
            (ReadsE.bindX (readsE_u16 hulen)
            (ReadsE.bindX (readsE_N uni (fun x hx => readsE_bgfxUniform (hus x hx)))
            (ReadsX.congrX_r (ReadsE.bindX (ReadsE.pure ([] : List Nat))
              (ReadsE.bindX (readsE_u32 hsb)
              (ReadsE.bindX (readsE_bytesExact sb)
              (ReadsE.bindX (readsE_ubyte 0)
               (readsX_remaining_if_pos (by simp [wUbyte])
                 (ReadsE.bindX (readsE_wUbyte halen)
                  (ReadsE.bindX (readsE_N at_ (fun x hx => readsE_u16 (hax x hx)))
                  (ReadsE.bindX (readsE_u16 hsz16)
                  (ReadsE.bindX (ReadsE.pure (at_, ((toUint16I sz : Nat) : Int)))
                   (readsX_pure ({ hash := hsH, uniforms := uni, groupSize := ([] : List Nat), shaderBytes := sb, attributes := at_, size := ((toUint16I sz : Nat) : Int) } : BgfxShader)))))))))))
              (if_neg hMC)))))
            (if_neg (by decide))))
          (if_neg (by decide)))) ?_ ?_
      · simp [hMC, wUbyte, hszne, List.append_assoc]
      · simp [hszv]
  | Fragment =>
    have hMC : ¬(platform = ShaderPlatform.Metal ∧ ShaderStage.Fragment = ShaderStage.Compute) := by
      simp
    rw [if_neg hMC] at hgs
    subst hgs
    rcases hsz2 with hsz | hsz
    · have hat : at_ = [] := hsz1 hsz
      subst hat
      subst hsz
      refine ReadsX.ofX_eq (ReadsE.bindX (readsE_bytesExact (utf8Enc (jstr "FSH")))
        (ReadsX.congrX_r (ReadsE.bindX (readsE_ubyte 5)
          (ReadsX.congrX_r (ReadsE.bindX (readsE_u32 hh)
            (ReadsE.bindX (readsE_u16 hulen)
            (ReadsE.bindX (readsE_N uni (fun x hx => readsE_bgfxUniform (hus x hx)))
            (ReadsX.congrX_r (ReadsE.bindX (ReadsE.pure ([] : List Nat))
              (ReadsE.bindX (readsE_u32 hsb)
              (ReadsE.bindX (readsE_bytesExact sb)
              (ReadsE.bindX (readsE_ubyte 0)
               (readsX_remaining_if_neg (ReadsX.ofX_eq
                 (ReadsE.bindX (ReadsE.pure (([] : List Nat), (-1 : Int)))
                  (readsX_pure ({ hash := hsH, uniforms := uni, groupSize := ([] : List Nat), shaderBytes := sb, attributes := [], size := -1 } : BgfxShader)))
                 (by simp) rfl))))))
              (if_neg hMC)))))
            (if_neg (by decide))))
          (if_neg (by decide)))) ?_ ?_
      · simp [hMC, wUbyte, List.append_assoc]
      · rfl
    · have hszne : sz ≠ -1 := by omega
      have hsz16 : toUint16I sz < 2 ^ 16 := by unfold toUint16I; omega
      have hszv : ((toUint16I sz : Nat) : Int) = sz := by unfold toUint16I; omega
      refine ReadsX.ofX_eq (ReadsE.bindX (readsE_bytesExact (utf8Enc (jstr "FSH")))
        (ReadsX.congrX_r (ReadsE.bindX (readsE_ubyte 5)
          (ReadsX.congrX_r (ReadsE.bindX (readsE_u32 hh)
            (ReadsE.bindX (readsE_u16 hulen)
            (ReadsE.bindX (readsE_N uni (fun x hx => readsE_bgfxUniform (hus x hx)))
            (ReadsX.congrX_r (ReadsE.bindX (ReadsE.pure ([] : List Nat))
              (ReadsE.bindX (readsE_u32 hsb)
              (ReadsE.bindX (readsE_bytesExact sb)
              (ReadsE.bindX (readsE_ubyte 0)
               (readsX_remaining_if_pos (by simp [wUbyte])
                 (ReadsE.bindX (readsE_wUbyte halen)
                  (ReadsE.bindX (readsE_N at_ (fun x hx => readsE_u16 (hax x hx)))
                  (ReadsE.bindX (readsE_u16 hsz16)
                  (ReadsE.bindX (ReadsE.pure (at_, ((toUint16I sz : Nat) : Int)))
                   (readsX_pure ({ hash := hsH, uniforms := uni, groupSize := ([] : List Nat), shaderBytes := sb, attributes := at_, size := ((toUint16I sz : Nat) : Int) } : BgfxShader)))))))))))
              (if_neg hMC)))))
            (if_neg (by decide))))
          (if_neg (by decide)))) ?_ ?_
      · simp [hMC, wUbyte, hszne, List.append_assoc]
      · simp [hszv]
  | Unknown =>
    have hMC : ¬(platform = ShaderPlatform.Metal ∧ ShaderStage.Unknown = ShaderStage.Compute) := by
      simp
    rw [if_neg hMC] at hgs
    subst hgs
    rcases hsz2 with hsz | hsz
    · have hat : at_ = [] := hsz1 hsz
      subst hat
      subst hsz
      refine ReadsX.ofX_eq (ReadsE.bindX (readsE_bytesExact (utf8Enc (jstr "FSH")))
        (ReadsX.congrX_r (ReadsE.bindX (readsE_ubyte 5)
          (ReadsX.congrX_r (ReadsE.bindX (readsE_u32 hh)
            (ReadsE.bindX (readsE_u16 hulen)
            (ReadsE.bindX (readsE_N uni (fun x hx => readsE_bgfxUniform (hus x hx)))
            (ReadsX.congrX_r (ReadsE.bindX (ReadsE.pure ([] : List Nat))
              (ReadsE.bindX (readsE_u32 hsb)
              (ReadsE.bindX (readsE_bytesExact sb)
              (ReadsE.bindX (readsE_ubyte 0)
               (readsX_remaining_if_neg (ReadsX.ofX_eq
                 (ReadsE.bindX (ReadsE.pure (([] : List Nat), (-1 : Int)))
                  (readsX_pure ({ hash := hsH, uniforms := uni, groupSize := ([] : List Nat), shaderBytes := sb, attributes := [], size := -1 } : BgfxShader)))
                 (by simp) rfl))))))
              (if_neg hMC)))))
            (if_neg (by decide))))
          (if_neg (by decide)))) ?_ ?_
      · simp [hMC, wUbyte, List.append_assoc]
      · rfl
    · have hszne : sz ≠ -1 := by omega
      have hsz16 : toUint16I sz < 2 ^ 16 := by unfold toUint16I; omega
      have hszv : ((toUint16I sz : Nat) : Int) = sz := by unfold toUint16I; omega
      refine ReadsX.ofX_eq (ReadsE.bindX (readsE_bytesExact (utf8Enc (jstr "FSH")))
        (ReadsX.congrX_r (ReadsE.bindX (readsE_ubyte 5)
          (ReadsX.congrX_r (ReadsE.bindX (readsE_u32 hh)
            (ReadsE.bindX (readsE_u16 hulen)
            (ReadsE.bindX (readsE_N uni (fun x hx => readsE_bgfxUniform (hus x hx)))
            (ReadsX.congrX_r (ReadsE.bindX (ReadsE.pure ([] : List Nat))
              (ReadsE.bindX (readsE_u32 hsb)
              (ReadsE.bindX (readsE_bytesExact sb)
              (ReadsE.bindX (readsE_ubyte 0)
               (readsX_remaining_if_pos (by simp [wUbyte])
                 (ReadsE.bindX (readsE_wUbyte halen)
                  (ReadsE.bindX (readsE_N at_ (fun x hx => readsE_u16 (hax x hx)))
                  (ReadsE.bindX (readsE_u16 hsz16)
                  (ReadsE.bindX (ReadsE.pure (at_, ((toUint16I sz : Nat) : Int)))
                   (readsX_pure ({ hash := hsH, uniforms := uni, groupSize := ([] : List Nat), shaderBytes := sb, attributes := at_, size := ((toUint16I sz : Nat) : Int) } : BgfxShader)))))))))))
              (if_neg hMC)))))
            (if_neg (by decide))))
          (if_neg (by decide)))) ?_ ?_
      · simp [hMC, wUbyte, hszne, List.append_assoc]
      · simp [hszv]
  | Compute =>
    by_cases hM : platform = ShaderPlatform.Metal
    ·
      subst hM
      have hMCp : (ShaderPlatform.Metal = ShaderPlatform.Metal ∧ ShaderStage.Compute = ShaderStage.Compute) :=
        ⟨rfl, rfl⟩
      rw [if_pos hMCp] at hgs
      obtain ⟨hgl, hgb⟩ := hgs
      rcases gs with _ | ⟨g0, _ | ⟨g1, _ | ⟨g2, _ | ⟨g3, gs4⟩⟩⟩⟩
      · simp at hgl
      · simp at hgl
      · simp at hgl
      · have hg0 : g0 < 2 ^ 16 := hgb g0 (by simp)
        have hg1 : g1 < 2 ^ 16 := hgb g1 (by simp)
        have hg2 : g2 < 2 ^ 16 := hgb g2 (by simp)
        rcases hsz2 with hsz | hsz
        · have hat : at_ = [] := hsz1 hsz
          subst hat
          subst hsz
          refine ReadsX.ofX_eq (ReadsE.bindX (readsE_bytesExact (utf8Enc (jstr "CSH")))
            (ReadsX.congrX_r (ReadsE.bindX (readsE_ubyte 3)
              (ReadsX.congrX_r (ReadsE.bindX (readsE_u32 hh)
                (ReadsE.bindX (readsE_u16 hulen)
                (ReadsE.bindX (readsE_N uni (fun x hx => readsE_bgfxUniform (hus x hx)))
                (ReadsX.congrX_r (ReadsE.bindX (readsE_u16 hg0)
                  (ReadsE.bindX (readsE_u16 hg1)
                  (ReadsE.bindX (readsE_u16 hg2)
                  (ReadsE.bindX (ReadsE.pure [g0, g1, g2])
                  (ReadsE.bindX (readsE_u32 hsb)
                  (ReadsE.bindX (readsE_bytesExact sb)
                  (ReadsE.bindX (readsE_ubyte 0)
                   (readsX_remaining_if_neg (ReadsX.ofX_eq
                     (ReadsE.bindX (ReadsE.pure (([] : List Nat), (-1 : Int)))
                      (readsX_pure ({ hash := hsH, uniforms := uni, groupSize := [g0, g1, g2], shaderBytes := sb, attributes := [], size := -1 } : BgfxShader)))
                     (by simp) rfl)))))))))
                  (if_pos hMCp)))))
                (if_neg (by decide))))
              (if_neg (by decide)))) ?_ ?_
          · simp [wUbyte, List.append_assoc]
          · rfl
        · have hszne : sz ≠ -1 := by omega
          have hsz16 : toUint16I sz < 2 ^ 16 := by unfold toUint16I; omega
          have hszv : ((toUint16I sz : Nat) : Int) = sz := by unfold toUint16I; omega
          refine ReadsX.ofX_eq (ReadsE.bindX (readsE_bytesExact (utf8Enc (jstr "CSH")))
            (ReadsX.congrX_r (ReadsE.bindX (readsE_ubyte 3)
              (ReadsX.congrX_r (ReadsE.bindX (readsE_u32 hh)
                (ReadsE.bindX (readsE_u16 hulen)
                (ReadsE.bindX (readsE_N uni (fun x hx => readsE_bgfxUniform (hus x hx)))
                (ReadsX.congrX_r (ReadsE.bindX (readsE_u16 hg0)
                  (ReadsE.bindX (readsE_u16 hg1)
                  (ReadsE.bindX (readsE_u16 hg2)
                  (ReadsE.bindX (ReadsE.pure [g0, g1, g2])
                  (ReadsE.bindX (readsE_u32 hsb)
                  (ReadsE.bindX (readsE_bytesExact sb)
                  (ReadsE.bindX (readsE_ubyte 0)
                   (readsX_remaining_if_pos (by simp [wUbyte])
                     (ReadsE.bindX (readsE_wUbyte halen)
                      (ReadsE.bindX (readsE_N at_ (fun x hx => readsE_u16 (hax x hx)))
                      (ReadsE.bindX (readsE_u16 hsz16)
                      (ReadsE.bindX (ReadsE.pure (at_, ((toUint16I sz : Nat) : Int)))
                       (readsX_pure ({ hash := hsH, uniforms := uni, groupSize := [g0, g1, g2], shaderBytes := sb, attributes := at_, size := ((toUint16I sz : Nat) : Int) } : BgfxShader))))))))))))))
                  (if_pos hMCp)))))
                (if_neg (by decide))))
              (if_neg (by decide)))) ?_ ?_
          · simp [wUbyte, hszne, List.append_assoc]
          · simp [hszv]
      · simp at hgl
    ·
      have hMC : ¬(platform = ShaderPlatform.Metal ∧ ShaderStage.Compute = ShaderStage.Compute) := by
        simp [hM]
      rw [if_neg hMC] at hgs
      subst hgs
      rcases hsz2 with hsz | hsz
      · have hat : at_ = [] := hsz1 hsz
        subst hat
        subst hsz
        refine ReadsX.ofX_eq (ReadsE.bindX (readsE_bytesExact (utf8Enc (jstr "CSH")))
          (ReadsX.congrX_r (ReadsE.bindX (readsE_ubyte 3)
            (ReadsX.congrX_r (ReadsE.bindX (readsE_u32 hh)
              (ReadsE.bindX (readsE_u16 hulen)
              (ReadsE.bindX (readsE_N uni (fun x hx => readsE_bgfxUniform (hus x hx)))
              (ReadsX.congrX_r (ReadsE.bindX (ReadsE.pure ([] : List Nat))
                (ReadsE.bindX (readsE_u32 hsb)
                (ReadsE.bindX (readsE_bytesExact sb)
                (ReadsE.bindX (readsE_ubyte 0)
                 (readsX_remaining_if_neg (ReadsX.ofX_eq
                   (ReadsE.bindX (ReadsE.pure (([] : List Nat), (-1 : Int)))
                    (readsX_pure ({ hash := hsH, uniforms := uni, groupSize := ([] : List Nat), shaderBytes := sb, attributes := [], size := -1 } : BgfxShader)))
                   (by simp) rfl))))))
                (if_neg hMC)))))
              (if_neg (by decide))))
            (if_neg (by decide)))) ?_ ?_
        · simp [hMC, hM, wUbyte, List.append_assoc]
        · rfl
      · have hszne : sz ≠ -1 := by omega
        have hsz16 : toUint16I sz < 2 ^ 16 := by unfold toUint16I; omega
        have hszv : ((toUint16I sz : Nat) : Int) = sz := by unfold toUint16I; omega
        refine ReadsX.ofX_eq (ReadsE.bindX (readsE_bytesExact (utf8Enc (jstr "CSH")))
          (ReadsX.congrX_r (ReadsE.bindX (readsE_ubyte 3)
            (ReadsX.congrX_r (ReadsE.bindX (readsE_u32 hh)
              (ReadsE.bindX (readsE_u16 hulen)
              (ReadsE.bindX (readsE_N uni (fun x hx => readsE_bgfxUniform (hus x hx)))
              (ReadsX.congrX_r (ReadsE.bindX (ReadsE.pure ([] : List Nat))
                (ReadsE.bindX (readsE_u32 hsb)
                (ReadsE.bindX (readsE_bytesExact sb)
                (ReadsE.bindX (readsE_ubyte 0)
                 (readsX_remaining_if_pos (by simp [wUbyte])
                   (ReadsE.bindX (readsE_wUbyte halen)
                    (ReadsE.bindX (readsE_N at_ (fun x hx => readsE_u16 (hax x hx)))
                    (ReadsE.bindX (readsE_u16 hsz16)
                    (ReadsE.bindX (ReadsE.pure (at_, ((toUint16I sz : Nat) : Int)))
                     (readsX_pure ({ hash := hsH, uniforms := uni, groupSize := ([] : List Nat), shaderBytes := sb, attributes := at_, size := ((toUint16I sz : Nat) : Int) } : BgfxShader)))))))))))
                (if_neg hMC)))))
              (if_neg (by decide))))
            (if_neg (by decide)))) ?_ ?_
        · simp [hMC, hM, wUbyte, hszne, List.append_assoc]
        · simp [hszv]

theorem except_bind_ok {α β : Type} (a : α) (f : α → Except JsErr β) :
    (Except.ok a >>= f) = f a := rfl

theorem except_bind_err {α β : Type} (e : JsErr) (f : α → Except JsErr β) :
    ((Except.error e : Except JsErr α) >>= f) = .error e := rfl

theorem except_pure_def {α : Type} (a : α) : (pure a : Except JsErr α) = .ok a := rfl

theorem readBgfx_writeBgfx {platform : ShaderPlatform} {stage : ShaderStage}
    {sh : BgfxShader} (h : ValidBgfx platform stage sh) :
    readBgfxShader (writeBgfxShader platform stage sh) platform stage = .ok sh := by
  unfold readBgfxShader
  rw [readsX_bgfxRM h (writeBgfxShader platform stage sh) 0 (by simp)]

theorem readsE_shaderDef {version : Nat} {d : ShaderDefinition} (h : ValidShaderDef d)
    {bs : List Nat} (hw : writeShaderDefinition version d = .ok bs) :
    ReadsE (readShaderDefinition version) bs d := by
  obtain ⟨hin, hilen, hh, hbg, hblen⟩ := h
  have hbread : readBgfxShader (writeBgfxShader d.platform d.stage d.bgfxShader)
      d.platform d.stage = .ok d.bgfxShader := readBgfx_writeBgfx hbg
  unfold writeShaderDefinition at hw
  rw [getPlatformName_eq, getPlatformValue_eq, except_bind_ok, except_bind_ok,
    except_pure_def] at hw
  cases hw
  unfold readShaderDefinition
  generalize hgen : writeBgfxShader d.platform d.stage d.bgfxShader = bb
    at hbread hblen
  refine ReadsE.of_eq
    (ReadsE.bind (readsE_string (validStr_stageName d.stage)) (ReadsE.bind (readsE_string (validStr_platName d.platform)) (ReadsE.bind (readsE_liftE (stageFromName_stageName d.stage)) (ReadsE.bind (readsE_liftE (platFromName_platName d.platform)) (ReadsE.bind (readsE_wUbyte (stageVal_lt d.stage)) (ReadsE.congr_r (ReadsE.bind (readsE_wUbyte (platIdx_lt d.platform version)) (ReadsE.bind (readsE_liftE (getPlatformValue_eq d.platform version)) (ReadsE.congr_r (ReadsE.bind (readsE_u16 hilen) (ReadsE.bind (readsE_N d.inputs (fun i hi => readsE_shaderInput (hin i hi))) (ReadsE.bind (readsE_u64 hh) (ReadsE.bind (readsE_array hblen) (ReadsE.bind (readsE_liftE hbread) (ReadsE.pure ({ stage := d.stage, platform := d.platform, inputs := d.inputs, hash := d.hash, bgfxShader := d.bgfxShader } : ShaderDefinition))))))) (if_neg (by simp))))) (if_neg (by simp))))))))
    (by simp [List.append_assoc]) ?_
  obtain ⟨st, p, inp, hsh, bg⟩ := d
  rfl

theorem bit_decide (b : Bool) :
    (decide ((if b then Char.toNat ('1') else Char.toNat ('0')) = Char.toNat ('1'))) = b := by
  cases b <;> rfl

theorem bit_valid (b : Bool) :
    (decide (¬(if b then Char.toNat ('1') else Char.toNat ('0')) = Char.toNat ('0')
      ∧ ¬(if b then Char.toNat ('1') else Char.toNat ('0')) = Char.toNat ('1'))) = false := by
  cases b <;> rfl

/-- Parsing the written supported-platforms bit string restores the map. -/
theorem parseSP_roundtrip {sp : List Bool} (h : sp.length = 15) (version : Nat) :
    parseSupportedPlatforms (getSupportedPlatformsBitString sp version) version = sp := by
  rcases sp with _ | ⟨b1, sp⟩
  · simp at h
  rcases sp with _ | ⟨b2, sp⟩
  · simp at h
  rcases sp with _ | ⟨b3, sp⟩
  · simp at h
  rcases sp with _ | ⟨b4, sp⟩
  · simp at h
  rcases sp with _ | ⟨b5, sp⟩
  · simp at h
  rcases sp with _ | ⟨b6, sp⟩
  · simp at h
  rcases sp with _ | ⟨b7, sp⟩
  · simp at h
  rcases sp with _ | ⟨b8, sp⟩
  · simp at h
  rcases sp with _ | ⟨b9, sp⟩
  · simp at h
  rcases sp with _ | ⟨b10, sp⟩
  · simp at h
  rcases sp with _ | ⟨b11, sp⟩
  · simp at h
  rcases sp with _ | ⟨b12, sp⟩
  · simp at h
  rcases sp with _ | ⟨b13, sp⟩
  · simp at h
  rcases sp with _ | ⟨b14, sp⟩
  · simp at h
  rcases sp with _ | ⟨b15, sp⟩
  · simp at h
  rcases sp with _ | ⟨b16, sp⟩
  · by_cases hv : 25 ≤ version <;>
      simp [parseSupportedPlatforms, getSupportedPlatformsBitString, getPlatformList,
        platformMapping, hv, validateBitString, formatBitString, spSet, spGet, platVal,
        List.enum, List.enumFrom, bit_decide, bit_valid]
  · simp at h

theorem utf8Enc_len_ascii {s : JStr} (h : ∀ c ∈ s, c < 0x80) :
    (utf8Enc s).length = s.length := by
  induction s with
  | nil => rfl
  | cons c cs ih =>
    have hc : c < 0x80 := h c (by simp)
    have ih2 := ih (fun x hx => h x (by simp [hx]))
    simp [utf8Enc, encChar, if_pos hc] at ih2 ⊢
    omega

theorem validStr_bitString (sp : List Bool) (version : Nat) :
    ValidStr (getSupportedPlatformsBitString sp version) := by
  have hascii : ∀ c ∈ getSupportedPlatformsBitString sp version, c < 0x80 := by
    intro c hc
    unfold getSupportedPlatformsBitString at hc
    rw [List.mem_map] at hc
    obtain ⟨p, _, rfl⟩ := hc
    cases spGet sp p <;> simp
  constructor
  · intro c hc
    have := hascii c hc
    exact ⟨by omega, by omega⟩
  · rw [utf8Enc_len_ascii hascii]
    unfold getSupportedPlatformsBitString
    rw [List.length_map]
    by_cases hv : 25 ≤ version <;> simp [getPlatformList, platformMapping, hv]

/-- The blend-mode flag byte plus optional payload round-trips. -/
theorem readsE_blendMode {m : Int} (h : m = -1 ∨ (0 ≤ m ∧ m < 2 ^ 16)) :
    ReadsE readBlendMode
      (wBool (decide ¬m = -1) ++ if ¬m = -1 then u16le (toUint16I m) else []) m := by
  rcases h with rfl | ⟨h0, h1⟩
  · simpa using readsE_blendMode_none
  · have hne : ¬m = -1 := by omega
    simpa [hne] using readsE_blendMode_some h0 h1

theorem readsE_kvPair {kv : JStr × JStr} (h1 : ValidStr kv.1) (h2 : ValidStr kv.2) :
    ReadsE (do
      let k ← readString
      let v ← readString
      pure (k, v) : RM (JStr × JStr)) (writeString kv.1 ++ writeString kv.2) kv := by
  exact ReadsE.of_eq (ReadsE.bind (readsE_string h1) (ReadsE.bind (readsE_string h2)
    (ReadsE.pure (kv.1, kv.2)))) (by simp) rfl

theorem readsE_N_mapM {α : Type} {item : RM α} {wItem : α → Except JsErr (List Nat)}
    (L : List α) {chunks : List (List Nat)}
    (hm : mapME wItem L = .ok chunks)
    (h : ∀ a ∈ L, ∀ w, wItem a = .ok w → ReadsE item w a) :
    ReadsE (readN L.length item) chunks.flatten L := by
  induction L generalizing chunks with
  | nil =>
    unfold mapME at hm
    rw [except_pure_def] at hm
    cases hm
    simpa [readN] using ReadsE.pure ([] : List α)
  | cons a rest ih =>
    unfold mapME at hm
    rcases hwa : wItem a with e | w
    · rw [hwa, except_bind_err] at hm
      cases hm
    · rw [hwa, except_bind_ok] at hm
      rcases hwr : mapME wItem rest with e | cs
      · rw [hwr, except_bind_err] at hm
        cases hm
      · rw [hwr, except_bind_ok, except_pure_def] at hm
        cases hm
        simp only [List.length_cons, List.flatten_cons]
        unfold readN
        refine ReadsE.of_eq (ReadsE.bind (h a (by simp) w hwa) (ReadsE.bind
          (ih hwr (fun x hx w' hw' => h x (by simp [hx]) w' hw'))
          (ReadsE.pure (a :: rest)))) (by simp) rfl

theorem readsE_variant {version : Nat} {v : Variant} (h : ValidVariant v)
    {bs : List Nat} (hw : writeVariant version v = .ok bs) :
    ReadsE (readVariant version) bs v := by
  obtain ⟨hfl, hsl, hfv, hsv⟩ := h
  unfold writeVariant at hw
  rcases hmm : mapME (writeShaderDefinition version) v.shaders with e | chunks
  · rw [hmm, except_bind_err] at hw
    cases hw
  · rw [hmm, except_bind_ok, except_pure_def] at hw
    have hbs : bs = wBool v.isSupported ++ (u16le v.flags.length ++ (u16le v.shaders.length
        ++ (v.flags.flatMap (fun kv => writeString kv.1 ++ writeString kv.2)
        ++ chunks.flatten))) := by
      cases hw
      simp [List.append_assoc]
    subst hbs
    unfold readVariant
    refine ReadsE.of_eq (ReadsE.bind (readsE_bool v.isSupported)
      (ReadsE.bind (readsE_u16 hfl) (ReadsE.bind (readsE_u16 hsl)
      (ReadsE.bind (readsE_N v.flags (fun kv hkv => readsE_kvPair (hfv kv hkv).1 (hfv kv hkv).2))
      (ReadsE.bind (readsE_N_mapM v.shaders hmm
        (fun d hd w hwd => readsE_shaderDef (hsv d hd) hwd))
      (ReadsE.pure _)))))) (by simp) ?_
    obtain ⟨s, f, sh⟩ := v
    rfl

/-- A written `Pass` reads back. -/
theorem readsE_pass {version : Nat} {p : Pass} (h : ValidPass version p)
    {bs : List Nat} (hw : writePass version p = .ok bs) :
    ReadsE (readPass version) bs p := by
  obtain ⟨hn, hsp, hfb, hbm, hdl, hdv, hfbb, hfb0, hvl, hvv⟩ := h
  have hps := parseSP_roundtrip hsp version
  unfold writePass at hw
  rcases hmm : mapME (writeVariant version) p.variants with e | chunks
  · rw [hmm, except_bind_err] at hw
    cases hw
  · rw [hmm, except_bind_ok, except_pure_def] at hw
    unfold readPass
    by_cases hv : 23 ≤ version
    · have hbs : bs = writeString p.name ++ (writeString (getSupportedPlatformsBitString p.supportedPlatforms version) ++ (writeString p.fallbackPass ++ ((wBool (decide ¬p.defaultBlendMode = -1) ++ if ¬p.defaultBlendMode = -1 then u16le (toUint16I p.defaultBlendMode) else []) ++ (u16le p.defaultVariant.length ++ (p.defaultVariant.flatMap (fun kv => writeString kv.1 ++ writeString kv.2) ++ (u32le p.framebufferBinding ++ (u16le p.variants.length ++ chunks.flatten))))))) := by
        cases hw
        simp [List.append_assoc, hv]
      subst hbs
      refine ReadsE.of_eq
        (ReadsE.bind (readsE_string hn) (ReadsE.bind (readsE_string (validStr_bitString p.supportedPlatforms version)) (ReadsE.bind (readsE_string hfb) (ReadsE.bind (readsE_blendMode hbm) (ReadsE.bind (readsE_u16 hdl) (ReadsE.bind (readsE_N p.defaultVariant (fun kv hkv => readsE_kvPair (hdv kv hkv).1 (hdv kv hkv).2)) (ReadsE.congr_r (ReadsE.bind (readsE_u32 hfbb) (ReadsE.bind (readsE_u16 hvl) (ReadsE.bind (readsE_N_mapM p.variants hmm (fun v hv2 w hwv => readsE_variant (hvv v hv2) hwv)) (ReadsE.pure ({ name := p.name, supportedPlatforms := parseSupportedPlatforms (getSupportedPlatformsBitString p.supportedPlatforms version) version, fallbackPass := p.fallbackPass, defaultBlendMode := p.defaultBlendMode, defaultVariant := p.defaultVariant, framebufferBinding := p.framebufferBinding, variants := p.variants } : Pass))))) (if_pos hv))))))))
        (by simp [List.append_assoc]) ?_
      obtain ⟨n, s, f, b, dv, fb, vs⟩ := p
      simp only at hps ⊢
      rw [hps]
    · have h0 : p.framebufferBinding = 0 := hfb0 (by omega)
      have hbs : bs = writeString p.name ++ (writeString (getSupportedPlatformsBitString p.supportedPlatforms version) ++ (writeString p.fallbackPass ++ ((wBool (decide ¬p.defaultBlendMode = -1) ++ if ¬p.defaultBlendMode = -1 then u16le (toUint16I p.defaultBlendMode) else []) ++ (u16le p.defaultVariant.length ++ (p.defaultVariant.flatMap (fun kv => writeString kv.1 ++ writeString kv.2) ++ (u16le p.variants.length ++ chunks.flatten)))))) := by
        cases hw
        simp [List.append_assoc, hv]
      subst hbs
      refine ReadsE.of_eq
        (ReadsE.bind (readsE_string hn) (ReadsE.bind (readsE_string (validStr_bitString p.supportedPlatforms version)) (ReadsE.bind (readsE_string hfb) (ReadsE.bind (readsE_blendMode hbm) (ReadsE.bind (readsE_u16 hdl) (ReadsE.bind (readsE_N p.defaultVariant (fun kv hkv => readsE_kvPair (hdv kv hkv).1 (hdv kv hkv).2)) (ReadsE.congr_r (ReadsE.bind (ReadsE.pure (0 : Nat)) (ReadsE.bind (readsE_u16 hvl) (ReadsE.bind (readsE_N_mapM p.variants hmm (fun v hv2 w hwv => readsE_variant (hvv v hv2) hwv)) (ReadsE.pure ({ name := p.name, supportedPlatforms := parseSupportedPlatforms (getSupportedPlatformsBitString p.supportedPlatforms version) version, fallbackPass := p.fallbackPass, defaultBlendMode := p.defaultBlendMode, defaultVariant := p.defaultVariant, framebufferBinding := 0, variants := p.variants } : Pass))))) (if_neg hv))))))))
        (by simp [List.append_assoc]) ?_
      obtain ⟨n, s, f, b, dv, fb, vs⟩ := p
      simp only at hps h0 ⊢
      rw [hps, h0]

/-- The parent-flag byte plus optional payload round-trips. -/
theorem readsE_optStringW {s : JStr} (hs : ValidStr s) :
    ReadsE readOptString
      (wBool (decide ¬s = []) ++ if ¬s = [] then writeString s else []) s := by
  by_cases hne : s = []
  · subst hne
    simpa using readsE_optString_none
  · simpa [hne] using readsE_optString_some hs hne

/-- The four-byte reversed encryption tag round-trips. -/
theorem readsE_encType (t : EncryptionType) :
    ReadsE readEncryptionType (writeEncryptionType t) t := by
  cases t
  · exact ReadsE.of_eq (ReadsE.bind (readsE_bytesExact (writeEncryptionType EncryptionType.NONE))
      (ReadsE.pure EncryptionType.NONE)) (by simp) rfl
  · exact ReadsE.of_eq (ReadsE.bind (readsE_bytesExact (writeEncryptionType EncryptionType.SIMPLE_PASSPHRASE))
      (ReadsE.pure EncryptionType.SIMPLE_PASSPHRASE)) (by simp) rfl
  · exact ReadsE.of_eq (ReadsE.bind (readsE_bytesExact (writeEncryptionType EncryptionType.KEY_PAIR))
      (ReadsE.pure EncryptionType.KEY_PAIR)) (by simp) rfl

/-- The material header round-trips for any in-range version. -/
theorem readsE_header {version : Nat} (h22 : 22 ≤ version) (h25 : version ≤ 25)
    (t : EncryptionType) :
    ReadsE readMaterialHeader
      (u64le MAGIC ++ (writeString CMD ++ (u64le version ++ writeEncryptionType t)))
      (version, t) := by
  unfold readMaterialHeader
  refine ReadsE.of_eq
    (ReadsE.bind (readsE_u64 (show MAGIC < 2 ^ 64 by decide))
      (ReadsE.congr_r
        (ReadsE.bind (readsE_string (show ValidStr CMD from ⟨by decide, by decide⟩))
          (ReadsE.congr_r
            (ReadsE.bind (readsE_u64 (show version < 2 ^ 64 by omega))
              (ReadsE.congr_r
                (ReadsE.bind (readsE_encType t) (ReadsE.pure (version, t)))
                (if_neg (by omega))))
            (if_neg (by simp))))
        (if_neg (by simp))))
    (by simp [List.append_assoc]) rfl

/-- A written material body reads back (run on the body bytes). -/
theorem readsE_body {m : Material} (h : ValidMaterial m) {body : List Nat}
    (hw : writeRemainingBody m = .ok body) :
    ReadsE (readMaterialBody m.version) body
      (m.name, m.parent, m.buffers, m.uniforms, m.uniformOverrides, m.passes) := by
  obtain ⟨h22, h25, henc, hn, hp, hbl, hbv, hul, huv, hob, hol, hov, hpl, hpv, he0, hes⟩ := h
  unfold writeRemainingBody at hw
  rcases hmm : mapME (writePass m.version) m.passes with e | chunks
  · rw [hmm, except_bind_err] at hw
    cases hw
  · rw [hmm, except_bind_ok, except_pure_def] at hw
    unfold readMaterialBody
    by_cases hcb : m.name = jstr "Core/Builtins"
    · have hove : m.uniformOverrides = [] := hob hcb
      have hbs : body = writeString m.name ++ ((wBool (decide ¬m.parent = []) ++ if ¬m.parent = [] then writeString m.parent else []) ++ (wUbyte m.buffers.length ++ (m.buffers.flatMap (writeMaterialBuffer m.version) ++ (u16le m.uniforms.length ++ (m.uniforms.flatMap (writeUniform m.version) ++ (u16le m.passes.length ++ (chunks.flatten ++ u64le MAGIC))))))) := by
        cases hw
        simp [List.append_assoc, hcb]
      subst hbs
      refine ReadsE.of_eq
        (ReadsE.bind (readsE_string hn) (ReadsE.bind (readsE_optStringW hp) (ReadsE.bind (readsE_wUbyte hbl) (ReadsE.bind (readsE_N m.buffers (fun b hb => readsE_buffer (hbv b hb))) (ReadsE.bind (readsE_u16 hul) (ReadsE.bind (readsE_N m.uniforms (fun u hu => readsE_uniform (huv u hu))) (ReadsE.congr_r (ReadsE.bind (ReadsE.pure ([] : List (JStr × JStr))) (ReadsE.bind (readsE_u16 hpl) (ReadsE.bind (readsE_N_mapM m.passes hmm (fun q hq w hwq => readsE_pass (hpv q hq) hwq)) (ReadsE.bind (readsE_u64 (show MAGIC < 2 ^ 64 by decide)) (ReadsE.congr_r (ReadsE.pure ((m.name, m.parent, m.buffers, m.uniforms, ([] : List (JStr × JStr)), m.passes) : JStr × JStr × List MaterialBuffer × List MUniform × List (JStr × JStr) × List Pass)) (if_neg (not_ne_iff.mpr rfl))))))) (if_neg (not_not_intro hcb)))))))))
        (by simp [List.append_assoc]) ?_
      simp [hove]
    · have hbs : body = writeString m.name ++ ((wBool (decide ¬m.parent = []) ++ if ¬m.parent = [] then writeString m.parent else []) ++ (wUbyte m.buffers.length ++ (m.buffers.flatMap (writeMaterialBuffer m.version) ++ (u16le m.uniforms.length ++ (m.uniforms.flatMap (writeUniform m.version) ++ (u16le m.uniformOverrides.length ++ (m.uniformOverrides.flatMap (fun kv => writeString kv.1 ++ writeString kv.2) ++ (u16le m.passes.length ++ (chunks.flatten ++ u64le MAGIC))))))))) := by
        cases hw
        simp [List.append_assoc, hcb]
      subst hbs
      refine ReadsE.of_eq
        (ReadsE.bind (readsE_string hn) (ReadsE.bind (readsE_optStringW hp) (ReadsE.bind (readsE_wUbyte hbl) (ReadsE.bind (readsE_N m.buffers (fun b hb => readsE_buffer (hbv b hb))) (ReadsE.bind (readsE_u16 hul) (ReadsE.bind (readsE_N m.uniforms (fun u hu => readsE_uniform (huv u hu))) (ReadsE.congr_r (ReadsE.bind (readsE_u16 hol) (ReadsE.bind (readsE_N m.uniformOverrides (fun kv hkv => readsE_kvPair (hov kv hkv).1 (hov kv hkv).2)) (ReadsE.bind (readsE_u16 hpl) (ReadsE.bind (readsE_N_mapM m.passes hmm (fun q hq w hwq => readsE_pass (hpv q hq) hwq)) (ReadsE.bind (readsE_u64 (show MAGIC < 2 ^ 64 by decide)) (ReadsE.congr_r (ReadsE.pure ((m.name, m.parent, m.buffers, m.uniforms, m.uniformOverrides, m.passes) : JStr × JStr × List MaterialBuffer × List MUniform × List (JStr × JStr) × List Pass)) (if_neg (not_ne_iff.mpr rfl)))))))) (if_pos hcb))))))))
        (by simp [List.append_assoc]) ?_
      rfl

-- ── Encryption round-trip helpers ───────────────────────────────

theorem xorKeystream_length (E : List Nat → List Nat → List Nat)
    (key n12 : List Nat) (i : Nat) (bs : List Nat) :
    (xorKeystream E key n12 i bs).length = bs.length := by
  induction bs generalizing i with
  | nil => rfl
  | cons b rest ih => simp [xorKeystream, ih]

theorem xorKeystream_involution (E : List Nat → List Nat → List Nat)
    (key n12 : List Nat) (i : Nat) (bs : List Nat) :
    xorKeystream E key n12 i (xorKeystream E key n12 i bs) = bs := by
  induction bs generalizing i with
  | nil => rfl
  | cons b rest ih =>
    simp [xorKeystream, ih, Nat.xor_assoc]

/-- Decryption undoes encryption (the CTR transform is an involution). -/
theorem decrypt_encrypt (E : List Nat → List Nat → List Nat)
    (key nonce pt : List Nat) :
    decryptAesGcm E key nonce (encryptAesGcm E key nonce pt) = pt := by
  unfold decryptAesGcm encryptAesGcm
  exact xorKeystream_involution E key (nonce.take 12) 0 pt

-- ── Writer success lemmas ───────────────────────────────────────

theorem mapME_ok {α : Type} {f : α → Except JsErr (List Nat)} {L : List α}
    (h : ∀ a ∈ L, ∃ w, f a = .ok w) : ∃ ws, mapME f L = .ok ws := by
  induction L with
  | nil => exact ⟨[], rfl⟩
  | cons a rest ih =>
    obtain ⟨w, hw⟩ := h a (by simp)
    obtain ⟨ws, hws⟩ := ih (fun x hx => h x (by simp [hx]))
    refine ⟨w :: ws, ?_⟩
    unfold mapME
    rw [hw, except_bind_ok, hws, except_bind_ok, except_pure_def]

theorem writeShaderDefinition_ok (version : Nat) (d : ShaderDefinition) :
    ∃ w, writeShaderDefinition version d = .ok w := by
  unfold writeShaderDefinition
  rw [getPlatformName_eq, getPlatformValue_eq, except_bind_ok, except_bind_ok,
    except_pure_def]
  exact ⟨_, rfl⟩

theorem writeVariant_ok (version : Nat) (v : Variant) :
    ∃ w, writeVariant version v = .ok w := by
  obtain ⟨ws, hws⟩ := mapME_ok (fun d _ => writeShaderDefinition_ok version d)
    (L := v.shaders)
  unfold writeVariant
  simp only [hws, except_bind_ok, except_pure_def]
  exact ⟨_, rfl⟩

theorem writePass_ok (version : Nat) (p : Pass) :
    ∃ w, writePass version p = .ok w := by
  obtain ⟨ws, hws⟩ := mapME_ok (fun v _ => writeVariant_ok version v)
    (L := p.variants)
  unfold writePass
  simp only [hws, except_bind_ok, except_pure_def]
  exact ⟨_, rfl⟩

theorem writeRemainingBody_ok (m : Material) :
    ∃ w, writeRemainingBody m = .ok w := by
  obtain ⟨ws, hws⟩ := mapME_ok (fun p _ => writePass_ok m.version p)
    (L := m.passes)
  unfold writeRemainingBody
  simp only [hws, except_bind_ok, except_pure_def]
  exact ⟨_, rfl⟩

-- ── Top-level container round-trip ──────────────────────────────

/-- A successful `writeMaterial` output is read back as the original. -/
theorem material_readback (E : List Nat → List Nat → List Nat)
    {m : Material} (h : ValidMaterial m) {bs : List Nat}
    (hw : writeMaterial E m = .ok bs) :
    readMaterial E bs = .ok m := by
  obtain ⟨h22, h25, henc, hn, hp, hbl, hbv, hul, huv, hob, hol, hov, hpl, hpv, he0, hes⟩ := h
  have hV : ValidMaterial m :=
    ⟨h22, h25, henc, hn, hp, hbl, hbv, hul, huv, hob, hol, hov, hpl, hpv, he0, hes⟩
  unfold writeMaterial at hw
  cases henc2 : m.encryption with
  | KEY_PAIR => exact absurd henc2 henc
  | NONE =>
    simp only [henc2] at hw
    rcases hb : writeRemainingBody m with e | body
    · simp only [hb, except_bind_err] at hw
      cases hw
    · simp only [hb, except_bind_ok, except_pure_def] at hw
      cases hw
      obtain ⟨hk0, hn0⟩ := he0 henc2
      have hH := readsE_header h22 h25 .NONE
        (u64le MAGIC ++ writeString CMD ++ u64le m.version
          ++ writeEncryptionType .NONE ++ body) 0 body (by simp [List.append_assoc])
      have hB := readsE_body hV hb
        (u64le MAGIC ++ writeString CMD ++ u64le m.version
          ++ writeEncryptionType .NONE ++ body)
        (0 + (u64le MAGIC ++ (writeString CMD
          ++ (u64le m.version ++ writeEncryptionType .NONE))).length) []
        (by simp [List.append_assoc])
      unfold readMaterial
      simp only [hH, except_bind_ok]
      simp only [hB, except_bind_ok, except_pure_def]
      rw [← henc2]
      nth_rewrite 1 [← hk0]
      rw [← hn0]
  | SIMPLE_PASSPHRASE =>
    simp only [henc2] at hw
    obtain ⟨hkl, hnl, hbl32⟩ := hes henc2
    rcases hb : writeRemainingBody m with e | body
    · simp only [hb, except_bind_err] at hw
      cases hw
    · simp only [hb, except_bind_ok, except_pure_def] at hw
      cases hw
      have hklt : m.encryptionKey.length < 2 ^ 32 := by rcases hkl with h | h | h <;> omega
      have helen : (encryptAesGcm E m.encryptionKey m.encryptionNonce body).length < 2 ^ 32 := by
        unfold encryptAesGcm
        rw [xorKeystream_length]
        exact hbl32 body hb
      have hH := readsE_header h22 h25 .SIMPLE_PASSPHRASE
        (u64le MAGIC ++ writeString CMD ++ u64le m.version
          ++ writeEncryptionType .SIMPLE_PASSPHRASE
          ++ writeArrayB m.encryptionKey ++ writeArrayB m.encryptionNonce
          ++ writeArrayB (encryptAesGcm E m.encryptionKey m.encryptionNonce body)) 0
        (writeArrayB m.encryptionKey ++ writeArrayB m.encryptionNonce
          ++ writeArrayB (encryptAesGcm E m.encryptionKey m.encryptionNonce body))
        (by simp [List.append_assoc])
      have hT : ReadsE (do
          let k ← readArray
          let n ← readArray
          let e ← readArray
          pure (k, n, e) : RM (List Nat × List Nat × List Nat))
          (writeArrayB m.encryptionKey ++ (writeArrayB m.encryptionNonce
            ++ writeArrayB (encryptAesGcm E m.encryptionKey m.encryptionNonce body)))
          (m.encryptionKey, m.encryptionNonce,
            encryptAesGcm E m.encryptionKey m.encryptionNonce body) := by
        refine ReadsE.of_eq (ReadsE.bind (readsE_array hklt)
          (ReadsE.bind (readsE_array hnl) (ReadsE.bind (readsE_array helen)
          (ReadsE.pure (m.encryptionKey, m.encryptionNonce,
            encryptAesGcm E m.encryptionKey m.encryptionNonce body)))))
          (by simp [List.append_assoc]) rfl
      have hT2 := hT
        (u64le MAGIC ++ writeString CMD ++ u64le m.version
          ++ writeEncryptionType .SIMPLE_PASSPHRASE
          ++ writeArrayB m.encryptionKey ++ writeArrayB m.encryptionNonce
          ++ writeArrayB (encryptAesGcm E m.encryptionKey m.encryptionNonce body))
        (0 + (u64le MAGIC ++ (writeString CMD ++ (u64le m.version
          ++ writeEncryptionType .SIMPLE_PASSPHRASE))).length) []
        (by simp [List.append_assoc])
      have hB := readsE_body hV hb body 0 []
        (by simp)
      unfold readMaterial
      simp only [hH, except_bind_ok]
      simp only [hT2, except_bind_ok]
      simp only [decrypt_encrypt, hB, except_bind_ok, except_pure_def]
      rw [← henc2]

/-- A concrete identity "block cipher" for witnesses; the round-trip theorems
hold for any block function. -/
def idE : List Nat → List Nat → List Nat := fun _ b => b

/-- A small concrete valid material (unencrypted, no passes). -/
def wMat0 : Material :=
  ⟨22, jstr "m", .NONE, [], [], [], [], [], [], []⟩

/-- Every valid material writes successfully and reads back unchanged. -/
theorem material_write_read (E : List Nat → List Nat → List Nat)
    {m : Material} (h : ValidMaterial m) :
    ∃ bs, writeMaterial E m = .ok bs ∧ readMaterial E bs = .ok m := by
  obtain ⟨body, hb⟩ := writeRemainingBody_ok m
  have henc := h.2.2.1
  unfold writeMaterial
  cases henc2 : m.encryption with
  | KEY_PAIR => exact absurd henc2 henc
  | NONE =>
    simp only [henc2, hb, except_bind_ok, except_pure_def]
    refine ⟨_, rfl, material_readback E h ?_⟩
    unfold writeMaterial
    simp only [henc2, hb, except_bind_ok, except_pure_def]
  | SIMPLE_PASSPHRASE =>
    simp only [henc2, hb, except_bind_ok, except_pure_def]
    refine ⟨_, rfl, material_readback E h ?_⟩
    unfold writeMaterial
    simp only [henc2, hb, except_bind_ok, except_pure_def]


/-- C1: Structural round-trip of the container codec — for every material
with valid fields (version 22–25, encryption mode not `KEY_PAIR`, all enum,
string, and count fields within their wire widths) and any AES block
function, `writeMaterial` succeeds and `readMaterial` reads its output back
as a material equal to the original. -/
theorem C1_material_roundtrip (E : List Nat → List Nat → List Nat)
    {m : Material} (h : ValidMaterial m) :
    ∃ bs, writeMaterial E m = .ok bs ∧ readMaterial E bs = .ok m :=
  material_write_read E h

/-- Witness for C1 at a concrete material and block function. -/
theorem C1_material_roundtrip_witness :
    ValidMaterial wMat0
    ∧ ∃ bs, writeMaterial idE wMat0 = .ok bs ∧ readMaterial idE bs = .ok wMat0 := by
  have hV : ValidMaterial wMat0 := by
    refine ⟨by decide, by decide, by decide, ⟨by decide, by decide⟩,
      ⟨by decide, by decide⟩, by decide, ?_, by decide, ?_, ?_, by decide, ?_,
      by decide, ?_, ?_, ?_⟩
    · intro b hb
      cases hb
    · intro u hu
      cases hu
    · intro hc
      rfl
    · intro kv hkv
      cases hkv
    · intro p hp
      cases hp
    · intro hc
      exact ⟨rfl, rfl⟩
    · intro hc
      cases hc
  exact ⟨hV, C1_material_roundtrip idE hV⟩

/-- C4: Encryption round-trip — for every AES key of length 16, 24 or 32
bytes, every nonce of at least 12 bytes, every plaintext, and any block
function, decryption undoes encryption. -/
theorem C4_encryption_roundtrip (E : List Nat → List Nat → List Nat)
    (key nonce plaintext : List Nat)
    (hkey : key.length = 16 ∨ key.length = 24 ∨ key.length = 32)
    (hnonce : 12 ≤ nonce.length) :
    decryptAesGcm E key nonce (encryptAesGcm E key nonce plaintext) = plaintext :=
  decrypt_encrypt E key nonce plaintext

/-- Witness for C4 at a concrete key, nonce and plaintext. -/
theorem C4_encryption_roundtrip_witness :
    decryptAesGcm idE (List.replicate 16 7) (List.replicate 12 9)
        (encryptAesGcm idE (List.replicate 16 7) (List.replicate 12 9) [1, 2, 3])
      = [1, 2, 3] :=
  C4_encryption_roundtrip idE (List.replicate 16 7) (List.replicate 12 9)
    [1, 2, 3] (Or.inl (by decide)) (by decide)

/-- C5 (actual behaviour): `getPlatformValue` for `ESSL_300` yields 8 at
version 24 but 10 at version 25 (the numeric enum member `ESSL_310` is
stored, and the `typeof value !== "number"` conversion branch never fires);
`getPlatformName` yields "ESSL_300" at both versions (not "ESSL_310"); and
`platformFromIndex` at version 25 indeed never returns `ESSL_300` (index 10
hits `Vulkan` first). -/
theorem C5_essl300_actual :
    getPlatformValue .ESSL_300 24 = .ok 8
    ∧ getPlatformValue .ESSL_300 25 = .ok 10
    ∧ getPlatformValue .ESSL_300 25 ≠ .ok 8
    ∧ getPlatformName .ESSL_300 24 = .ok (jstr "ESSL_300")
    ∧ getPlatformName .ESSL_300 25 = .ok (jstr "ESSL_300")
    ∧ getPlatformName .ESSL_300 25 ≠ .ok (jstr "ESSL_310")
    ∧ platformFromIndex 10 25 = .ok .Vulkan
    ∧ ∀ index : Nat, platformFromIndex index 25 ≠ .ok .ESSL_300 := by
  refine ⟨rfl, rfl, by decide, rfl, rfl, by decide, rfl, ?_⟩
  intro index h
  by_cases hle : index ≤ 13
  · interval_cases index <;> exact absurd h (by decide)
  · unfold platformFromIndex at h
    rw [List.find?_eq_none.mpr ?_] at h
    · cases h
    · intro e hmem
      simp only [platformMapping, if_pos (by omega : 25 ≤ 25), List.mem_cons,
        List.not_mem_nil, or_false] at hmem
      rcases hmem with rfl|rfl|rfl|rfl|rfl|rfl|rfl|rfl|rfl|rfl|rfl|rfl|rfl|rfl|rfl <;>
        simp only [beq_iff_eq, platVal] <;> omega

/-- C7: Unsupported version rejection — any input whose magic and identifier
are valid but whose u64 version field decodes below 22 or above 25 makes
`readMaterial` fail with `UnsupportedVersionError` carrying that version. -/
theorem C7_unsupported_version (E : List Nat → List Nat → List Nat)
    {version : Nat} (hv : version < 22 ∨ 25 < version) (hv64 : version < 2 ^ 64)
    (rest : List Nat) :
    readMaterial E (u64le MAGIC ++ (writeString CMD ++ (u64le version ++ rest)))
      = .error (.unsupportedVersion version) := by
  have h1 := readsE_u64 (show MAGIC < 2 ^ 64 by decide)
    (u64le MAGIC ++ (writeString CMD ++ (u64le version ++ rest))) 0
    (writeString CMD ++ (u64le version ++ rest)) (by simp)
  have h2 := readsE_string (show ValidStr CMD from ⟨by decide, by decide⟩)
    (u64le MAGIC ++ (writeString CMD ++ (u64le version ++ rest)))
    (0 + (u64le MAGIC).length) (u64le version ++ rest) (by simp)
  have h3 := readsE_u64 hv64
    (u64le MAGIC ++ (writeString CMD ++ (u64le version ++ rest)))
    (0 + (u64le MAGIC).length + (writeString CMD).length) rest (by simp)
  have hh : readMaterialHeader
      ⟨u64le MAGIC ++ (writeString CMD ++ (u64le version ++ rest)), 0⟩
      = .error (.unsupportedVersion version) := by
    unfold readMaterialHeader
    rw [rm_bind_ok h1, if_neg (not_ne_iff.mpr rfl), rm_bind_ok h2,
      if_neg (not_ne_iff.mpr rfl), rm_bind_ok h3, if_pos (by omega)]
    rfl
  unfold readMaterial
  rw [hh]
  rfl

/-- Witness for C7 at version 26. -/
theorem C7_unsupported_version_witness :
    readMaterial idE (u64le MAGIC ++ (writeString CMD ++ (u64le 26 ++ [])))
      = .error (.unsupportedVersion 26) :=
  C7_unsupported_version idE (Or.inr (by decide)) (by decide) []

/-- C8 counterexample: the wrapper hash is written with `writeUlong` (four
bytes), so a 64-bit hash is narrowed to its low 32 bits by a
write-then-read trip. -/
theorem C8_hash_narrowing_counterexample :
    readBgfxShader
        (writeBgfxShader .ESSL_300 .Vertex ⟨2 ^ 32 + 7, [], [], [], [], -1⟩)
        .ESSL_300 .Vertex
      = .ok ⟨7, [], [], [], [], -1⟩
    ∧ (⟨7, [], [], [], [], -1⟩ : BgfxShader) ≠ ⟨2 ^ 32 + 7, [], [], [], [], -1⟩ := by
  constructor
  · rfl
  · decide

/-- C8 amended: the wrapper hash occupies four bytes (u32) on the wire —
`u32le` is the hash segment emitted by `writeBgfxShader` — and a
write-then-read trip preserves exactly the hashes below `2^32`. -/
theorem C8_hash_u32_roundtrip {platform : ShaderPlatform} {stage : ShaderStage}
    {sh : BgfxShader} (h : ValidBgfx platform stage sh) :
    (u32le sh.hash).length = 4
    ∧ readBgfxShader (writeBgfxShader platform stage sh) platform stage = .ok sh :=
  ⟨rfl, readBgfx_writeBgfx h⟩

/-- Witness for the amended C8 at a concrete shader. -/
theorem C8_hash_u32_roundtrip_witness :
    (u32le (4020303617 : Nat)).length = 4
    ∧ readBgfxShader
        (writeBgfxShader .ESSL_300 .Vertex ⟨4020303617, [], [], [], [], -1⟩)
        .ESSL_300 .Vertex
      = .ok ⟨4020303617, [], [], [], [], -1⟩ :=
  C8_hash_u32_roundtrip (by simp [ValidBgfx])

/-- C9 counterexample: a length-prefixed payload that is not valid UTF-8
(a lone continuation byte) does not make `readString` throw — the shared
`TextDecoder` is constructed without `fatal: true`, so it substitutes
U+FFFD and succeeds. -/
theorem C9_invalid_utf8_not_rejected :
    readString ⟨[1, 0, 0, 0, 0x80], 0⟩
      = .ok ([0xFFFD], ⟨[1, 0, 0, 0, 0x80], 5⟩) := rfl

/-- C9 amended: `readString` never produces a `formatError`; it either
succeeds (malformed payload bytes become U+FFFD) or fails with the
`RangeError` of an incomplete length prefix. -/
theorem C9_readString_no_format_error (s : BReader) :
    (∃ v s', readString s = .ok (v, s')) ∨ readString s = .error .rangeError := by
  unfold readString readArray
  by_cases hlen : s.off + 4 ≤ s.bytes.length
  · have hu : readUlong s = .ok (byteAt s.bytes s.off
        + 256 * byteAt s.bytes (s.off + 1) + 256 ^ 2 * byteAt s.bytes (s.off + 2)
        + 256 ^ 3 * byteAt s.bytes (s.off + 3), ⟨s.bytes, s.off + 4⟩) := by
      unfold readUlong
      rw [if_pos hlen]
    rw [rm_bind_ok (rm_bind_ok hu)]
    exact Or.inl ⟨_, _, rfl⟩
  · have hu : readUlong s = .error .rangeError := by
      unfold readUlong
      rw [if_neg hlen]
    rw [rm_bind_err (rm_bind_err hu)]
    exact Or.inr rfl

/-- C10: Silent truncation — `readBytes` past the end returns just the
remaining bytes yet advances the offset by the full count, and `readArray`
and `readString` on a truncated payload return the shortened data (decoded,
for strings) instead of raising. -/
theorem C10_silent_truncation :
    (∀ (bytes : List Nat) (off count : Nat), bytes.length - off < count →
      readBytes count ⟨bytes, off⟩ = .ok (bytes.drop off, ⟨bytes, off + count⟩))
    ∧ (∀ (n : Nat) (data : List Nat), n < 2 ^ 32 → data.length < n →
      readArray ⟨u32le n ++ data, 0⟩
        = .ok (data, ⟨u32le n ++ data, 0 + (u32le n).length + n⟩))
    ∧ (∀ (n : Nat) (data : List Nat), n < 2 ^ 32 → data.length < n →
      readString ⟨u32le n ++ data, 0⟩
        = .ok (utf8Dec data, ⟨u32le n ++ data, 0 + (u32le n).length + n⟩)) := by
  have hrb : ∀ (bytes : List Nat) (off count : Nat), bytes.length - off < count →
      readBytes count ⟨bytes, off⟩ = .ok (bytes.drop off, ⟨bytes, off + count⟩) := by
    intro bytes off count hc
    unfold readBytes
    rw [List.take_of_length_le (by simp; omega)]
  have hra : ∀ (n : Nat) (data : List Nat), n < 2 ^ 32 → data.length < n →
      readArray ⟨u32le n ++ data, 0⟩
        = .ok (data, ⟨u32le n ++ data, 0 + (u32le n).length + n⟩) := by
    intro n data hn hd
    have hu := readsE_u32 hn (u32le n ++ data) 0 data (by simp)
    unfold readArray
    rw [rm_bind_ok hu, hrb (u32le n ++ data) (0 + (u32le n).length) n
      (by simp [u32le]; omega)]
    simp [u32le]
  refine ⟨hrb, hra, ?_⟩
  intro n data hn hd
  unfold readString
  rw [rm_bind_ok (hra n data hn hd)]
  simp [u32le, rm_pure_def]

/-- Witness for C10 at a concrete truncated input. -/
theorem C10_silent_truncation_witness :
    readArray ⟨u32le 3 ++ [5], 0⟩ = .ok ([5], ⟨u32le 3 ++ [5], 0 + (u32le 3).length + 3⟩) :=
  C10_silent_truncation.2.1 3 [5] (by decide) (by decide)

/-- A small concrete valid `Core/Builtins` material. -/
def wMatCB : Material :=
  ⟨22, jstr "Core/Builtins", .NONE, [], [], [], [], [], [], []⟩

/-- C6: Core/Builtins override block — the writer emits the u16
override-count field (followed by the pairs) exactly when the material name
is not "Core/Builtins": for any other name the field and pairs sit between
the uniform block and the pass count, while a "Core/Builtins" body holds no
override bytes at all, and a zero-override "Core/Builtins" material still
round-trips. -/
theorem C6_core_builtins_override_block (E : List Nat → List Nat → List Nat)
    {m : Material} (h : ValidMaterial m) (hcb : m.name = jstr "Core/Builtins") :
    (∀ m' : Material, m'.name ≠ jstr "Core/Builtins" →
      ∀ chunks, mapME (writePass m'.version) m'.passes = .ok chunks →
      writeRemainingBody m' = .ok (writeString m'.name
        ++ wBool (decide ¬m'.parent = [])
        ++ (if ¬m'.parent = [] then writeString m'.parent else [])
        ++ wUbyte m'.buffers.length
        ++ m'.buffers.flatMap (writeMaterialBuffer m'.version)
        ++ u16le m'.uniforms.length
        ++ m'.uniforms.flatMap (writeUniform m'.version)
        ++ (u16le m'.uniformOverrides.length
            ++ m'.uniformOverrides.flatMap (fun kv => writeString kv.1 ++ writeString kv.2))
        ++ u16le m'.passes.length ++ chunks.flatten ++ u64le MAGIC))
    ∧ (∀ chunks, mapME (writePass m.version) m.passes = .ok chunks →
      writeRemainingBody m = .ok (writeString m.name
        ++ wBool (decide ¬m.parent = [])
        ++ (if ¬m.parent = [] then writeString m.parent else [])
        ++ wUbyte m.buffers.length
        ++ m.buffers.flatMap (writeMaterialBuffer m.version)
        ++ u16le m.uniforms.length
        ++ m.uniforms.flatMap (writeUniform m.version)
        ++ u16le m.passes.length ++ chunks.flatten ++ u64le MAGIC))
    ∧ ∃ bs, writeMaterial E m = .ok bs ∧ readMaterial E bs = .ok m := by
  refine ⟨?_, ?_, material_write_read E h⟩
  · intro m' hne chunks hmm
    unfold writeRemainingBody
    simp only [hmm, except_bind_ok, except_pure_def, if_pos hne]
  · intro chunks hmm
    unfold writeRemainingBody
    simp only [hmm, except_bind_ok, except_pure_def]
    rw [if_neg (not_not_intro hcb)]
    simp [List.append_assoc]

/-- Witness for C6 at a concrete "Core/Builtins" material. -/
theorem C6_core_builtins_override_block_witness :
    (∀ chunks, mapME (writePass wMatCB.version) wMatCB.passes = .ok chunks →
      writeRemainingBody wMatCB = .ok (writeString wMatCB.name
        ++ wBool (decide ¬wMatCB.parent = [])
        ++ (if ¬wMatCB.parent = [] then writeString wMatCB.parent else [])
        ++ wUbyte wMatCB.buffers.length
        ++ wMatCB.buffers.flatMap (writeMaterialBuffer wMatCB.version)
        ++ u16le wMatCB.uniforms.length
        ++ wMatCB.uniforms.flatMap (writeUniform wMatCB.version)
        ++ u16le wMatCB.passes.length ++ chunks.flatten ++ u64le MAGIC))
    ∧ ∃ bs, writeMaterial idE wMatCB = .ok bs ∧ readMaterial idE bs = .ok wMatCB := by
  have hV : ValidMaterial wMatCB := by
    refine ⟨by decide, by decide, by decide, ⟨by decide, by decide⟩,
      ⟨by decide, by decide⟩, by decide, ?_, by decide, ?_, ?_, by decide, ?_,
      by decide, ?_, ?_, ?_⟩
    · intro b hb
      cases hb
    · intro u hu
      cases hu
    · intro hc
      rfl
    · intro kv hkv
      cases hkv
    · intro p hp
      cases hp
    · intro hc
      exact ⟨rfl, rfl⟩
    · intro hc
      cases hc
  exact (C6_core_builtins_override_block idE hV rfl).2

-- ── Boolean minimizer (`src/boolean/simplify.ts`) ───────────────
-- JS strings are `JStr` as elsewhere; JS `Set`s are insertion-ordered
-- lists with deduplicating insert; `selected.includes(pi)` compares object
-- references, so the cover phase carries indices into the prime list.
-- Bitwise `~` is 32-bit complement; all quantities stay below `2^31`
-- when `numVars ≤ 30`, where JS int32 semantics and `Nat` agree.

/-- An `Implicant` (its `minterms` set as an insertion-ordered list). -/
structure Implicant where
  mask : Nat
  value : Nat
  minterms : List Nat
deriving DecidableEq, Repr

/-- `SimplifiedExpression`. -/
structure SimplifiedExpression where
  expression : JStr
  atoms : List JStr
deriving DecidableEq, Repr

/-- `Set.add`. -/
def setInsert (s : List Nat) (x : Nat) : List Nat := if x ∈ s then s else s ++ [x]

/-- `new Set([...a, ...b])`. -/
def setUnion (a b : List Nat) : List Nat := b.foldl setInsert a

/-- `Set.delete` (insertion order kept). -/
def setDelete (s : List Nat) (x : Nat) : List Nat := s.filter (fun y => y ≠ x)

/-- JS `~` under `& mask` for 32-bit quantities. -/
def jsNot32 (x : Nat) : Nat := 0xFFFFFFFF ^^^ x

/-- The default for out-of-range index reads (never hit at the call sites). -/
def noImpl : Implicant := ⟨0, 0, []⟩

/-- The inner double loop of one merging round, as a fold over the ordered
pairs `(i, j)`, `i < j`. -/
structure RoundSt where
  used : List Nat
  seen : List (Nat × Nat)
  out : List Implicant
deriving Repr

/-- The ordered pair list `(0,1), (0,2), …` of the nested `for` loops. -/
def pairList (n : Nat) : List (Nat × Nat) :=
  (List.range n).flatMap (fun i => ((List.range n).drop (i + 1)).map (fun j => (i, j)))

/-- One `(i, j)` step of the merging round. -/
def pairStep (implicants : List Implicant) (st : RoundSt) (ij : Nat × Nat) : RoundSt :=
  let a := implicants.getD ij.1 noImpl
  let b := implicants.getD ij.2 noImpl
  if a.mask ≠ b.mask then st
  else
    let diff := a.value ^^^ b.value
    if diff = 0 ∨ diff &&& (diff - 1) ≠ 0 then st
    else if diff &&& a.mask = 0 then st
    else
      let newMask := a.mask &&& jsNot32 diff
      let newValue := a.value &&& newMask
      let st1 :=
        if (newMask, newValue) ∈ st.seen then st
        else
          { used := st.used, seen := st.seen ++ [(newMask, newValue)], out := st.out ++ [⟨newMask, newValue, setUnion a.minterms b.minterms⟩] }
      { used := setInsert (setInsert st1.used ij.1) ij.2, seen := st1.seen, out := st1.out }

/-- One whole merging round. -/
def roundStep (implicants : List Implicant) : RoundSt :=
  (pairList implicants.length).foldl (pairStep implicants) ⟨[], [], []⟩

/-- The implicants of a round that merged into nothing. -/
def unusedOf (implicants : List Implicant) (used : List Nat) : List Implicant :=
  ((List.range implicants.length).filter (fun i => i ∉ used)).map
    (fun i => implicants.getD i noImpl)

/-- The `while (implicants.length > 0)` loop.  Every merged mask drops a set
bit, so the largest mask value strictly decreases each round and
`2 ^ numVars + 1` units of fuel dominate the source's loop. -/
def qmLoop : Nat → List Implicant → List Implicant → List Implicant
  | 0, primes, implicants => primes ++ implicants
  | fuel + 1, primes, implicants =>
    match implicants with
    | [] => primes
    | _ =>
      let st := roundStep implicants
      qmLoop fuel (primes ++ unusedOf implicants st.used) st.out

/-- `findPrimeImplicants`. -/
def findPrimeImplicants (minterms : List Nat) (numVars : Nat) : List Implicant :=
  qmLoop (2 ^ numVars + 1) []
    (minterms.map (fun m => ⟨(1 <<< numVars) - 1, m, [m]⟩))

/-- One minterm of the essential-implicant scan (state: selected indices and
the uncovered set). -/
def essentialStep (primes : List Implicant) (st : List Nat × List Nat)
    (minterm : Nat) : List Nat × List Nat :=
  let covering := (List.range primes.length).filter
    (fun i => minterm ∈ (primes.getD i noImpl).minterms)
  match covering with
  | [i] =>
    if i ∈ st.1 then st
    else (st.1 ++ [i], st.2.filter (fun m => m ∉ (primes.getD i noImpl).minterms))
  | _ => st

/-- The best-coverage scan of one greedy iteration (`bestPI`,
`bestCoverage`). -/
def bestOf (primes : List Implicant) (selected uncovered : List Nat) :
    Option Nat × Nat :=
  (List.range primes.length).foldl
    (fun st i =>
      if i ∈ selected then st
      else
        let coverage := ((primes.getD i noImpl).minterms.filter
          (fun m => m ∈ uncovered)).length
        if coverage > st.2 then (some i, coverage) else st)
    (none, 0)

/-- The greedy `while (uncovered.size > 0)` loop; every selection removes at
least one uncovered minterm, so `uncovered.length + 1` units of fuel
dominate the source's loop. -/
def greedyLoop (primes : List Implicant) : Nat → List Nat → List Nat → List Nat
  | 0, selected, _ => selected
  | fuel + 1, selected, uncovered =>
    match uncovered with
    | [] => selected
    | _ =>
      match (bestOf primes selected uncovered).1 with
      | none => selected
      | some i =>
        greedyLoop primes fuel (selected ++ [i])
          (uncovered.filter (fun m => m ∉ (primes.getD i noImpl).minterms))

/-- `findMinimalCover`. -/
def findMinimalCover (primes : List Implicant) (minterms : List Nat) :
    List Implicant :=
  let st := minterms.foldl (essentialStep primes) ([], minterms.foldl setInsert [])
  let selected := greedyLoop primes (st.2.length + 1) st.1 st.2
  selected.map (fun i => primes.getD i noImpl)

/-- `intercalate` for code-point strings (`Array.join`). -/
def joinSep (sep : List Nat) : List JStr → JStr
  | [] => []
  | [p] => p
  | p :: ps => p ++ sep ++ joinSep sep ps

/-- The literal list and product string of one implicant. -/
def productOf (vars : List JStr) (impl : Implicant) : JStr :=
  let numVars := vars.length
  let literals := (List.range numVars).filterMap (fun i =>
    let bit := 1 <<< (numVars - 1 - i)
    if impl.mask &&& bit = 0 then none
    else some (if impl.value &&& bit ≠ 0 then vars.getD i []
      else jstr "~" ++ vars.getD i []))
  if literals.length > 0 then joinSep (jstr " & ") literals else jstr "True"

/-- The `atoms` set of `formatImplicants`. -/
def atomsOf (implicants : List Implicant) (vars : List JStr) : List JStr :=
  implicants.foldl
    (fun acc impl =>
      (List.range vars.length).foldl
        (fun acc2 i =>
          let bit := 1 <<< (vars.length - 1 - i)
          if impl.mask &&& bit = 0 then acc2
          else if vars.getD i [] ∈ acc2 then acc2
          else acc2 ++ [vars.getD i []])
        acc)
    []

/-- Substring test (JS `String.includes`). -/
def hasSub (pat : List Nat) : List Nat → Bool
  | [] => pat.isPrefixOf []
  | x :: xs => pat.isPrefixOf (x :: xs) || hasSub pat xs

/-- `formatImplicants`. -/
def formatImplicants (implicants : List Implicant) (vars : List JStr) :
    SimplifiedExpression :=
  let atoms := atomsOf implicants vars
  let products := implicants.map (productOf vars)
  if products.length = 0 then ⟨jstr "False", atoms⟩
  else if products.length = 1 then ⟨products.getD 0 [], atoms⟩
  else
    let formatted := products.map (fun p =>
      if hasSub (jstr " & ") p ∧ products.length > 1 then
        jstr "(" ++ p ++ jstr ")"
      else p)
    ⟨joinSep (jstr " | ") formatted, atoms⟩

/-- `simplifyLogic`. -/
def simplifyLogic (vars : List JStr) (minterms : List Nat) :
    SimplifiedExpression :=
  let numVars := vars.length
  if minterms.length = 0 then ⟨jstr "False", []⟩
  else if minterms.length = 1 <<< numVars then ⟨jstr "True", []⟩
  else
    formatImplicants (findMinimalCover (findPrimeImplicants minterms numVars)
      minterms) vars

-- ── Reading the sympy-style expression back (the claim's semantics:
-- `&` is AND, `|` is OR, `~` is NOT, with the parenthesised products the
-- formatter emits) ──────────────────────────────────────────────

/-- Split a string at every occurrence of one character. -/
def splitOnC (c : Nat) : JStr → List JStr
  | [] => [[]]
  | x :: xs =>
    match splitOnC c xs with
    | [] => if x = c then [[], []] else [[x]]
    | h :: t => if x = c then [] :: h :: t else (x :: h) :: t

/-- Trim the spaces the separators leave around a token. -/
def trimSp (s : JStr) : JStr :=
  ((s.dropWhile (fun ch => ch = 32)).reverse.dropWhile (fun ch => ch = 32)).reverse

/-- Remove one pair of wrapping parentheses, when present. -/
def stripParen (s : JStr) : JStr :=
  if s.head? = some 40 ∧ s.getLast? = some 41 then (s.drop 1).dropLast else s

/-- One literal: `True`, `False`, `~name` or `name`. -/
def evalLit (assign : JStr → Bool) (t : JStr) : Bool :=
  let t := trimSp t
  if t = jstr "True" then true
  else if t = jstr "False" then false
  else
    match t with
    | 126 :: name => !assign name
    | _ => assign t

/-- One product: an `&`-separated conjunction, possibly parenthesised. -/
def evalProd (assign : JStr → Bool) (t : JStr) : Bool :=
  (splitOnC 38 (stripParen (trimSp t))).all (evalLit assign)

/-- A sum of products: a `|`-separated disjunction. -/
def evalSop (assign : JStr → Bool) (s : JStr) : Bool :=
  (splitOnC 124 s).any (evalProd assign)

/-- The claim's assignment: variable `i` is true iff bit `n - 1 - i` of the
assignment's index is set. -/
def assignOf (vars : List JStr) (a : Nat) (name : JStr) : Bool :=
  match vars.indexOf? name with
  | some i => a.testBit (vars.length - 1 - i)
  | none => false

/-- A variable name the sympy-style format can carry without ambiguity:
nonempty, no space, `&`, `|`, `~` or parenthesis characters, and not the
reserved words. -/
def GoodName (v : JStr) : Prop :=
  v ≠ [] ∧ (∀ c ∈ v, c ≠ 32 ∧ c ≠ 38 ∧ c ≠ 124 ∧ c ≠ 126 ∧ c ≠ 40 ∧ c ≠ 41)
  ∧ v ≠ jstr "True" ∧ v ≠ jstr "False"

instance (v : JStr) : Decidable (GoodName v) := by
  unfold GoodName; infer_instance

-- ── Bit-level lemmas for the merge step ─────────────────────────

theorem land_two_mul_add (a b : Nat) (x y : Bool) :
    (2 * a + x.toNat) &&& (2 * b + y.toNat) = 2 * (a &&& b) + (x && y).toNat := by
  apply Nat.eq_of_testBit_eq
  intro i
  cases i with
  | zero =>
    simp only [Nat.testBit_and, Nat.testBit_zero]
    cases x <;> cases y <;> simp [Nat.mul_add_mod]
  | succ i =>
    rw [Nat.testBit_succ, Nat.testBit_succ, Nat.and_div_two]
    have hx : (2 * a + x.toNat) / 2 = a := by cases x <;> simp <;> omega
    have hy : (2 * b + y.toNat) / 2 = b := by cases y <;> simp <;> omega
    have hz : (2 * (a &&& b) + (x && y).toNat) / 2 = a &&& b := by
      cases x <;> cases y <;> simp <;> omega
    rw [hx, hy, hz]

theorem pow2_of_land_pred (d : Nat) : d ≠ 0 → d &&& (d - 1) = 0 → ∃ k, d = 2 ^ k := by
  induction d using Nat.strong_induction_on with
  | _ d ih =>
    intro hne hand
    rcases Nat.even_or_odd d with he | ho
    · obtain ⟨e, he⟩ := he
      have hee : e ≠ 0 := by omega
      have hd1 : d - 1 = 2 * (e - 1) + (true).toNat := by simp; omega
      have hd : d = 2 * e + (false).toNat := by simp; omega
      rw [hd1, hd, land_two_mul_add] at hand
      have h2 : e &&& (e - 1) = 0 := by simp at hand; omega
      obtain ⟨k, hk⟩ := ih e (by omega) hee h2
      exact ⟨k + 1, by rw [Nat.pow_succ]; omega⟩
    · obtain ⟨e, ho⟩ := ho
      have hd1 : d - 1 = 2 * e + (false).toNat := by simp; omega
      have hd : d = 2 * e + (true).toNat := by simp; omega
      rw [hd1, hd, land_two_mul_add] at hand
      have he0 : e = 0 := by simp [Nat.and_self] at hand; omega
      exact ⟨0, by omega⟩

/-- Membership in the cube of `(mask, value)` bit by bit. -/
theorem land_eq_iff {mask value a : Nat} (hv : value &&& mask = value) :
    a &&& mask = value ↔ ∀ i, mask.testBit i = true → a.testBit i = value.testBit i := by
  constructor
  · intro h i hm
    have h2 := congrArg (fun x => x.testBit i) h
    simp only [Nat.testBit_and, hm, Bool.and_true] at h2
    exact h2
  · intro h
    apply Nat.eq_of_testBit_eq
    intro i
    have hv2 := congrArg (fun x => x.testBit i) hv
    simp only [Nat.testBit_and] at hv2 ⊢
    by_cases hm : mask.testBit i = true
    · simp [hm, h i hm]
    · rw [Bool.not_eq_true] at hm
      rw [hm, Bool.and_false, ← hv2, hm, Bool.and_false]

/-- The bits of the merged mask `maskA & ~diff` for a single-bit `diff`. -/
theorem newMask_testBit {maskA k : Nat} (hm32 : maskA < 2 ^ 32) (hk : k < 32) (i : Nat) :
    (maskA &&& jsNot32 (2 ^ k)).testBit i = (maskA.testBit i && !(decide (i = k))) := by
  have h32 : ∀ j, j < 32 → Nat.testBit 0xFFFFFFFF j = true := by
    intro j hj
    rw [show (0xFFFFFFFF : Nat) = 2 ^ 32 - 1 by norm_num, Nat.testBit_two_pow_sub_one]
    simp [hj]
  unfold jsNot32
  by_cases hi : i < 32
  · simp only [Nat.testBit_and, Nat.testBit_xor, Nat.testBit_two_pow, h32 i hi,
      Bool.true_xor]
    by_cases hik : i = k
    · simp [hik]
    · simp only [hik, decide_False, Bool.not_false, Bool.and_true]
      by_cases hm : maskA.testBit i = true
      · simp [hm]
        intro h
        exact hik h.symm
      · simp [Bool.not_eq_true] at hm
        simp [hm]
  · have hma : maskA.testBit i = false :=
      Nat.testBit_lt_two_pow (lt_of_lt_of_le hm32 (Nat.pow_le_pow_right (by omega) (by omega)))
    simp [Nat.testBit_and, hma]

/-- Merging two implicants unions their cubes. -/
theorem cube_merge {maskA valA valB k a : Nat}
    (hA : valA &&& maskA = valA) (hB : valB &&& maskA = valB)
    (hd : valA ^^^ valB = 2 ^ k) (hk : maskA.testBit k = true)
    (hm32 : maskA < 2 ^ 32) (hk32 : k < 32) :
    (a &&& (maskA &&& jsNot32 (2 ^ k)) = valA &&& (maskA &&& jsNot32 (2 ^ k)))
      ↔ (a &&& maskA = valA ∨ a &&& maskA = valB) := by
  have hBbits : ∀ i, valB.testBit i = ((valA.testBit i).xor (decide (i = k))) := by
    intro i
    have h2 := congrArg (fun x => x.testBit i) hd
    simp only [Nat.testBit_xor, Nat.testBit_two_pow] at h2
    cases hva : valA.testBit i <;> cases hvb : valB.testBit i <;>
      rw [hva, hvb] at h2 <;> simp at h2 ⊢ <;> omega
  have hvN : (valA &&& (maskA &&& jsNot32 (2 ^ k))) &&& (maskA &&& jsNot32 (2 ^ k))
      = valA &&& (maskA &&& jsNot32 (2 ^ k)) := by
    rw [Nat.and_assoc, Nat.and_self]
  have hNbit : ∀ i, (valA &&& (maskA &&& jsNot32 (2 ^ k))).testBit i
      = (valA.testBit i && (maskA.testBit i && !(decide (i = k)))) := by
    intro i
    rw [Nat.testBit_and, newMask_testBit hm32 hk32]
  rw [land_eq_iff hvN, land_eq_iff hA, land_eq_iff hB]
  constructor
  · intro h
    by_cases hak : a.testBit k = valA.testBit k
    · left
      intro i hm
      by_cases hik : i = k
      · rw [hik, hak]
      · have hn := h i (by rw [newMask_testBit hm32 hk32]; simp [hm, hik])
        rw [hNbit i] at hn
        rw [hn]
        simp [hm, hik]
    · right
      intro i hm
      by_cases hik : i = k
      · rw [hik, hBbits k]
        cases hvk : valA.testBit k <;> cases hak2 : a.testBit k <;>
          rw [hvk, hak2] at hak <;> simp at hak ⊢
      · have hn := h i (by rw [newMask_testBit hm32 hk32]; simp [hm, hik])
        rw [hNbit i] at hn
        rw [hn, hBbits i]
        simp [hm, hik]
  · intro h i hn
    rw [newMask_testBit hm32 hk32] at hn
    have hm : maskA.testBit i = true := by
      cases hma : maskA.testBit i
      · rw [hma] at hn; simp at hn
      · rfl
    have hik : ¬(i = k) := by
      intro hik
      rw [hm, hik] at hn
      simp at hn
    rw [hNbit i]
    rcases h with h | h
    · rw [h i hm]
      simp [hm, hik]
    · rw [h i hm, hBbits i]
      simp [hm, hik]

-- ── Invariants of the merging loop ──────────────────────────────

/-- Invariant of every implicant the algorithm builds: the value sits
inside the mask, the mask is within the variable width, the whole cube lies
in `M`, and the recorded minterm set is exactly the cube. -/
def ImplInv (M : List Nat) (n : Nat) (t : Implicant) : Prop :=
  t.mask < 2 ^ n ∧ t.value &&& t.mask = t.value
  ∧ (∀ a, a < 2 ^ n → a &&& t.mask = t.value → a ∈ M)
  ∧ (∀ m, m ∈ t.minterms ↔ (m < 2 ^ n ∧ m &&& t.mask = t.value))

theorem mem_setInsert {s : List Nat} {x y : Nat} :
    y ∈ setInsert s x ↔ (y ∈ s ∨ y = x) := by
  unfold setInsert
  by_cases h : x ∈ s
  · simp [h]
    intro hy
    exact hy ▸ h
  · simp [h]

theorem mem_setUnion {a b : List Nat} {y : Nat} :
    y ∈ setUnion a b ↔ (y ∈ a ∨ y ∈ b) := by
  unfold setUnion
  induction b generalizing a with
  | nil => simp
  | cons x xs ih =>
    rw [List.foldl_cons, ih, mem_setInsert]
    simp [or_assoc]

/-- Generic invariance of a left fold. -/
theorem foldl_inv {α σ : Type} {P : σ → Prop} {f : σ → α → σ} {l : List α} {s : σ}
    (h0 : P s) (hstep : ∀ x ∈ l, ∀ t, P t → P (f t x)) : P (l.foldl f s) := by
  induction l generalizing s with
  | nil => exact h0
  | cons x xs ih =>
    exact ih (hstep x (by simp) s h0) (fun z hz t ht => hstep z (by simp [hz]) t ht)

/-- Either a `getD` read hits the list or it returns the default. -/
theorem getD_mem_or (l : List Implicant) (i : Nat) :
    l.getD i noImpl ∈ l ∨ l.getD i noImpl = noImpl := by
  by_cases h : i < l.length
  · left
    rw [List.getD_eq_getElem l noImpl h]
    exact List.getElem_mem h
  · right
    exact List.getD_eq_default l noImpl (by omega)

theorem land_pow_eq_zero {k m : Nat} (h : m.testBit k = false) : 2 ^ k &&& m = 0 := by
  apply Nat.eq_of_testBit_eq
  intro i
  simp only [Nat.testBit_and, Nat.testBit_two_pow, Nat.zero_testBit]
  by_cases hik : k = i
  · rw [← hik, h]
    simp
  · simp [hik]

/-- The per-pair state invariant of one merging round. -/
def StInv (M : List Nat) (n : Nat) (implicants : List Implicant) (st : RoundSt) : Prop :=
  (∀ t ∈ st.out, ImplInv M n t)
  ∧ (∀ key ∈ st.seen, ∃ t ∈ st.out, t.mask = key.1 ∧ t.value = key.2)
  ∧ (∀ i ∈ st.used, ∃ t ∈ st.out, ∀ a, a &&& (implicants.getD i noImpl).mask
      = (implicants.getD i noImpl).value → a &&& t.mask = t.value)

theorem pairStep_inv {M : List Nat} {n : Nat} (hn : n ≤ 30)
    {implicants : List Implicant} (hI : ∀ t ∈ implicants, ImplInv M n t)
    {st : RoundSt} (h : StInv M n implicants st) (ij : Nat × Nat) :
    StInv M n implicants (pairStep implicants st ij) := by
  obtain ⟨hout, hseen, hused⟩ := h
  simp only [pairStep]
  by_cases h1 : (implicants.getD ij.1 noImpl).mask ≠ (implicants.getD ij.2 noImpl).mask
  · simp only [if_pos h1]
    exact ⟨hout, hseen, hused⟩
  simp only [if_neg h1]
  rw [not_not] at h1
  set a := implicants.getD ij.1 noImpl with ha
  set b := implicants.getD ij.2 noImpl with hb
  by_cases h2 : a.value ^^^ b.value = 0 ∨ (a.value ^^^ b.value) &&& ((a.value ^^^ b.value) - 1) ≠ 0
  · rw [if_pos h2]
    exact ⟨hout, hseen, hused⟩
  rw [if_neg h2]
  push_neg at h2
  obtain ⟨hd0, hdp⟩ := h2
  by_cases h3 : (a.value ^^^ b.value) &&& a.mask = 0
  · simp only [if_pos h3]
    exact ⟨hout, hseen, hused⟩
  simp only [if_neg h3]
  -- the merge fires: both reads must be real implicants
  obtain ⟨k, hk⟩ := pow2_of_land_pred _ hd0 hdp
  have hamem : a ∈ implicants := by
    rcases getD_mem_or implicants ij.1 with h | h
    · rw [ha]
      exact h
    · exfalso
      apply h3
      have hm0 : a.mask = 0 := by
        rw [ha, h]
        rfl
      rw [hm0, Nat.and_zero]
  have hbmem : b ∈ implicants := by
    rcases getD_mem_or implicants ij.2 with h | h
    · rw [hb]
      exact h
    · exfalso
      apply h3
      have hm0 : a.mask = 0 := by
        rw [h1, hb, h]
        rfl
      rw [hm0, Nat.and_zero]
  obtain ⟨haM, haV, haC, haS⟩ := hI a hamem
  obtain ⟨hbM, hbV, hbC, hbS⟩ := hI b hbmem
  have hmk : a.mask.testBit k = true := by
    cases hmt : a.mask.testBit k
    · exfalso
      rw [hk] at h3
      exact h3 (land_pow_eq_zero hmt)
    · rfl
  have hkn : k < n := by
    have h2k := Nat.testBit_implies_ge hmk
    have : 2 ^ k < 2 ^ n := lt_of_le_of_lt h2k haM
    exact (Nat.pow_lt_pow_iff_right (by omega)).mp this
  have hk32 : k < 32 := by omega
  have hm32 : a.mask < 2 ^ 32 :=
    lt_of_lt_of_le haM (Nat.pow_le_pow_right (by omega) (by omega))
  have hbV' : b.value &&& a.mask = b.value := by
    rw [h1]
    exact hbV
  have hmerge := fun x => cube_merge (a := x) haV hbV' (hk ▸ rfl) hmk hm32 hk32
  rw [← hk] at hmerge
  have hNV : (a.value &&& (a.mask &&& jsNot32 (a.value ^^^ b.value)))
      &&& (a.mask &&& jsNot32 (a.value ^^^ b.value))
      = a.value &&& (a.mask &&& jsNot32 (a.value ^^^ b.value)) := by
    rw [Nat.and_assoc, Nat.and_self]
  have hNM : a.mask &&& jsNot32 (a.value ^^^ b.value) < 2 ^ n :=
    lt_of_le_of_lt Nat.and_le_left haM
  have hNinv : ImplInv M n ⟨a.mask &&& jsNot32 (a.value ^^^ b.value),
      a.value &&& (a.mask &&& jsNot32 (a.value ^^^ b.value)),
      setUnion a.minterms b.minterms⟩ := by
    refine ⟨hNM, hNV, ?_, ?_⟩
    · intro x hx hcx
      rcases (hmerge x).mp hcx with h | h
      · exact haC x hx h
      · rw [h1] at h
        exact hbC x hx h
    · intro m
      rw [mem_setUnion, haS m, hbS m, ← h1]
      constructor
      · rintro (⟨hm1, hm2⟩ | ⟨hm1, hm2⟩)
        · exact ⟨hm1, (hmerge m).mpr (Or.inl hm2)⟩
        · exact ⟨hm1, (hmerge m).mpr (Or.inr hm2)⟩
      · rintro ⟨hm1, hm2⟩
        rcases (hmerge m).mp hm2 with h | h
        · exact Or.inl ⟨hm1, h⟩
        · exact Or.inr ⟨hm1, h⟩
  by_cases h4 : (a.mask &&& jsNot32 (a.value ^^^ b.value),
      a.value &&& (a.mask &&& jsNot32 (a.value ^^^ b.value))) ∈ st.seen
  · simp only [if_pos h4]
    obtain ⟨t, htout, htm, htv⟩ := hseen _ h4
    refine ⟨hout, hseen, ?_⟩
    intro i hi
    rw [mem_setInsert, mem_setInsert] at hi
    rcases hi with (hi | hi) | hi
    · exact hused i hi
    · refine ⟨t, htout, ?_⟩
      intro x hx
      rw [hi, ← ha] at hx
      rw [htm, htv]
      exact (hmerge x).mpr (Or.inl hx)
    · refine ⟨t, htout, ?_⟩
      intro x hx
      rw [hi, ← hb] at hx
      rw [htm, htv]
      rw [← h1] at hx
      exact (hmerge x).mpr (Or.inr hx)
  · simp only [if_neg h4]
    refine ⟨?_, ?_, ?_⟩
    · intro t ht
      simp only [List.mem_append, List.mem_singleton] at ht
      rcases ht with ht | ht
      · exact hout t ht
      · rw [ht]
        exact hNinv
    · intro key hkey
      simp only [List.mem_append, List.mem_singleton] at hkey
      rcases hkey with hkey | hkey
      · obtain ⟨t, htout, htp⟩ := hseen key hkey
        exact ⟨t, by simp [htout], htp⟩
      · refine ⟨⟨a.mask &&& jsNot32 (a.value ^^^ b.value),
          a.value &&& (a.mask &&& jsNot32 (a.value ^^^ b.value)),
          setUnion a.minterms b.minterms⟩, by simp, by rw [hkey]; exact ⟨rfl, rfl⟩⟩
    · intro i hi
      rw [mem_setInsert, mem_setInsert] at hi
      rcases hi with (hi | hi) | hi
      · obtain ⟨t, htout, htp⟩ := hused i hi
        exact ⟨t, by simp [htout], htp⟩
      · refine ⟨⟨a.mask &&& jsNot32 (a.value ^^^ b.value),
          a.value &&& (a.mask &&& jsNot32 (a.value ^^^ b.value)),
          setUnion a.minterms b.minterms⟩, by simp, ?_⟩
        intro x hx
        rw [hi, ← ha] at hx
        exact (hmerge x).mpr (Or.inl hx)
      · refine ⟨⟨a.mask &&& jsNot32 (a.value ^^^ b.value),
          a.value &&& (a.mask &&& jsNot32 (a.value ^^^ b.value)),
          setUnion a.minterms b.minterms⟩, by simp, ?_⟩
        intro x hx
        rw [hi, ← hb] at hx
        rw [← h1] at hx
        exact (hmerge x).mpr (Or.inr hx)

theorem roundStep_inv {M : List Nat} {n : Nat} (hn : n ≤ 30)
    {implicants : List Implicant} (hI : ∀ t ∈ implicants, ImplInv M n t) :
    StInv M n implicants (roundStep implicants) := by
  unfold roundStep
  refine foldl_inv ⟨?_, ?_, ?_⟩ (fun ij _ st h => pairStep_inv hn hI h ij) <;>
    intro x hx <;> simp at hx

theorem mem_unusedOf {implicants : List Implicant} {used : List Nat} {u : Implicant}
    (h : u ∈ unusedOf implicants used) : u ∈ implicants := by
  unfold unusedOf at h
  simp only [List.mem_map, List.mem_filter, List.mem_range] at h
  obtain ⟨i, ⟨hilen, _⟩, hgd⟩ := h
  rw [← hgd, List.getD_eq_getElem _ _ (by simpa using hilen)]
  exact List.getElem_mem _

theorem qmLoop_inv {M : List Nat} {n : Nat} (hn : n ≤ 30) (fuel : Nat) :
    ∀ primes implicants : List Implicant,
      (∀ t ∈ primes, ImplInv M n t) → (∀ t ∈ implicants, ImplInv M n t) →
      ∀ t ∈ qmLoop fuel primes implicants, ImplInv M n t := by
  induction fuel with
  | zero =>
    intro primes implicants hp hi t ht
    unfold qmLoop at ht
    rcases List.mem_append.mp ht with h | h
    · exact hp t h
    · exact hi t h
  | succ fuel ih =>
    intro primes implicants hp hi t ht
    unfold qmLoop at ht
    cases implicants with
    | nil => exact hp t ht
    | cons x xs =>
      have hrs := roundStep_inv hn hi
      refine ih _ _ ?_ hrs.1 t ht
      intro u hu
      rcases List.mem_append.mp hu with h | h
      · exact hp u h
      · exact hi u (mem_unusedOf h)

theorem qmLoop_cover {M : List Nat} {n : Nat} (hn : n ≤ 30) (fuel : Nat) :
    ∀ primes implicants : List Implicant,
      (∀ t ∈ implicants, ImplInv M n t) →
      ∀ m, (∃ t, t ∈ primes ++ implicants ∧ m &&& t.mask = t.value) →
      ∃ t, t ∈ qmLoop fuel primes implicants ∧ m &&& t.mask = t.value := by
  induction fuel with
  | zero =>
    intro primes implicants _ m hm
    exact hm
  | succ fuel ih =>
    intro primes implicants hi m hm
    unfold qmLoop
    cases implicants with
    | nil =>
      obtain ⟨t, ht, htm⟩ := hm
      rw [List.append_nil] at ht
      exact ⟨t, ht, htm⟩
    | cons x xs =>
      have hrs := roundStep_inv hn hi
      obtain ⟨t, ht, htm⟩ := hm
      rcases List.mem_append.mp ht with h | h
      · exact ih _ _ hrs.1 m ⟨t, List.mem_append.mpr (Or.inl (List.mem_append.mpr (Or.inl h))), htm⟩
      · obtain ⟨i, hilen, hgd⟩ := List.mem_iff_getElem.mp h
        have hgd' : (x :: xs).getD i noImpl = t := by
          rw [List.getD_eq_getElem _ _ hilen, hgd]
        by_cases hiu : i ∈ (roundStep (x :: xs)).used
        · obtain ⟨t', ht', htp⟩ := hrs.2.2 i hiu
          refine ih _ _ hrs.1 m ⟨t', List.mem_append.mpr (Or.inr ht'), ?_⟩
          apply htp
          rw [hgd']
          exact htm
        · refine ih _ _ hrs.1 m ⟨t, List.mem_append.mpr (Or.inl (List.mem_append.mpr (Or.inr ?_))), htm⟩
          unfold unusedOf
          simp only [List.mem_map, List.mem_filter, List.mem_range]
          exact ⟨i, ⟨by simpa using hilen, by simpa using hiu⟩, hgd'⟩

theorem findPrime_init_inv {M : List Nat} {n : Nat} (hM : ∀ m ∈ M, m < 2 ^ n) :
    ∀ t ∈ M.map (fun m => (⟨(1 <<< n) - 1, m, [m]⟩ : Implicant)), ImplInv M n t := by
  intro t ht
  simp only [List.mem_map] at ht
  obtain ⟨m, hmM, rfl⟩ := ht
  have hsh : (1 <<< n : Nat) = 2 ^ n := by simp [Nat.shiftLeft_eq]
  have hmn := hM m hmM
  have hp : 0 < 2 ^ n := Nat.pos_pow_of_pos n (by omega)
  refine ⟨?_, ?_, ?_, ?_⟩
  · rw [hsh]
    show 2 ^ n - 1 < 2 ^ n
    omega
  · simp only [hsh, Nat.and_pow_two_sub_one_eq_mod]
    exact Nat.mod_eq_of_lt hmn
  · intro a ha hc
    simp only [hsh, Nat.and_pow_two_sub_one_eq_mod] at hc
    rw [Nat.mod_eq_of_lt ha] at hc
    rw [hc]
    exact hmM
  · intro x
    simp only [hsh, Nat.and_pow_two_sub_one_eq_mod, List.mem_singleton]
    constructor
    · rintro rfl
      exact ⟨hmn, Nat.mod_eq_of_lt hmn⟩
    · rintro ⟨hx, hc⟩
      rw [Nat.mod_eq_of_lt hx] at hc
      exact hc

/-- Every prime implicant is sound and minterm-exact. -/
theorem findPrime_inv {M : List Nat} {n : Nat} (hn : n ≤ 30)
    (hM : ∀ m ∈ M, m < 2 ^ n) :
    ∀ t ∈ findPrimeImplicants M n, ImplInv M n t := by
  unfold findPrimeImplicants
  exact qmLoop_inv hn _ _ _ (by intro t ht; simp at ht) (findPrime_init_inv hM)

/-- Every minterm stays covered by some prime implicant. -/
theorem findPrime_cover {M : List Nat} {n : Nat} (hn : n ≤ 30)
    (hM : ∀ m ∈ M, m < 2 ^ n) :
    ∀ m ∈ M, ∃ t, t ∈ findPrimeImplicants M n ∧ m &&& t.mask = t.value := by
  intro m hmM
  unfold findPrimeImplicants
  refine qmLoop_cover hn _ _ _ (findPrime_init_inv hM) m ?_
  refine ⟨⟨(1 <<< n) - 1, m, [m]⟩, ?_, ?_⟩
  · simp only [List.nil_append, List.mem_map]
    exact ⟨m, hmM, rfl⟩
  · have hsh : (1 <<< n : Nat) = 2 ^ n := by simp [Nat.shiftLeft_eq]
    simp only [hsh, Nat.and_pow_two_sub_one_eq_mod]
    exact Nat.mod_eq_of_lt (hM m hmM)

-- ── Invariants of the cover phase ───────────────────────────────

/-- State invariant of both cover phases: selected indices are in range,
the uncovered set sits inside `M` and meets no selected implicant, and
every already-covered minterm has a selected witness. -/
def CovInv (M : List Nat) (primes : List Implicant) (st : List Nat × List Nat) : Prop :=
  (∀ i ∈ st.1, i < primes.length)
  ∧ (∀ m ∈ st.2, m ∈ M)
  ∧ (∀ m ∈ st.2, ∀ i ∈ st.1, m ∉ (primes.getD i noImpl).minterms)
  ∧ (∀ m ∈ M, m ∉ st.2 → ∃ i ∈ st.1, m ∈ (primes.getD i noImpl).minterms)

theorem essentialStep_inv {M : List Nat} {primes : List Implicant}
    {st : List Nat × List Nat} (h : CovInv M primes st) (minterm : Nat) :
    CovInv M primes (essentialStep primes st minterm) := by
  obtain ⟨hs, hu, hd, hc⟩ := h
  unfold essentialStep
  rcases hcov : (List.range primes.length).filter
      (fun i => minterm ∈ (primes.getD i noImpl).minterms) with _ | ⟨i, rest⟩
  · exact ⟨hs, hu, hd, hc⟩
  rcases rest with _ | ⟨j, rest2⟩
  · have hiin : i ∈ (List.range primes.length).filter
        (fun i => minterm ∈ (primes.getD i noImpl).minterms) := by
      rw [hcov]
      simp
    simp only [List.mem_filter, List.mem_range, decide_eq_true_eq] at hiin
    by_cases hisel : i ∈ st.1
    · simp only [if_pos hisel]
      exact ⟨hs, hu, hd, hc⟩
    · simp only [if_neg hisel]
      refine ⟨?_, ?_, ?_, ?_⟩
      · intro x hx
        rcases List.mem_append.mp hx with h | h
        · exact hs x h
        · simp only [List.mem_singleton] at h
          rw [h]
          exact hiin.1
      · intro m hm
        exact hu m (List.mem_of_mem_filter hm)
      · intro m hm x hx
        have hm2 := List.mem_filter.mp hm
        rcases List.mem_append.mp hx with h | h
        · exact hd m hm2.1 x h
        · simp only [List.mem_singleton] at h
          rw [h]
          simpa using hm2.2
      · intro m hmM hm
        by_cases hold : m ∈ st.2
        · have hmem : m ∈ (primes.getD i noImpl).minterms := by
            by_contra hcon
            exact hm (List.mem_filter.mpr ⟨hold, by simpa using hcon⟩)
          exact ⟨i, by simp, hmem⟩
        · obtain ⟨x, hx1, hx2⟩ := hc m hmM hold
          exact ⟨x, List.mem_append.mpr (Or.inl hx1), hx2⟩
  · exact ⟨hs, hu, hd, hc⟩

/-- One entry of the best-coverage scan. -/
def bestStep (primes : List Implicant) (selected uncovered : List Nat)
    (st : Option Nat × Nat) (i : Nat) : Option Nat × Nat :=
  if i ∈ selected then st
  else
    let coverage := ((primes.getD i noImpl).minterms.filter
      (fun m => m ∈ uncovered)).length
    if coverage > st.2 then (some i, coverage) else st

theorem bestOf_eq (primes : List Implicant) (selected uncovered : List Nat) :
    bestOf primes selected uncovered
      = (List.range primes.length).foldl (bestStep primes selected uncovered)
          (none, 0) := rfl

theorem bestFold_stays_some (primes : List Implicant) (selected uncovered : List Nat) :
    ∀ (l : List Nat) (st : Option Nat × Nat), st.1 ≠ none →
      (l.foldl (bestStep primes selected uncovered) st).1 ≠ none := by
  intro l
  induction l with
  | nil => exact fun st h => h
  | cons x xs ih =>
    intro st h
    rw [List.foldl_cons]
    apply ih
    simp only [bestStep]
    by_cases h1 : x ∈ selected
    · rw [if_pos h1]
      exact h
    · rw [if_neg h1]
      by_cases h2 : ((primes.getD x noImpl).minterms.filter
          (fun m => m ∈ uncovered)).length > st.2
      · rw [if_pos h2]
        simp
      · rw [if_neg h2]
        exact h

/-- The fold invariant of the best-coverage scan. -/
def BestInv (primes : List Implicant) (selected uncovered : List Nat)
    (st : Option Nat × Nat) : Prop :=
  (st.1 = none → st.2 = 0)
  ∧ (∀ j, st.1 = some j → j < primes.length ∧ j ∉ selected
      ∧ st.2 = ((primes.getD j noImpl).minterms.filter (fun m => m ∈ uncovered)).length
      ∧ 0 < st.2)

theorem bestFold_spec (primes : List Implicant) (selected uncovered : List Nat) :
    ∀ (l : List Nat), (∀ x ∈ l, x < primes.length) →
      ∀ st : Option Nat × Nat, BestInv primes selected uncovered st →
      BestInv primes selected uncovered
          (l.foldl (bestStep primes selected uncovered) st)
      ∧ ((l.foldl (bestStep primes selected uncovered) st).1 = none →
          ∀ i ∈ l, i ∉ selected →
            ((primes.getD i noImpl).minterms.filter (fun m => m ∈ uncovered)).length = 0) := by
  intro l
  induction l with
  | nil =>
    intro _ st h
    refine ⟨h, ?_⟩
    intro _ i hi
    cases hi
  | cons x xs ih =>
    intro hl st h
    rw [List.foldl_cons]
    have hstep : BestInv primes selected uncovered
        (bestStep primes selected uncovered st x) := by
      simp only [bestStep]
      by_cases h1 : x ∈ selected
      · rw [if_pos h1]
        exact h
      · rw [if_neg h1]
        by_cases h2 : ((primes.getD x noImpl).minterms.filter
            (fun m => m ∈ uncovered)).length > st.2
        · rw [if_pos h2]
          refine ⟨(fun hc => nomatch hc), ?_⟩
          intro j hj
          have hj2 : x = j := by
            simpa using hj
          cases hj2
          refine ⟨hl x (by simp), h1, rfl, by omega⟩
        · rw [if_neg h2]
          exact h
    obtain ⟨g1, g2⟩ := ih (fun y hy => hl y (by simp [hy])) _ hstep
    refine ⟨g1, ?_⟩
    intro hnone i hi hisel
    rcases List.mem_cons.mp hi with rfl | hi
    · -- the head: if it had positive coverage the result could not be none
      by_contra hpos
      have hx : (bestStep primes selected uncovered st i).1 ≠ none := by
        simp only [bestStep]
        rw [if_neg hisel]
        by_cases h2 : ((primes.getD i noImpl).minterms.filter
            (fun m => m ∈ uncovered)).length > st.2
        · rw [if_pos h2]
          simp
        · rcases hst : st.1 with _ | j
          · have := h.1 hst
            omega
          · rw [if_neg h2, hst]
            simp
      exact absurd hnone (bestFold_stays_some primes selected uncovered xs _ hx)
    · exact g2 hnone i hi hisel

theorem bestOf_spec (primes : List Implicant) (selected uncovered : List Nat) :
    ((bestOf primes selected uncovered).1 = none →
      ∀ i, i < primes.length → i ∉ selected →
        ((primes.getD i noImpl).minterms.filter (fun m => m ∈ uncovered)).length = 0)
    ∧ (∀ j, (bestOf primes selected uncovered).1 = some j →
        j < primes.length ∧ j ∉ selected
        ∧ 0 < ((primes.getD j noImpl).minterms.filter (fun m => m ∈ uncovered)).length) := by
  have h := bestFold_spec primes selected uncovered (List.range primes.length)
    (by intro x hx; simpa using hx) (none, 0) ⟨fun _ => rfl, fun j hj => nomatch hj⟩
  rw [bestOf_eq]
  refine ⟨?_, ?_⟩
  · intro hnone i hilen hisel
    exact h.2 hnone i (by simpa using hilen) hisel
  · intro j hj
    obtain ⟨h1, h2, h3, h4⟩ := h.1.2 j hj
    exact ⟨h1, h2, h3 ▸ h4⟩

theorem greedy_covers {M : List Nat} {primes : List Implicant}
    (hCov : ∀ m ∈ M, ∃ i, i < primes.length ∧ m ∈ (primes.getD i noImpl).minterms) :
    ∀ (fuel : Nat) (selected uncovered : List Nat),
      CovInv M primes (selected, uncovered) → uncovered.length < fuel →
      (∀ i ∈ greedyLoop primes fuel selected uncovered, i < primes.length)
      ∧ (∀ m ∈ M, ∃ i ∈ greedyLoop primes fuel selected uncovered,
          m ∈ (primes.getD i noImpl).minterms) := by
  intro fuel
  induction fuel with
  | zero =>
    intro _ _ _ h
    omega
  | succ fuel ih =>
    intro selected uncovered hinv hlen
    obtain ⟨hs, hu, hd, hc⟩ := hinv
    unfold greedyLoop
    cases uncovered with
    | nil =>
      refine ⟨hs, ?_⟩
      intro m hm
      exact hc m hm (by simp)
    | cons u us =>
      have hbspec := bestOf_spec primes selected (u :: us)
      rcases hbest : (bestOf primes selected (u :: us)).1 with _ | i
      · exfalso
        obtain ⟨iu, hiu1, hiu2⟩ := hCov u (hu u (by simp))
        have hiu3 : iu ∉ selected := by
          intro hcon
          exact hd u (by simp) iu hcon hiu2
        have hzero := hbspec.1 hbest iu hiu1 hiu3
        have hmem : u ∈ (primes.getD iu noImpl).minterms.filter
            (fun m => m ∈ (u :: us)) := List.mem_filter.mpr ⟨hiu2, by simp⟩
        have hpos : 0 < ((primes.getD iu noImpl).minterms.filter
            (fun m => m ∈ (u :: us))).length :=
          List.length_pos.mpr (List.ne_nil_of_mem hmem)
        omega
      · obtain ⟨hilen, hisel, hipos⟩ := hbspec.2 i hbest
        have hnew : CovInv M primes (selected ++ [i],
            (u :: us).filter (fun m => m ∉ (primes.getD i noImpl).minterms)) := by
          refine ⟨?_, ?_, ?_, ?_⟩
          · intro x hx
            rcases List.mem_append.mp hx with h | h
            · exact hs x h
            · simp only [List.mem_singleton] at h
              rw [h]
              exact hilen
          · intro m hm
            have hm' : m ∈ (u :: us).filter
                (fun m => m ∉ (primes.getD i noImpl).minterms) := hm
            exact hu m (List.mem_of_mem_filter hm')
          · intro m hm x hx
            have hm' : m ∈ (u :: us).filter
                (fun m => m ∉ (primes.getD i noImpl).minterms) := hm
            have hm2 := List.mem_filter.mp hm'
            rcases List.mem_append.mp hx with h | h
            · exact hd m hm2.1 x h
            · simp only [List.mem_singleton] at h
              rw [h]
              simpa using hm2.2
          · intro m hmM hm
            by_cases hold : m ∈ u :: us
            · have hmem : m ∈ (primes.getD i noImpl).minterms := by
                by_contra hcon
                exact hm (List.mem_filter.mpr ⟨hold, by simpa using hcon⟩)
              exact ⟨i, by simp, hmem⟩
            · obtain ⟨x, hx1, hx2⟩ := hc m hmM hold
              exact ⟨x, List.mem_append.mpr (Or.inl hx1), hx2⟩
        have hshrink : ((u :: us).filter
            (fun m => m ∉ (primes.getD i noImpl).minterms)).length < (u :: us).length := by
          obtain ⟨x, hx1⟩ := List.exists_mem_of_length_pos hipos
          have hx3 := List.mem_filter.mp hx1
          apply List.length_filter_lt_length_iff_exists.mpr
          exact ⟨x, by simpa using hx3.2, by simpa using hx3.1⟩
        exact ih _ _ hnew (by omega)

/-- The cover keeps only sound implicants and covers every minterm. -/
theorem findMinimalCover_props {M : List Nat} {n : Nat} {primes : List Implicant}
    (hP : ∀ t ∈ primes, ImplInv M n t)
    (hCov : ∀ m ∈ M, ∃ i, i < primes.length ∧ m ∈ (primes.getD i noImpl).minterms) :
    (∀ t ∈ findMinimalCover primes M, ImplInv M n t)
    ∧ (∀ m ∈ M, ∃ t ∈ findMinimalCover primes M, m ∈ t.minterms) := by
  unfold findMinimalCover
  have hinit : CovInv M primes ([], M.foldl setInsert []) := by
    refine ⟨by simp, ?_, by simp, ?_⟩
    · intro m hm
      rcases mem_setUnion.mp hm with h | h
      · cases h
      · exact h
    · intro m hmM hm
      exact absurd (mem_setUnion.mpr (Or.inr hmM)) hm
  have hst : CovInv M primes (M.foldl (essentialStep primes) ([], M.foldl setInsert [])) :=
    foldl_inv hinit (fun mt _ st h => essentialStep_inv h mt)
  have hg := greedy_covers hCov
    ((M.foldl (essentialStep primes) ([], M.foldl setInsert [])).2.length + 1)
    (M.foldl (essentialStep primes) ([], M.foldl setInsert [])).1
    (M.foldl (essentialStep primes) ([], M.foldl setInsert [])).2
    hst (by omega)
  refine ⟨?_, ?_⟩
  · intro t ht
    simp only [List.mem_map] at ht
    obtain ⟨i, hi, rfl⟩ := ht
    have hilen := hg.1 i hi
    refine hP _ ?_
    rw [List.getD_eq_getElem _ _ hilen]
    exact List.getElem_mem _
  · intro m hmM
    obtain ⟨i, hi1, hi2⟩ := hg.2 m hmM
    exact ⟨primes.getD i noImpl, List.mem_map.mpr ⟨i, hi1, rfl⟩, hi2⟩

-- ── Reading the formatted expression back ───────────────────────

theorem splitOnC_ne_nil (c : Nat) (s : JStr) : splitOnC c s ≠ [] := by
  cases s with
  | nil => simp [splitOnC]
  | cons x xs =>
    unfold splitOnC
    rcases h : splitOnC c xs with _ | ⟨hh, tt⟩
    · by_cases hx : x = c <;> simp [hx]
    · by_cases hx : x = c <;> simp [hx]

theorem splitOnC_no {c : Nat} {s : JStr} (h : c ∉ s) : splitOnC c s = [s] := by
  induction s with
  | nil => rfl
  | cons x xs ih =>
    have hx : ¬x = c := by
      intro hx
      exact h (by simp [hx])
    have h2 := ih (fun hc => h (by simp [hc]))
    unfold splitOnC
    rw [h2]
    simp [hx]

theorem splitOnC_sep {c : Nat} {head : JStr} (h : c ∉ head) (rest : JStr) :
    splitOnC c (head ++ c :: rest) = head :: splitOnC c rest := by
  induction head with
  | nil =>
    show splitOnC c (c :: rest) = [] :: splitOnC c rest
    conv_lhs => unfold splitOnC
    rcases hr : splitOnC c rest with _ | ⟨hh, tt⟩
    · exact absurd hr (splitOnC_ne_nil c rest)
    · simp
  | cons x xs ih =>
    have hx : ¬x = c := by
      intro hx
      exact h (by simp [hx])
    have h2 := ih (fun hc => h (by simp [hc]))
    rw [List.cons_append]
    conv_lhs => unfold splitOnC
    rw [h2]
    simp [hx]

theorem splitOnC_cons_ne {c x : Nat} (hx : ¬x = c) (s : JStr) :
    ∃ hh tt, splitOnC c s = hh :: tt ∧ splitOnC c (x :: s) = (x :: hh) :: tt := by
  rcases h : splitOnC c s with _ | ⟨hh, tt⟩
  · exact absurd h (splitOnC_ne_nil c s)
  · refine ⟨hh, tt, rfl, ?_⟩
    unfold splitOnC
    rw [h]
    simp [hx]

theorem trimSp_space_left (s : JStr) : trimSp (32 :: s) = trimSp s := by
  unfold trimSp
  simp

theorem trimSp_space_right (s : JStr) : trimSp (s ++ [32]) = trimSp s := by
  unfold trimSp
  rw [List.dropWhile_append]
  by_cases h : (s.dropWhile (fun ch => ch = 32)).isEmpty
  · simp [h]
    intro x hx
    rw [List.isEmpty_iff] at h
    rw [h] at hx
    cases hx
  · simp only [h, if_neg]
    simp [List.reverse_append]

theorem trimSp_eq_self {s : JStr} (h1 : s.head? ≠ some 32) (h2 : s.getLast? ≠ some 32) :
    trimSp s = s := by
  unfold trimSp
  have hd : s.dropWhile (fun ch => ch = 32) = s := by
    cases s with
    | nil => rfl
    | cons x xs =>
      have hx : ¬(x = 32) := by
        intro h
        exact h1 (by simp [h])
      rw [List.dropWhile_cons_of_neg (by simpa using hx)]
  rw [hd]
  have hr : s.reverse.dropWhile (fun ch => ch = 32) = s.reverse := by
    cases hsr : s.reverse with
    | nil => rfl
    | cons y ys =>
      have hy : s.getLast? = some y := by
        rw [← List.head?_reverse, hsr]
        rfl
      have hyne : ¬(y = 32) := by
        intro h
        exact h2 (by rw [hy, h])
      rw [List.dropWhile_cons_of_neg (by simpa using hyne)]
  rw [hr, List.reverse_reverse]

theorem mem_joinSep {sep : List Nat} {c : Nat} :
    ∀ {parts : List JStr}, c ∈ joinSep sep parts → c ∈ sep ∨ ∃ p ∈ parts, c ∈ p := by
  intro parts
  induction parts with
  | nil =>
    intro h
    cases h
  | cons p ps ih =>
    intro h
    cases ps with
    | nil => exact Or.inr ⟨p, by simp, h⟩
    | cons q qs =>
      rw [show joinSep sep (p :: q :: qs) = p ++ sep ++ joinSep sep (q :: qs) from rfl] at h
      rcases List.mem_append.mp h with h2 | h2
      · rcases List.mem_append.mp h2 with h3 | h3
        · exact Or.inr ⟨p, by simp, h3⟩
        · exact Or.inl h3
      · rcases ih h2 with h3 | ⟨r, hr1, hr2⟩
        · exact Or.inl h3
        · exact Or.inr ⟨r, by simp [hr1], hr2⟩

theorem joinSep_head (sep : List Nat) (p : JStr) (ps : List JStr) (hp : p ≠ []) :
    (joinSep sep (p :: ps)).head? = p.head? := by
  cases ps with
  | nil => rfl
  | cons q qs =>
    rw [show joinSep sep (p :: q :: qs) = p ++ sep ++ joinSep sep (q :: qs) from rfl]
    rcases p with _ | ⟨a, as⟩
    · exact absurd rfl hp
    · simp

theorem joinSep_ne_nil (sep : List Nat) (p : JStr) (ps : List JStr) (hp : p ≠ []) :
    joinSep sep (p :: ps) ≠ [] := by
  intro h
  have := joinSep_head sep p ps hp
  rw [h] at this
  rcases p with _ | ⟨a, as⟩
  · exact absurd rfl hp
  · simp at this

theorem joinSep_getLast (sep : List Nat) :
    ∀ (ps : List JStr) (p : JStr), (∀ q ∈ p :: ps, q ≠ []) →
      (joinSep sep (p :: ps)).getLast? = ((p :: ps).getLast (by simp)).getLast? := by
  intro ps
  induction ps with
  | nil =>
    intro p _
    rfl
  | cons q qs ih =>
    intro p h
    rw [show joinSep sep (p :: q :: qs) = p ++ sep ++ joinSep sep (q :: qs) from rfl]
    rw [List.append_assoc, List.getLast?_append, List.getLast?_append]
    rw [ih q (fun r hr => h r (by simp [hr]))]
    have hlast : (q :: qs).getLast (by simp) ≠ [] := h _ (List.getLast_mem (by simp))
    rw [show (p :: q :: qs).getLast (by simp) = (q :: qs).getLast (by simp) from rfl]
    rw [List.getLast?_eq_getLast _ hlast]
    rfl

theorem evalProd_space_left (assign : JStr → Bool) (s : JStr) :
    evalProd assign (32 :: s) = evalProd assign s := by
  unfold evalProd
  rw [trimSp_space_left]

theorem evalProd_space_right (assign : JStr → Bool) (s : JStr) :
    evalProd assign (s ++ [32]) = evalProd assign s := by
  unfold evalProd
  rw [trimSp_space_right]

theorem splitJoin_any (c : Nat) (hc : ¬(32 : Nat) = c) (f : JStr → Bool)
    (hfl : ∀ s, f (32 :: s) = f s) (hfr : ∀ s, f (s ++ [32]) = f s) :
    ∀ (ps : List JStr) (p : JStr), c ∉ p → (∀ q ∈ ps, c ∉ q) →
      (splitOnC c (joinSep [32, c, 32] (p :: ps))).any f = (p :: ps).any f := by
  intro ps
  induction ps with
  | nil =>
    intro p hp _
    rw [show joinSep [32, c, 32] [p] = p from rfl, splitOnC_no hp]
  | cons q qs ih =>
    intro p hp hq
    rw [show joinSep [32, c, 32] (p :: q :: qs)
      = p ++ [32, c, 32] ++ joinSep [32, c, 32] (q :: qs) from rfl]
    have hres : p ++ [32, c, 32] ++ joinSep [32, c, 32] (q :: qs)
        = (p ++ [32]) ++ c :: (32 :: joinSep [32, c, 32] (q :: qs)) := by
      simp
    rw [hres, splitOnC_sep (by
      intro hmem
      rcases List.mem_append.mp hmem with h | h
      · exact hp h
      · simp at h
        exact hc h.symm)]
    obtain ⟨hh, tt, hsp, hsp2⟩ := splitOnC_cons_ne hc (joinSep [32, c, 32] (q :: qs))
    rw [hsp2]
    have ih2 := ih q (hq q (by simp)) (fun r hr => hq r (by simp [hr]))
    rw [hsp] at ih2
    simp only [List.any_cons] at ih2 ⊢
    rw [hfr p, hfl hh, ih2]

theorem splitJoin_all (c : Nat) (hc : ¬(32 : Nat) = c) (f : JStr → Bool)
    (hfl : ∀ s, f (32 :: s) = f s) (hfr : ∀ s, f (s ++ [32]) = f s) :
    ∀ (ps : List JStr) (p : JStr), c ∉ p → (∀ q ∈ ps, c ∉ q) →
      (splitOnC c (joinSep [32, c, 32] (p :: ps))).all f = (p :: ps).all f := by
  intro ps
  induction ps with
  | nil =>
    intro p hp _
    rw [show joinSep [32, c, 32] [p] = p from rfl, splitOnC_no hp]
  | cons q qs ih =>
    intro p hp hq
    rw [show joinSep [32, c, 32] (p :: q :: qs)
      = p ++ [32, c, 32] ++ joinSep [32, c, 32] (q :: qs) from rfl]
    have hres : p ++ [32, c, 32] ++ joinSep [32, c, 32] (q :: qs)
        = (p ++ [32]) ++ c :: (32 :: joinSep [32, c, 32] (q :: qs)) := by
      simp
    rw [hres, splitOnC_sep (by
      intro hmem
      rcases List.mem_append.mp hmem with h | h
      · exact hp h
      · simp at h
        exact hc h.symm)]
    obtain ⟨hh, tt, hsp, hsp2⟩ := splitOnC_cons_ne hc (joinSep [32, c, 32] (q :: qs))
    rw [hsp2]
    have ih2 := ih q (hq q (by simp)) (fun r hr => hq r (by simp [hr]))
    rw [hsp] at ih2
    simp only [List.all_cons] at ih2 ⊢
    rw [hfr p, hfl hh, ih2]

theorem indexOf?_getD {l : List JStr} (hnd : l.Nodup) :
    ∀ i, i < l.length → l.indexOf? (l.getD i []) = some i := by
  induction l with
  | nil =>
    intro i hi
    simp at hi
  | cons x xs ih =>
    intro i hi
    unfold List.indexOf?
    cases i with
    | zero =>
      rw [List.findIdx?_cons]
      simp
    | succ i =>
      have hx : x ∉ xs := (List.nodup_cons.mp hnd).1
      have hmem : (x :: xs).getD (i + 1) [] = xs.getD i [] := by
        simp [List.getD_cons_succ]
      rw [hmem, List.findIdx?_cons]
      have hne : ¬(x == xs.getD i []) = true := by
        simp only [beq_iff_eq]
        intro heq
        have hin : xs.getD i [] ∈ xs := by
          rw [List.getD_eq_getElem _ _ (by simpa using hi)]
          exact List.getElem_mem _
        rw [← heq] at hin
        exact hx hin
      rw [if_neg hne]
      have h2 := ih (List.nodup_cons.mp hnd).2 i (by simpa using hi)
      unfold List.indexOf? at h2
      rw [List.findIdx?_succ, h2]
      rfl

/-- The literal list of `productOf` (its local `literals`). -/
def litsOf (vars : List JStr) (impl : Implicant) : List JStr :=
  (List.range vars.length).filterMap (fun i =>
    let bit := 1 <<< (vars.length - 1 - i)
    if impl.mask &&& bit = 0 then none
    else some (if impl.value &&& bit ≠ 0 then vars.getD i []
      else jstr "~" ++ vars.getD i []))

theorem productOf_def (vars : List JStr) (impl : Implicant) :
    productOf vars impl = if (litsOf vars impl).length > 0
      then joinSep (jstr " & ") (litsOf vars impl) else jstr "True" := rfl

theorem lit_mem_cases {vars : List JStr} {impl : Implicant} {l : JStr}
    (h : l ∈ litsOf vars impl) :
    ∃ i, i < vars.length ∧ ¬impl.mask &&& (1 <<< (vars.length - 1 - i)) = 0
      ∧ ((¬impl.value &&& (1 <<< (vars.length - 1 - i)) = 0 ∧ l = vars.getD i [])
        ∨ (impl.value &&& (1 <<< (vars.length - 1 - i)) = 0
            ∧ l = jstr "~" ++ vars.getD i [])) := by
  unfold litsOf at h
  simp only [List.mem_filterMap, List.mem_range] at h
  obtain ⟨i, hi, hopt⟩ := h
  by_cases hm : impl.mask &&& (1 <<< (vars.length - 1 - i)) = 0
  · rw [if_pos hm] at hopt
    cases hopt
  · rw [if_neg hm] at hopt
    refine ⟨i, hi, hm, ?_⟩
    by_cases hv : impl.value &&& (1 <<< (vars.length - 1 - i)) ≠ 0
    · rw [if_pos hv] at hopt
      exact Or.inl ⟨hv, (Option.some_inj.mp hopt).symm⟩
    · rw [if_neg hv] at hopt
      exact Or.inr ⟨by omega, (Option.some_inj.mp hopt).symm⟩

theorem getD_mem_vars {vars : List JStr} {i : Nat} (hi : i < vars.length) :
    vars.getD i [] ∈ vars := by
  rw [List.getD_eq_getElem _ _ hi]
  exact List.getElem_mem _

theorem lit_char_free {vars : List JStr} {impl : Implicant}
    (hg : ∀ v ∈ vars, GoodName v) {l : JStr} (h : l ∈ litsOf vars impl)
    {c : Nat} (hc : c = 32 ∨ c = 38 ∨ c = 124 ∨ c = 40 ∨ c = 41) : c ∉ l := by
  obtain ⟨i, hi, _, hcase⟩ := lit_mem_cases h
  have hgood := hg _ (getD_mem_vars hi)
  obtain ⟨_, hchars, _, _⟩ := hgood
  rcases hcase with ⟨_, rfl⟩ | ⟨_, rfl⟩
  · intro hmem
    have := hchars c hmem
    omega
  · intro hmem
    rcases List.mem_append.mp hmem with h2 | h2
    · simp [jstr] at h2
      omega
    · have := hchars c h2
      omega

theorem lit_ne_nil {vars : List JStr} {impl : Implicant}
    (hg : ∀ v ∈ vars, GoodName v) {l : JStr} (h : l ∈ litsOf vars impl) : l ≠ [] := by
  obtain ⟨i, hi, _, hcase⟩ := lit_mem_cases h
  have hgood := hg _ (getD_mem_vars hi)
  rcases hcase with ⟨_, rfl⟩ | ⟨_, rfl⟩
  · exact hgood.1
  · simp [jstr]

theorem lit_head_ok {vars : List JStr} {impl : Implicant}
    (hg : ∀ v ∈ vars, GoodName v) {l : JStr} (h : l ∈ litsOf vars impl) :
    l.head? ≠ some 32 ∧ l.head? ≠ some 40 := by
  obtain ⟨i, hi, _, hcase⟩ := lit_mem_cases h
  have hgood := hg _ (getD_mem_vars hi)
  obtain ⟨hne, hchars, _, _⟩ := hgood
  rcases hcase with ⟨_, rfl⟩ | ⟨_, rfl⟩
  · rcases hv : vars.getD i [] with _ | ⟨c0, rest⟩
    · exact absurd hv hne
    · have := hchars c0 (by rw [hv]; simp)
      constructor <;> simp <;> omega
  · constructor <;> simp [jstr]

theorem lit_last_ok {vars : List JStr} {impl : Implicant}
    (hg : ∀ v ∈ vars, GoodName v) {l : JStr} (h : l ∈ litsOf vars impl) :
    l.getLast? ≠ some 32 := by
  obtain ⟨i, hi, _, hcase⟩ := lit_mem_cases h
  have hgood := hg _ (getD_mem_vars hi)
  obtain ⟨hne, hchars, _, _⟩ := hgood
  have hlast : ∀ w, (vars.getD i []).getLast? = some w → ¬w = 32 := by
    intro w hw
    have hwm : w ∈ vars.getD i [] := List.mem_of_mem_getLast? (by rw [hw]; simp)
    have := hchars w hwm
    omega
  rcases hcase with ⟨_, rfl⟩ | ⟨_, rfl⟩
  · intro hcon
    exact hlast 32 hcon rfl
  · intro hcon
    rw [List.getLast?_append] at hcon
    rcases hv : vars.getD i [] with _ | ⟨c0, rest⟩
    · exact absurd hv hne
    · rw [hv, List.getLast?_eq_getLast _ (by simp)] at hcon
      have hl32 : (c0 :: rest).getLast (by simp) = 32 := by
        simpa [Option.or] using hcon
      apply hlast 32
      · rw [hv, List.getLast?_eq_getLast _ (by simp)]
        simp [hl32]
      · rfl

theorem land_pow_eq_zero_iff (m k : Nat) : m &&& 2 ^ k = 0 ↔ m.testBit k = false := by
  constructor
  · intro h
    cases hb : m.testBit k
    · rfl
    · exfalso
      have h2 := congrArg (fun x => x.testBit k) h
      simp only [Nat.testBit_and, Nat.testBit_two_pow_self, Nat.zero_testBit,
        Bool.and_true, hb] at h2
      exact absurd h2 (by decide)
  · intro h
    apply Nat.eq_of_testBit_eq
    intro i
    simp only [Nat.testBit_and, Nat.testBit_two_pow, Nat.zero_testBit]
    by_cases hik : k = i
    · rw [← hik, h]
      simp
    · simp [hik]

theorem evalLit_space_left (assign : JStr → Bool) (s : JStr) :
    evalLit assign (32 :: s) = evalLit assign s := by
  unfold evalLit
  rw [trimSp_space_left]

theorem evalLit_space_right (assign : JStr → Bool) (s : JStr) :
    evalLit assign (s ++ [32]) = evalLit assign s := by
  unfold evalLit
  rw [trimSp_space_right]

theorem name_boundary {vars : List JStr} (hg : ∀ v ∈ vars, GoodName v)
    {i : Nat} (hi : i < vars.length) :
    (vars.getD i []).head? ≠ some 32 ∧ (vars.getD i []).getLast? ≠ some 32 := by
  have hgood := hg _ (getD_mem_vars hi)
  obtain ⟨hne, hchars, _, _⟩ := hgood
  constructor
  · intro hcon
    have h32 : (32 : Nat) ∈ vars.getD i [] := by
      rcases hv : vars.getD i [] with _ | ⟨c0, rest⟩
      · rw [hv] at hcon
        cases hcon
      · rw [hv] at hcon
        simp at hcon
        simp [hcon]
    have := hchars 32 h32
    omega
  · intro hcon
    have h32 : (32 : Nat) ∈ vars.getD i [] := List.mem_of_mem_getLast? (by rw [hcon]; simp)
    have := hchars 32 h32
    omega

theorem evalLit_var {vars : List JStr} (hnd : vars.Nodup)
    (hg : ∀ v ∈ vars, GoodName v) (a : Nat) {i : Nat} (hi : i < vars.length) :
    evalLit (assignOf vars a) (vars.getD i [])
      = a.testBit (vars.length - 1 - i) := by
  have hgood := hg _ (getD_mem_vars hi)
  obtain ⟨hne, hchars, hT, hF⟩ := hgood
  have hb := name_boundary hg hi
  unfold evalLit
  rw [trimSp_eq_self hb.1 hb.2, if_neg hT, if_neg hF]
  split
  · rename_i name heq
    have h126 : (126 : Nat) ∈ vars.getD i [] := by
      rw [heq]
      simp
    have := hchars 126 h126
    omega
  · unfold assignOf
    rw [indexOf?_getD hnd i hi]

theorem evalLit_nvar {vars : List JStr} (hnd : vars.Nodup)
    (hg : ∀ v ∈ vars, GoodName v) (a : Nat) {i : Nat} (hi : i < vars.length) :
    evalLit (assignOf vars a) (jstr "~" ++ vars.getD i [])
      = !a.testBit (vars.length - 1 - i) := by
  have hb := name_boundary hg hi
  have htr : trimSp (jstr "~" ++ vars.getD i []) = jstr "~" ++ vars.getD i [] := by
    apply trimSp_eq_self
    · rw [show (jstr "~" ++ vars.getD i [] : JStr) = 126 :: vars.getD i [] from rfl]
      simp
    · intro hcon
      rw [List.getLast?_append] at hcon
      rcases hl : (vars.getD i []).getLast? with _ | c
      · rw [hl, show ((jstr "~" : JStr)).getLast? = some 126 from rfl] at hcon
        simp [Option.or] at hcon
      · rw [hl] at hcon
        simp [Option.or] at hcon
        exact hb.2 (by rw [hl, hcon])
  have hT2 : ¬(jstr "~" ++ vars.getD i [] = jstr "True") := by
    intro h
    have h0 := congrArg List.head? h
    rw [show (jstr "~" ++ vars.getD i [] : JStr) = 126 :: vars.getD i [] from rfl] at h0
    rw [show (jstr "True" : JStr).head? = some 84 from rfl] at h0
    simp at h0
  have hF2 : ¬(jstr "~" ++ vars.getD i [] = jstr "False") := by
    intro h
    have h0 := congrArg List.head? h
    rw [show (jstr "~" ++ vars.getD i [] : JStr) = 126 :: vars.getD i [] from rfl] at h0
    rw [show (jstr "False" : JStr).head? = some 70 from rfl] at h0
    simp at h0
  unfold evalLit
  rw [htr, if_neg hT2, if_neg hF2]
  rw [show (jstr "~" ++ vars.getD i [] : JStr) = 126 :: vars.getD i [] from rfl]
  split
  · rename_i name heq
    simp only [List.cons.injEq, true_and] at heq
    rw [← heq]
    unfold assignOf
    rw [indexOf?_getD hnd i hi]
  · rename_i h
    exact absurd rfl (h (vars.getD i []))

theorem land_pow_ne_zero_iff (m k : Nat) : ¬(m &&& 2 ^ k = 0) ↔ m.testBit k = true := by
  rw [land_pow_eq_zero_iff]
  simp

theorem lit_mem_of_bit {vars : List JStr} {t : Implicant} {i : Nat}
    (hilt : i < vars.length)
    (hm : ¬ t.mask &&& (1 <<< (vars.length - 1 - i)) = 0) :
    (if t.value &&& (1 <<< (vars.length - 1 - i)) ≠ 0 then vars.getD i []
      else jstr "~" ++ vars.getD i []) ∈ litsOf vars t := by
  unfold litsOf
  apply List.mem_filterMap.mpr
  refine ⟨i, List.mem_range.mpr hilt, ?_⟩
  show (if t.mask &&& (1 <<< (vars.length - 1 - i)) = 0 then none
    else some (if t.value &&& (1 <<< (vars.length - 1 - i)) ≠ 0 then vars.getD i []
      else jstr "~" ++ vars.getD i []))
    = some (if t.value &&& (1 <<< (vars.length - 1 - i)) ≠ 0 then vars.getD i []
      else jstr "~" ++ vars.getD i [])
  rw [if_neg hm]

theorem litsOf_ne_nil {vars : List JStr} {t : Implicant} (hm0 : t.mask ≠ 0)
    (hmlt : t.mask < 2 ^ vars.length) : litsOf vars t ≠ [] := by
  have hex : ∃ k, t.mask.testBit k = true := by
    by_contra hno
    push_neg at hno
    apply hm0
    apply Nat.eq_of_testBit_eq
    intro i
    rw [Nat.zero_testBit]
    cases hb : t.mask.testBit i
    · rfl
    · exact absurd hb (hno i)
  obtain ⟨k, hk⟩ := hex
  have hklt : k < vars.length := by
    by_contra hge
    push_neg at hge
    have hlt : t.mask < 2 ^ k :=
      lt_of_lt_of_le hmlt (Nat.pow_le_pow_right (by norm_num) hge)
    rw [Nat.testBit_lt_two_pow hlt] at hk
    cases hk
  have hilt : vars.length - 1 - k < vars.length := by omega
  have hij : vars.length - 1 - (vars.length - 1 - k) = k := by omega
  have hm : ¬ t.mask &&& (1 <<< (vars.length - 1 - (vars.length - 1 - k))) = 0 := by
    rw [hij, Nat.one_shiftLeft]
    exact (land_pow_ne_zero_iff _ _).mpr hk
  exact List.ne_nil_of_mem (lit_mem_of_bit hilt hm)

theorem lits_all_eq {vars : List JStr} (hnd : vars.Nodup)
    (hg : ∀ v ∈ vars, GoodName v) {t : Implicant}
    (hmlt : t.mask < 2 ^ vars.length) (hval : t.value &&& t.mask = t.value)
    (a : Nat) :
    (litsOf vars t).all (evalLit (assignOf vars a))
      = decide (a &&& t.mask = t.value) := by
  have hiff : ((litsOf vars t).all (evalLit (assignOf vars a)) = true)
      ↔ (a &&& t.mask = t.value) := by
    rw [List.all_eq_true, land_eq_iff hval]
    constructor
    · intro hall j hbit
      have hjlt : j < vars.length := by
        by_contra hge
        push_neg at hge
        have hlt : t.mask < 2 ^ j :=
          lt_of_lt_of_le hmlt (Nat.pow_le_pow_right (by norm_num) hge)
        rw [Nat.testBit_lt_two_pow hlt] at hbit
        cases hbit
      have hilt : vars.length - 1 - j < vars.length := by omega
      have hij : vars.length - 1 - (vars.length - 1 - j) = j := by omega
      have hmne : ¬ t.mask &&& (1 <<< (vars.length - 1 - (vars.length - 1 - j))) = 0 := by
        rw [hij, Nat.one_shiftLeft]
        exact (land_pow_ne_zero_iff _ _).mpr hbit
      have hmem := lit_mem_of_bit hilt hmne
      by_cases hv : t.value &&& (1 <<< (vars.length - 1 - (vars.length - 1 - j))) ≠ 0
      · rw [if_pos hv] at hmem
        have he := hall _ hmem
        rw [evalLit_var hnd hg a hilt, hij] at he
        have hvb : t.value.testBit j = true := by
          rw [hij, Nat.one_shiftLeft] at hv
          exact (land_pow_ne_zero_iff _ _).mp hv
        rw [he, hvb]
      · rw [if_neg hv] at hmem
        have he := hall _ hmem
        rw [evalLit_nvar hnd hg a hilt, hij, Bool.not_eq_true'] at he
        have hvb : t.value.testBit j = false := by
          push_neg at hv
          rw [hij, Nat.one_shiftLeft] at hv
          exact (land_pow_eq_zero_iff _ _).mp hv
        rw [he, hvb]
    · intro himp l hl
      obtain ⟨i, hilt, hm, hcase⟩ := lit_mem_cases hl
      have hmb : t.mask.testBit (vars.length - 1 - i) = true := by
        rw [Nat.one_shiftLeft] at hm
        exact (land_pow_ne_zero_iff _ _).mp hm
      have hq := himp _ hmb
      rcases hcase with ⟨hv, rfl⟩ | ⟨hv, rfl⟩
      · rw [evalLit_var hnd hg a hilt]
        rw [Nat.one_shiftLeft] at hv
        rw [hq, (land_pow_ne_zero_iff _ _).mp hv]
      · rw [evalLit_nvar hnd hg a hilt]
        rw [Nat.one_shiftLeft] at hv
        rw [Bool.not_eq_true', hq, (land_pow_eq_zero_iff _ _).mp hv]
  by_cases hP : a &&& t.mask = t.value
  · rw [decide_eq_true hP]
    exact hiff.mpr hP
  · rw [decide_eq_false hP]
    cases hb : (litsOf vars t).all (evalLit (assignOf vars a))
    · rfl
    · exact absurd (hiff.mp hb) hP

theorem splitAll_joinSep_lits {vars : List JStr} (hg : ∀ v ∈ vars, GoodName v)
    {t : Implicant} (assign : JStr → Bool) {p : JStr} {ps : List JStr}
    (hl : litsOf vars t = p :: ps) :
    (splitOnC 38 (joinSep [32, 38, 32] (p :: ps))).all (evalLit assign)
      = (p :: ps).all (evalLit assign) := by
  have hmemP : p ∈ litsOf vars t := by rw [hl]; simp
  have hmem : ∀ q ∈ p :: ps, q ∈ litsOf vars t := by
    intro q hq
    rw [hl]
    exact hq
  exact splitJoin_all 38 (by decide) (evalLit assign) (evalLit_space_left assign)
    (evalLit_space_right assign) ps p
    (lit_char_free hg hmemP (by omega))
    (fun q hq => lit_char_free hg (hmem q (by simp [hq])) (by omega))

theorem evalProd_productOf {vars : List JStr} (hnd : vars.Nodup)
    (hg : ∀ v ∈ vars, GoodName v) {t : Implicant} (hm0 : t.mask ≠ 0)
    (hmlt : t.mask < 2 ^ vars.length) (hval : t.value &&& t.mask = t.value)
    (a : Nat) :
    evalProd (assignOf vars a) (productOf vars t)
      = decide (a &&& t.mask = t.value) := by
  rcases hl : litsOf vars t with _ | ⟨p, ps⟩
  · exact absurd hl (litsOf_ne_nil hm0 hmlt)
  have hmemP : p ∈ litsOf vars t := by rw [hl]; simp
  have hmem : ∀ q ∈ p :: ps, q ∈ litsOf vars t := by
    intro q hq
    rw [hl]
    exact hq
  have hnn : ∀ q ∈ p :: ps, q ≠ [] := fun q hq => lit_ne_nil hg (hmem q hq)
  have hhead := lit_head_ok hg hmemP
  have hlast := lit_last_ok hg (hmem _ (List.getLast_mem (by simp)))
  rw [productOf_def, hl, if_pos (by simp)]
  unfold evalProd
  rw [show (jstr " & " : JStr) = [32, 38, 32] from rfl]
  have htr : trimSp (joinSep [32, 38, 32] (p :: ps)) = joinSep [32, 38, 32] (p :: ps) := by
    apply trimSp_eq_self
    · rw [joinSep_head _ _ _ (hnn p (by simp))]
      exact hhead.1
    · rw [joinSep_getLast _ ps p hnn]
      exact hlast
  rw [htr]
  have hsp : stripParen (joinSep [32, 38, 32] (p :: ps))
      = joinSep [32, 38, 32] (p :: ps) := by
    unfold stripParen
    rw [if_neg]
    intro hcon
    apply hhead.2
    rw [← joinSep_head [32, 38, 32] p ps (hnn p (by simp))]
    exact hcon.1
  rw [hsp, splitAll_joinSep_lits hg (assignOf vars a) hl, ← hl,
    lits_all_eq hnd hg hmlt hval a]

theorem evalProd_paren {vars : List JStr} (hnd : vars.Nodup)
    (hg : ∀ v ∈ vars, GoodName v) {t : Implicant} (hm0 : t.mask ≠ 0)
    (hmlt : t.mask < 2 ^ vars.length) (hval : t.value &&& t.mask = t.value)
    (a : Nat) :
    evalProd (assignOf vars a) (jstr "(" ++ productOf vars t ++ jstr ")")
      = decide (a &&& t.mask = t.value) := by
  rcases hl : litsOf vars t with _ | ⟨p, ps⟩
  · exact absurd hl (litsOf_ne_nil hm0 hmlt)
  rw [productOf_def, hl, if_pos (by simp)]
  unfold evalProd
  rw [show (jstr " & " : JStr) = [32, 38, 32] from rfl]
  rw [show (jstr "(" ++ joinSep [32, 38, 32] (p :: ps) ++ jstr ")" : JStr)
    = 40 :: (joinSep [32, 38, 32] (p :: ps) ++ [41]) from rfl]
  have hgl : (40 :: (joinSep [32, 38, 32] (p :: ps) ++ [41])).getLast? = some 41 := by
    rw [show (40 :: (joinSep [32, 38, 32] (p :: ps) ++ [41]) : JStr)
      = (40 :: joinSep [32, 38, 32] (p :: ps)) ++ [41] from rfl, List.getLast?_append]
    rfl
  have htr : trimSp (40 :: (joinSep [32, 38, 32] (p :: ps) ++ [41]))
      = 40 :: (joinSep [32, 38, 32] (p :: ps) ++ [41]) := by
    apply trimSp_eq_self
    · intro hcon
      simp at hcon
    · rw [hgl]
      intro hcon
      simp at hcon
  rw [htr]
  have hsp : stripParen (40 :: (joinSep [32, 38, 32] (p :: ps) ++ [41]))
      = joinSep [32, 38, 32] (p :: ps) := by
    unfold stripParen
    rw [if_pos ⟨rfl, hgl⟩]
    rw [show (40 :: (joinSep [32, 38, 32] (p :: ps) ++ [41]) : JStr).drop 1
      = joinSep [32, 38, 32] (p :: ps) ++ [41] from rfl]
    rw [List.dropLast_concat]
  rw [hsp, splitAll_joinSep_lits hg (assignOf vars a) hl, ← hl,
    lits_all_eq hnd hg hmlt hval a]

theorem productOf_no124 {vars : List JStr} (hg : ∀ v ∈ vars, GoodName v)
    {t : Implicant} (hm0 : t.mask ≠ 0) (hmlt : t.mask < 2 ^ vars.length) :
    (124 : Nat) ∉ productOf vars t := by
  rcases hl : litsOf vars t with _ | ⟨p, ps⟩
  · exact absurd hl (litsOf_ne_nil hm0 hmlt)
  rw [productOf_def, hl, if_pos (by simp)]
  intro hmem
  rcases mem_joinSep hmem with hs | ⟨q, hq, hcq⟩
  · rw [show (jstr " & " : JStr) = [32, 38, 32] from rfl] at hs
    simp at hs
  · exact lit_char_free hg (show q ∈ litsOf vars t by rw [hl]; exact hq) (by omega) hcq

/-- The wrapping step of `formatImplicants` on one product, with the product
count it tests abstracted. -/
def wrapP (k : Nat) (p : JStr) : JStr :=
  if hasSub (jstr " & ") p ∧ k > 1 then jstr "(" ++ p ++ jstr ")" else p

theorem wrapP_no124 {vars : List JStr} (hg : ∀ v ∈ vars, GoodName v)
    {t : Implicant} (hm0 : t.mask ≠ 0) (hmlt : t.mask < 2 ^ vars.length)
    (k : Nat) : (124 : Nat) ∉ wrapP k (productOf vars t) := by
  unfold wrapP
  by_cases h : hasSub (jstr " & ") (productOf vars t) ∧ k > 1
  · rw [if_pos h]
    intro hmem
    rcases List.mem_append.mp hmem with h2 | h2
    · rcases List.mem_append.mp h2 with h3 | h3
      · simp [jstr] at h3
      · exact productOf_no124 hg hm0 hmlt h3
    · simp [jstr] at h2
  · rw [if_neg h]
    exact productOf_no124 hg hm0 hmlt

theorem evalProd_wrapP {vars : List JStr} (hnd : vars.Nodup)
    (hg : ∀ v ∈ vars, GoodName v) {t : Implicant} (hm0 : t.mask ≠ 0)
    (hmlt : t.mask < 2 ^ vars.length) (hval : t.value &&& t.mask = t.value)
    (a k : Nat) :
    evalProd (assignOf vars a) (wrapP k (productOf vars t))
      = decide (a &&& t.mask = t.value) := by
  unfold wrapP
  by_cases h : hasSub (jstr " & ") (productOf vars t) ∧ k > 1
  · rw [if_pos h]
    exact evalProd_paren hnd hg hm0 hmlt hval a
  · rw [if_neg h]
    exact evalProd_productOf hnd hg hm0 hmlt hval a

theorem formatImplicants_expr (implicants : List Implicant) (vars : List JStr)
    (h2 : 2 ≤ implicants.length) :
    (formatImplicants implicants vars).expression
      = joinSep [32, 124, 32] ((implicants.map (productOf vars)).map
          (wrapP (implicants.map (productOf vars)).length)) := by
  simp only [formatImplicants]
  rw [if_neg (by simp only [List.length_map]; omega),
    if_neg (by simp only [List.length_map]; omega)]
  rfl

theorem any_map_congr {α β : Type} (f : α → β) (p : β → Bool) (q : α → Bool) :
    ∀ {l : List α}, (∀ x ∈ l, p (f x) = q x) → (l.map f).any p = l.any q := by
  intro l
  induction l with
  | nil =>
    intro _
    rfl
  | cons x xs ih =>
    intro h
    simp only [List.map_cons, List.any_cons]
    rw [h x (by simp), ih (fun y hy => h y (by simp [hy]))]

theorem evalSop_format {vars : List JStr} (hnd : vars.Nodup)
    (hg : ∀ v ∈ vars, GoodName v) {implicants : List Implicant}
    (hne : implicants ≠ [])
    (hI : ∀ t ∈ implicants, t.mask ≠ 0 ∧ t.mask < 2 ^ vars.length
      ∧ t.value &&& t.mask = t.value) (a : Nat) :
    evalSop (assignOf vars a) (formatImplicants implicants vars).expression
      = implicants.any (fun t => decide (a &&& t.mask = t.value)) := by
  rcases implicants with _ | ⟨t0, ts⟩
  · exact absurd rfl hne
  rcases ts with _ | ⟨t1, ts⟩
  · have h0 := hI t0 (by simp)
    have hexp : (formatImplicants [t0] vars).expression = productOf vars t0 := by
      simp only [formatImplicants]
      rw [if_neg (by simp), if_pos (by simp)]
      rfl
    rw [hexp]
    unfold evalSop
    rw [splitOnC_no (productOf_no124 hg h0.1 h0.2.1)]
    simp only [List.any_cons, List.any_nil, Bool.or_false]
    exact evalProd_productOf hnd hg h0.1 h0.2.1 h0.2.2 a
  · rw [formatImplicants_expr _ _ (by simp), List.map_map]
    generalize (List.map (productOf vars) (t0 :: t1 :: ts)).length = k
    have h124 : ∀ t ∈ t0 :: t1 :: ts, (124 : Nat) ∉ (wrapP k ∘ productOf vars) t :=
      fun t ht => wrapP_no124 hg (hI t ht).1 (hI t ht).2.1 k
    rw [List.map_cons, List.map_cons]
    unfold evalSop
    rw [splitJoin_any 124 (by decide) (evalProd (assignOf vars a))
      (evalProd_space_left _) (evalProd_space_right _) _ _
      (h124 t0 (by simp))
      (by
        intro q hq
        rcases List.mem_cons.mp hq with rfl | hq2
        · exact h124 t1 (by simp)
        · obtain ⟨t, ht, rfl⟩ := List.mem_map.mp hq2
          exact h124 t (by simp [ht]))]
    rw [← List.map_cons, ← List.map_cons]
    apply any_map_congr
    intro t ht
    exact evalProd_wrapP hnd hg (hI t ht).1 (hI t ht).2.1 (hI t ht).2.2 a k

theorem full_minterms_mem {M : List Nat} {n : Nat} (hnd : M.Nodup)
    (hbound : ∀ m ∈ M, m < 2 ^ n) (hlen : M.length = 2 ^ n)
    {a : Nat} (ha : a < 2 ^ n) : a ∈ M := by
  have hsub : M.toFinset ⊆ Finset.range (2 ^ n) := by
    intro x hx
    rw [Finset.mem_range]
    exact hbound x (List.mem_toFinset.mp hx)
  have hcard : M.toFinset.card = 2 ^ n := by
    rw [List.toFinset_card_of_nodup hnd, hlen]
  have heq := Finset.eq_of_subset_of_card_le hsub (by rw [hcard, Finset.card_range])
  have ham : a ∈ M.toFinset := by
    rw [heq]
    exact Finset.mem_range.mpr ha
  exact List.mem_toFinset.mp ham

theorem cover_mask_ne_zero {M : List Nat} {n : Nat} {t : Implicant}
    (hinv : ImplInv M n t) (hnd : M.Nodup) (hbound : ∀ m ∈ M, m < 2 ^ n)
    (hlen : M.length ≠ 2 ^ n) : t.mask ≠ 0 := by
  intro h0
  apply hlen
  have hv0 : t.value = 0 := by
    have hv := hinv.2.1
    rw [h0, Nat.and_zero] at hv
    exact hv.symm
  have hall : ∀ a, a < 2 ^ n → a ∈ M := by
    intro a ha
    apply hinv.2.2.1 a ha
    rw [h0, hv0]
    simp
  have hsub1 : Finset.range (2 ^ n) ⊆ M.toFinset := by
    intro x hx
    exact List.mem_toFinset.mpr (hall x (Finset.mem_range.mp hx))
  have hsub2 : M.toFinset ⊆ Finset.range (2 ^ n) := by
    intro x hx
    exact Finset.mem_range.mpr (hbound x (List.mem_toFinset.mp hx))
  have heq : M.toFinset = Finset.range (2 ^ n) := subset_antisymm hsub2 hsub1
  rw [← List.toFinset_card_of_nodup hnd, heq, Finset.card_range]

theorem evalSop_false (f : JStr → Bool) : evalSop f (jstr "False") = false := rfl

theorem evalSop_true (f : JStr → Bool) : evalSop f (jstr "True") = true := rfl

/-- **C2**: Boolean minimizer correctness. For every duplicate-free ordered
variable list `vars` (of well-formed names, length at most 30) and every
duplicate-free minterm list `M` with entries below `2 ^ vars.length`, the
expression `simplifyLogic vars M` returns — evaluated with `&` as AND, `|` as
OR, `~` as NOT, under the assignment that makes variable `i` true iff bit
`vars.length - 1 - i` of the assignment index `a` is set — yields `true`
exactly when `a ∈ M`. -/
theorem C2_simplify_correct {vars : List JStr} {M : List Nat} (a : Nat)
    (hn : vars.length ≤ 30) (hndv : vars.Nodup) (hg : ∀ v ∈ vars, GoodName v)
    (hndM : M.Nodup) (hbound : ∀ m ∈ M, m < 2 ^ vars.length)
    (ha : a < 2 ^ vars.length) :
    evalSop (assignOf vars a) (simplifyLogic vars M).expression
      = decide (a ∈ M) := by
  by_cases h0 : M.length = 0
  · have hs : simplifyLogic vars M = ⟨jstr "False", []⟩ := by
      unfold simplifyLogic
      rw [if_pos h0]
    rw [hs]
    have hM : M = [] := List.length_eq_zero.mp h0
    rw [evalSop_false, hM]
    simp
  by_cases h1 : M.length = 1 <<< vars.length
  · have hs : simplifyLogic vars M = ⟨jstr "True", []⟩ := by
      unfold simplifyLogic
      rw [if_neg h0, if_pos h1]
    rw [hs, evalSop_true]
    have hlen2 : M.length = 2 ^ vars.length := by
      rw [h1, Nat.one_shiftLeft]
    exact (decide_eq_true (full_minterms_mem hndM hbound hlen2 ha)).symm
  · have hs : simplifyLogic vars M
        = formatImplicants (findMinimalCover (findPrimeImplicants M vars.length) M)
            vars := by
      unfold simplifyLogic
      rw [if_neg h0, if_neg h1]
    have hP := findPrime_inv hn hbound
    have hCov : ∀ m ∈ M, ∃ i, i < (findPrimeImplicants M vars.length).length
        ∧ m ∈ ((findPrimeImplicants M vars.length).getD i noImpl).minterms := by
      intro m hm
      obtain ⟨t, ht, hmv⟩ := findPrime_cover hn hbound m hm
      obtain ⟨i, hi, hti⟩ := List.getElem_of_mem ht
      refine ⟨i, hi, ?_⟩
      rw [List.getD_eq_getElem _ _ hi, hti]
      exact ((hP t ht).2.2.2 m).mpr ⟨hbound m hm, hmv⟩
    obtain ⟨hIc, hMc⟩ := findMinimalCover_props hP hCov
    have hneC : findMinimalCover (findPrimeImplicants M vars.length) M ≠ [] := by
      obtain ⟨m, hm⟩ := List.exists_mem_of_length_pos (l := M) (by omega)
      obtain ⟨t, ht, _⟩ := hMc m hm
      exact List.ne_nil_of_mem ht
    have hlne : M.length ≠ 2 ^ vars.length := by
      rw [← Nat.one_shiftLeft]
      exact h1
    have hI : ∀ t ∈ findMinimalCover (findPrimeImplicants M vars.length) M,
        t.mask ≠ 0 ∧ t.mask < 2 ^ vars.length ∧ t.value &&& t.mask = t.value := by
      intro t ht
      have hinv := hIc t ht
      exact ⟨cover_mask_ne_zero hinv hndM hbound hlne, hinv.1, hinv.2.1⟩
    rw [hs, evalSop_format hndv hg hneC hI a]
    by_cases hM : a ∈ M
    · rw [decide_eq_true hM]
      obtain ⟨t, ht, hmt⟩ := hMc a hM
      have hav : a &&& t.mask = t.value := (((hIc t ht).2.2.2 a).mp hmt).2
      exact List.any_eq_true.mpr ⟨t, ht, decide_eq_true hav⟩
    · rw [decide_eq_false hM]
      cases hany : (findMinimalCover (findPrimeImplicants M vars.length) M).any
          (fun t => decide (a &&& t.mask = t.value))
      · rfl
      · obtain ⟨t, ht, hd⟩ := List.any_eq_true.mp hany
        exact absurd ((hIc t ht).2.2.1 a ha (of_decide_eq_true hd)) hM

theorem C2_simplify_correct_witness :
    evalSop (assignOf [jstr "x", jstr "y"] 1)
        (simplifyLogic [jstr "x", jstr "y"] [1, 2]).expression
      = decide ((1 : Nat) ∈ ([1, 2] : List Nat)) :=
  C2_simplify_correct 1 (by decide) (by decide) (by decide) (by decide)
    (by decide) (by decide)

namespace MD

inductive DiffOp | K | I | R
deriving DecidableEq, Repr

abbrev DiffEntry := DiffOp × Nat

/-- The inner `while` of the forward pass: follow the diagonal while both
sides match. Returns the final `x`. -/
def snake (old new : List Nat) : Nat → Nat → Int → Nat
  | 0, x, _ => x
  | fuel+1, x, y =>
    if x < old.length ∧ y < (new.length : Int) ∧ 0 ≤ y
        ∧ old.getD x 0 = new.getD y.toNat 0
    then snake old new fuel (x+1) (y+1)
    else x

def vupd (v : Int → Nat) (i : Int) (x : Nat) : Int → Nat :=
  fun j => if j = i then x else v j

/-- The candidate `x` the forward pass computes for diagonal `k` of
iteration `d`, reading the previous iteration's `v`. -/
def innerK (old new : List Nat) (offset : Int) (d : Nat) (k : Int)
    (v : Int → Nat) : Nat :=
  let xs := if k = -(d : Int) ∨ (k ≠ (d : Int) ∧ v (offset + k - 1) < v (offset + k + 1))
    then v (offset + k + 1) else v (offset + k - 1) + 1
  snake old new (old.length + 1) xs ((xs : Int) - k)

/-- The diagonals visited by iteration `d`: `-d, -d+2, …, d`. -/
def kRange (d : Nat) : List Int :=
  (List.range (d + 1)).map (fun i : Nat => -(d : Int) + 2 * (i : Int))

/-- The inner `for k` loop with its found-break. -/
def innerLoop (old new : List Nat) (offset : Int) (d : Nat) :
    List Int → (Int → Nat) → (Int → Nat) × Bool
  | [], v => (v, false)
  | k :: ks, v =>
    let x := innerK old new offset d k v
    let v2 := vupd v (offset + k) x
    if old.length ≤ x ∧ (new.length : Int) ≤ (x : Int) - k
    then (v2, true)
    else innerLoop old new offset d ks v2

/-- The outer `for d` loop, collecting the trace. -/
def outerLoop (old new : List Nat) (offset : Int) :
    Nat → Nat → (Int → Nat) → List (Int → Nat) → List (Int → Nat) × (Int → Nat)
  | 0, _, v, trace => (trace, v)
  | fuel+1, d, v, trace =>
    if d ≤ old.length + new.length then
      let trace2 := trace ++ [v]
      match innerLoop old new offset d (kRange d) v with
      | (v2, true) => (trace2, v2)
      | (v2, false) => outerLoop old new offset fuel (d+1) v2 trace2
    else (trace, v)

/-- The backtracking keep-`while`. -/
def keepLoop (old : List Nat) : Nat → Int → Int → Int → Int → List DiffEntry →
    Int × Int × List DiffEntry
  | 0, x, y, _, _, ops => (x, y, ops)
  | fuel+1, x, y, px, py, ops =>
    if px < x ∧ py < y then
      keepLoop old fuel (x-1) (y-1) px py (ops ++ [(DiffOp.K, old.getD (x-1).toNat 0)])
    else (x, y, ops)

/-- The backtracking `for d` loop over the reversed trace. -/
def backLoop (old new : List Nat) (offset : Int) :
    List (Int → Nat) → Nat → Int → Int → List DiffEntry → List DiffEntry
  | [], _, _, _, ops => ops
  | tv :: rest, d, x, y, ops =>
    let k := x - y
    let prevK := if k = -(d : Int) ∨ (k ≠ (d : Int) ∧ tv (offset + k - 1) < tv (offset + k + 1))
      then k + 1 else k - 1
    let prevX : Int := (tv (offset + prevK) : Int)
    let prevY : Int := prevX - prevK
    match keepLoop old (old.length + 1) x y prevX prevY ops with
    | (x2, y2, ops2) =>
      if 0 < d then
        if x2 = prevX then
          backLoop old new offset rest (d-1) x2 (y2-1)
            (ops2 ++ [(DiffOp.I, new.getD (y2-1).toNat 0)])
        else
          backLoop old new offset rest (d-1) (x2-1) y2
            (ops2 ++ [(DiffOp.R, old.getD (x2-1).toNat 0)])
      else backLoop old new offset rest (d-1) x2 y2 ops2

/-- `myersDiff`. -/
def myersDiff (old new : List Nat) : List DiffEntry :=
  let n := old.length
  let m := new.length
  if n = 0 ∧ m = 0 then []
  else if n = 0 then new.map (fun v => (DiffOp.I, v))
  else if m = 0 then old.map (fun v => (DiffOp.R, v))
  else
    let offset : Int := (n + m : Nat)
    match outerLoop old new offset (n + m + 1) 0 (fun _ => 0) [] with
    | (trace, _) =>
      (backLoop old new offset trace.reverse (trace.length - 1)
        (n : Int) (m : Int) []).reverse

def projNew (l : List DiffEntry) : List Nat :=
  l.filterMap (fun e => if e.1 = DiffOp.R then none else some e.2)

def projOld (l : List DiffEntry) : List Nat :=
  l.filterMap (fun e => if e.1 = DiffOp.I then none else some e.2)

-- ── The snake: runs, bounds, and stopping ───────────────────────

/-- The guard of the forward `while`. -/
def sguard (old new : List Nat) (x : Nat) (y : Int) : Prop :=
  x < old.length ∧ y < (new.length : Int) ∧ 0 ≤ y ∧ old.getD x 0 = new.getD y.toNat 0

instance (old new : List Nat) (x : Nat) (y : Int) : Decidable (sguard old new x y) := by
  unfold sguard
  infer_instance

theorem snake_eq_ite (old new : List Nat) (fuel x : Nat) (y : Int) :
    snake old new (fuel+1) x y
      = if sguard old new x y then snake old new fuel (x+1) (y+1) else x := rfl

theorem snake_ge (old new : List Nat) :
    ∀ fuel x y, x ≤ snake old new fuel x y := by
  intro fuel
  induction fuel with
  | zero =>
    intro x y
    exact Nat.le_refl x
  | succ fuel ih =>
    intro x y
    rw [snake_eq_ite]
    by_cases h : sguard old new x y
    · rw [if_pos h]
      exact Nat.le_trans (Nat.le_succ x) (ih (x+1) (y+1))
    · rw [if_neg h]

theorem snake_run (old new : List Nat) :
    ∀ fuel x y, ∃ s, s ≤ fuel ∧ snake old new fuel x y = x + s
      ∧ (∀ i, i < s → sguard old new (x + i) (y + i))
      ∧ (s = fuel ∨ ¬sguard old new (x + s) (y + s)) := by
  intro fuel
  induction fuel with
  | zero =>
    intro x y
    exact ⟨0, Nat.le_refl 0, rfl, fun i hi => absurd hi (Nat.not_lt_zero i), Or.inl rfl⟩
  | succ fuel ih =>
    intro x y
    rw [snake_eq_ite]
    by_cases h : sguard old new x y
    · rw [if_pos h]
      obtain ⟨s, hs1, hs2, hs3, hs4⟩ := ih (x+1) (y+1)
      refine ⟨s + 1, by omega, by omega, ?_, ?_⟩
      · intro i hi
        cases i with
        | zero => simpa using h
        | succ i =>
          have := hs3 i (by omega)
          have harr : x + 1 + i = x + (i + 1) := by omega
          have harr2 : y + 1 + i = y + (i + 1 : Nat) := by push_cast; ring
          rw [harr, harr2] at this
          exact this
      · rcases hs4 with h4 | h4
        · exact Or.inl (by omega)
        · refine Or.inr ?_
          have harr : x + 1 + s = x + (s + 1) := by omega
          have harr2 : y + 1 + s = y + (s + 1 : Nat) := by push_cast; ring
          rw [harr, harr2] at h4
          exact h4
    · rw [if_neg h]
      exact ⟨0, Nat.zero_le _, by omega, fun i hi => absurd hi (Nat.not_lt_zero i),
        Or.inr (by simpa using h)⟩

/-- With enough fuel the snake always stops at a failing guard. -/
theorem snake_run_full (old new : List Nat) (fuel x : Nat) (y : Int)
    (hfuel : old.length < fuel + x) :
    ∃ s, snake old new fuel x y = x + s
      ∧ (∀ i, i < s → sguard old new (x + i) (y + i))
      ∧ ¬sguard old new (x + s) (y + s) := by
  obtain ⟨s, hs1, hs2, hs3, hs4⟩ := snake_run old new fuel x y
  refine ⟨s, hs2, hs3, ?_⟩
  rcases hs4 with h4 | h4
  · subst h4
    cases Nat.eq_zero_or_pos s with
    | inl h0 =>
      rw [h0]
      intro hg
      have := hg.1
      omega
    | inr hpos =>
      have := (hs3 (s - 1) (by omega)).1
      intro hg
      have := hg.1
      omega
  · exact h4

theorem snake_ge_of_run (old new : List Nat) :
    ∀ fuel x (y : Int) (t : Nat), x ≤ t → t - x ≤ fuel →
      (∀ i, i < t - x → sguard old new (x + i) (y + i)) →
      t ≤ snake old new fuel x y := by
  intro fuel
  induction fuel with
  | zero =>
    intro x y t h1 h2 _
    have ht : t = x := by omega
    rw [ht]
    exact snake_ge old new 0 x y
  | succ fuel ih =>
    intro x y t h1 h2 hrun
    rcases Nat.eq_or_lt_of_le h1 with h | h
    · rw [← h]
      exact snake_ge old new _ _ _
    · have hg : sguard old new x y := by simpa using hrun 0 (by omega)
      rw [snake_eq_ite, if_pos hg]
      refine ih (x+1) (y+1) t (by omega) (by omega) ?_
      intro i hi
      have := hrun (i + 1) (by omega)
      have harr : x + (i + 1) = x + 1 + i := by omega
      have harr2 : y + (i + 1 : Nat) = y + 1 + i := by push_cast; ring
      rw [harr, harr2] at this
      exact this

-- ── Extended edit paths ─────────────────────────────────────────

/-- An edit path with `d` non-diagonal moves on the (possibly extended)
grid: rights and downs anywhere, diagonal steps only on matching in-range
pairs. -/
inductive EPath (old new : List Nat) : Nat → Nat → Nat → Prop
  | base : EPath old new 0 0 0
  | right {d x y} : EPath old new d x y → EPath old new (d+1) (x+1) y
  | down {d x y} : EPath old new d x y → EPath old new (d+1) x (y+1)
  | diag {d x y} : EPath old new d x y → x < old.length → y < new.length →
      old.getD x 0 = new.getD y 0 → EPath old new d (x+1) (y+1)

theorem ep_bounds {old new : List Nat} {d x y : Nat} (h : EPath old new d x y) :
    x ≤ y + d ∧ y ≤ x + d ∧ (x + y + d) % 2 = 0
      ∧ x ≤ d + old.length ∧ y ≤ d + new.length := by
  induction h with
  | base => omega
  | right _ ih => omega
  | down _ ih => omega
  | diag _ hx hy _ ih => omega

/-- Drop the down-moves below the bottom edge. -/
theorem ep_trim_y {old new : List Nat} {d x y : Nat} (h : EPath old new d x y)
    (hy : new.length ≤ y) : EPath old new (d - (y - new.length)) x new.length := by
  induction h with
  | base =>
    have h0 : new.length = 0 := by omega
    rw [h0] at hy ⊢
    simpa using EPath.base
  | right h ih =>
    rename_i d' x' y'
    have hb := ep_bounds h
    have := ih hy
    have harr : d' + 1 - (y' - new.length) = (d' - (y' - new.length)) + 1 := by omega
    rw [harr]
    exact EPath.right this
  | down h ih =>
    rename_i d' x' y'
    rcases Nat.lt_or_ge y' new.length with hlt | hge
    · have h1 : y' + 1 = new.length := by omega
      have harr : d' + 1 - (y' + 1 - new.length) = d' + 1 := by omega
      rw [harr, ← h1]
      exact EPath.down h
    · have := ih hge
      have harr : d' + 1 - (y' + 1 - new.length) = d' - (y' - new.length) := by omega
      rw [harr]
      exact this
  | diag h hx hy2 heq ih =>
    rename_i d' x' y'
    have h1 : y' + 1 = new.length := by omega
    have harr : d' - (y' + 1 - new.length) = d' := by omega
    rw [harr, ← h1]
    exact EPath.diag h hx hy2 heq

/-- Drop the right-moves past the right edge. -/
theorem ep_trim_x {old new : List Nat} {d x y : Nat} (h : EPath old new d x y)
    (hx : old.length ≤ x) : EPath old new (d - (x - old.length)) old.length y := by
  induction h with
  | base =>
    have h0 : old.length = 0 := by omega
    rw [h0] at hx ⊢
    simpa using EPath.base
  | right h ih =>
    rename_i d' x' y'
    rcases Nat.lt_or_ge x' old.length with hlt | hge
    · have h1 : x' + 1 = old.length := by omega
      have harr : d' + 1 - (x' + 1 - old.length) = d' + 1 := by omega
      rw [harr, ← h1]
      exact EPath.right h
    · have := ih hge
      have harr : d' + 1 - (x' + 1 - old.length) = d' - (x' - old.length) := by omega
      rw [harr]
      exact this
  | down h ih =>
    rename_i d' x' y'
    have hb := ep_bounds h
    have := ih hx
    have harr : d' + 1 - (x' - old.length) = (d' - (x' - old.length)) + 1 := by omega
    rw [harr]
    exact EPath.down this
  | diag h hx2 hy2 heq ih =>
    rename_i d' x' y'
    have h1 : x' + 1 = old.length := by omega
    have harr : d' - (x' + 1 - old.length) = d' := by omega
    rw [harr, ← h1]
    exact EPath.diag h hx2 hy2 heq

/-- The all-rights-then-all-downs path: `(n, m)` is always reachable with
`n + m` non-diagonal moves. -/
theorem ep_full (old new : List Nat) :
    EPath old new (old.length + new.length) old.length new.length := by
  have hr : ∀ a, EPath old new a a 0 := by
    intro a
    induction a with
    | zero => exact EPath.base
    | succ a ih => exact EPath.right ih
  have hd : ∀ b a, EPath old new a a 0 → EPath old new (a + b) a b := by
    intro b
    induction b with
    | zero =>
      intro a h
      exact h
    | succ b ih =>
      intro a h
      exact EPath.down (ih a h)
  exact hd new.length old.length (hr old.length)

-- ── The iteration states of the forward pass ────────────────────

/-- One full inner iteration, ignoring the found-break. -/
def innerFull (old new : List Nat) (offset : Int) (d : Nat) :
    List Int → (Int → Nat) → (Int → Nat)
  | [], v => v
  | k :: ks, v => innerFull old new offset d ks
      (vupd v (offset + k) (innerK old new offset d k v))

/-- The `v` state before iteration `d` (the trace entry for `d`). -/
def vIter (old new : List Nat) (offset : Int) : Nat → (Int → Nat)
  | 0 => fun _ => 0
  | d+1 => innerFull old new offset d (kRange d) (vIter old new offset d)

/-- The candidate value iteration `d` computes for diagonal `k`. -/
def cand (old new : List Nat) (offset : Int) (d : Nat) (k : Int) : Nat :=
  innerK old new offset d k (vIter old new offset d)

theorem mem_kRange {d : Nat} {k : Int} :
    k ∈ kRange d ↔ ∃ i : Nat, i ≤ d ∧ k = -(d : Int) + 2 * i := by
  constructor
  · intro h
    obtain ⟨i, hi, he⟩ := List.mem_map.mp h
    exact ⟨i, by have := List.mem_range.mp hi; omega, he.symm⟩
  · rintro ⟨i, hi, rfl⟩
    exact List.mem_map.mpr ⟨i, List.mem_range.mpr (by omega), rfl⟩

theorem innerK_congr {old new : List Nat} {offset : Int} {d : Nat} {k : Int}
    {v v' : Int → Nat} (h1 : v (offset + k - 1) = v' (offset + k - 1))
    (h2 : v (offset + k + 1) = v' (offset + k + 1)) :
    innerK old new offset d k v = innerK old new offset d k v' := by
  unfold innerK
  rw [h1, h2]

theorem innerFull_notin (old new : List Nat) (offset : Int) (d : Nat) :
    ∀ (ks : List Int) (v : Int → Nat) (j : Int),
      (∀ k' ∈ ks, offset + k' ≠ j) → innerFull old new offset d ks v j = v j := by
  intro ks
  induction ks with
  | nil =>
    intro v j _
    rfl
  | cons k ks ih =>
    intro v j hne
    show innerFull old new offset d ks _ j = v j
    rw [ih _ j (fun k' hk' => hne k' (by simp [hk']))]
    unfold vupd
    rw [if_neg]
    intro hc
    exact hne k (by simp) (by omega)

theorem innerFull_at (old new : List Nat) (offset : Int) (d : Nat) :
    ∀ (ks : List Int) (v : Int → Nat) (k : Int), ks.Nodup → k ∈ ks →
      (hadj : ∀ k1 ∈ ks, ∀ k2 ∈ ks, k1 ≠ k2 + 1) →
      innerFull old new offset d ks v (offset + k) = innerK old new offset d k v := by
  intro ks
  induction ks with
  | nil =>
    intro v k _ hk _
    cases hk
  | cons k0 ks ih =>
    intro v k hnd hk hadj
    rcases List.mem_cons.mp hk with rfl | hk2
    · show innerFull old new offset d ks _ (offset + k) = _
      rw [innerFull_notin]
      · unfold vupd
        rw [if_pos rfl]
      · intro k' hk' hc
        have hkk : k' = k := by omega
        rw [hkk] at hk'
        exact (List.nodup_cons.mp hnd).1 hk'
    · show innerFull old new offset d ks _ (offset + k) = _
      rw [ih _ k (List.nodup_cons.mp hnd).2 hk2
        (fun k1 h1 k2 h2 => hadj k1 (by simp [h1]) k2 (by simp [h2]))]
      apply innerK_congr
      · unfold vupd
        rw [if_neg]
        intro hc
        have : k0 = k - 1 := by omega
        have h2 := hadj k (by simp [hk2]) k0 (by simp)
        omega
      · unfold vupd
        rw [if_neg]
        intro hc
        have : k0 = k + 1 := by omega
        have h2 := hadj k0 (by simp) k (by simp [hk2])
        omega

theorem kRange_nodup (d : Nat) : (kRange d).Nodup := by
  apply List.Nodup.map
  · intro a b hab
    have hab2 : -(d : Int) + 2 * (a : Int) = -(d : Int) + 2 * (b : Int) := hab
    omega
  · exact List.nodup_range _

theorem kRange_nonadj (d : Nat) :
    ∀ k1 ∈ kRange d, ∀ k2 ∈ kRange d, k1 ≠ k2 + 1 := by
  intro k1 h1 k2 h2
  obtain ⟨i, hi, rfl⟩ := mem_kRange.mp h1
  obtain ⟨j, hj, rfl⟩ := mem_kRange.mp h2
  omega

/-- The value iteration `d` stores for diagonal `k`. -/
theorem vIter_succ_at (old new : List Nat) (offset : Int) (d : Nat) {k : Int}
    (hk : k ∈ kRange d) :
    vIter old new offset (d+1) (offset + k) = cand old new offset d k := by
  unfold vIter cand
  exact innerFull_at old new offset d (kRange d) _ k (kRange_nodup d) hk (kRange_nonadj d)

-- ── Soundness and the reach lower bound of the forward pass ─────

theorem snake_epath (old new : List Nat) :
    ∀ fuel (d x y : Nat), EPath old new d x y →
      ∃ s, snake old new fuel x (y : Int) = x + s ∧ EPath old new d (x + s) (y + s) := by
  intro fuel
  induction fuel with
  | zero =>
    intro d x y h
    exact ⟨0, rfl, by simpa using h⟩
  | succ fuel ih =>
    intro d x y h
    rw [snake_eq_ite]
    by_cases hg : sguard old new x (y : Int)
    · rw [if_pos hg]
      obtain ⟨hx, hy, _, heq⟩ := hg
      have hy2 : y < new.length := by exact_mod_cast hy
      have heq2 : old.getD x 0 = new.getD y 0 := by simpa using heq
      have hd := EPath.diag h hx hy2 heq2
      obtain ⟨s, hs1, hs2⟩ := ih d (x+1) (y+1) hd
      have hcast : ((y : Int) + 1) = ((y + 1 : Nat) : Int) := by push_cast; ring
      refine ⟨s + 1, ?_, ?_⟩
      · rw [hcast, hs1]
        omega
      · rw [show x + (s + 1) = (x + 1) + s by omega, show y + (s + 1) = (y + 1) + s by omega]
        exact hs2
    · rw [if_neg hg]
      exact ⟨0, rfl, by simpa using h⟩

theorem cand_is_snake (old new : List Nat) (offset : Int) (d : Nat) (k : Int) :
    ∃ xs, cand old new offset d k
      = snake old new (old.length + 1) xs ((xs : Int) - k) := by
  simp only [cand, innerK]
  exact ⟨_, rfl⟩

theorem cand_zero (old new : List Nat) (offset : Int) :
    cand old new offset 0 0 = snake old new (old.length + 1) 0 0 := by
  simp only [cand, innerK, vIter]
  split
  · norm_num
  · rename_i hcond
    exact absurd (Or.inl (by norm_num)) hcond

theorem cand_succ_cases (old new : List Nat) (offset : Int) (d : Nat) {k : Int}
    (hk : ∃ i : Nat, i ≤ d + 1 ∧ k = -((d + 1 : Nat) : Int) + 2 * i) :
    ∃ xs, cand old new offset (d+1) k
        = snake old new (old.length + 1) xs ((xs : Int) - k)
      ∧ ((k + 1 ∈ kRange d ∧ xs = cand old new offset d (k+1)
            ∧ (k = -((d + 1 : Nat) : Int) ∨ (k ≠ ((d + 1 : Nat) : Int)
              ∧ vIter old new offset (d+1) (offset + k - 1)
                < vIter old new offset (d+1) (offset + k + 1))))
        ∨ (k - 1 ∈ kRange d ∧ xs = cand old new offset d (k-1) + 1
            ∧ ¬(k = -((d + 1 : Nat) : Int) ∨ (k ≠ ((d + 1 : Nat) : Int)
              ∧ vIter old new offset (d+1) (offset + k - 1)
                < vIter old new offset (d+1) (offset + k + 1))))) := by
  obtain ⟨i, hi, hkeq⟩ := hk
  by_cases hC : k = -((d + 1 : Nat) : Int) ∨ (k ≠ ((d + 1 : Nat) : Int)
      ∧ vIter old new offset (d+1) (offset + k - 1) < vIter old new offset (d+1) (offset + k + 1))
  · have hm : k + 1 ∈ kRange d := by
      rcases hC with h1 | ⟨h2, h3⟩
      · exact mem_kRange.mpr ⟨0, by omega, by omega⟩
      · exact mem_kRange.mpr ⟨i, by omega, by omega⟩
    have hval : vIter old new offset (d+1) (offset + k + 1) = cand old new offset d (k+1) := by
      rw [show offset + k + 1 = offset + (k + 1) by ring]
      exact vIter_succ_at old new offset d hm
    refine ⟨vIter old new offset (d+1) (offset + k + 1), ?_, Or.inl ⟨hm, hval, hC⟩⟩
    simp only [cand, innerK]
    rw [if_pos hC]
  · have hC2 := hC
    push_neg at hC2
    have hm : k - 1 ∈ kRange d := by
      obtain ⟨hC1, _⟩ := hC2
      exact mem_kRange.mpr ⟨i - 1, by omega, by omega⟩
    have hval : vIter old new offset (d+1) (offset + k - 1) = cand old new offset d (k-1) := by
      rw [show offset + k - 1 = offset + (k - 1) by ring]
      exact vIter_succ_at old new offset d hm
    refine ⟨vIter old new offset (d+1) (offset + k - 1) + 1, ?_, Or.inr ⟨hm, by rw [hval], hC⟩⟩
    simp only [cand, innerK]
    rw [if_neg hC]

theorem cand_sound (old new : List Nat) (offset : Int) :
    ∀ d (k : Int), (∃ i : Nat, i ≤ d ∧ k = -(d : Int) + 2 * i) →
      ∃ y : Nat, (y : Int) = (cand old new offset d k : Int) - k
        ∧ EPath old new d (cand old new offset d k) y := by
  intro d
  induction d with
  | zero =>
    intro k hk
    obtain ⟨i, hi, hkeq⟩ := hk
    have hk0 : k = 0 := by omega
    subst hk0
    rw [cand_zero]
    obtain ⟨s, hs1, hs2⟩ := snake_epath old new (old.length + 1) 0 0 0 EPath.base
    simp only [Nat.cast_zero] at hs1
    rw [hs1]
    exact ⟨s, by push_cast; omega, by simpa using hs2⟩
  | succ d ih =>
    intro k hk
    obtain ⟨xs, hxs, hcases⟩ := cand_succ_cases old new offset d hk
    rw [hxs]
    rcases hcases with ⟨hm, hxseq, _⟩ | ⟨hm, hxseq, _⟩
    · obtain ⟨j, hj, hjeq⟩ := mem_kRange.mp hm
      obtain ⟨y2, hy1, hy2⟩ := ih (k+1) ⟨j, hj, hjeq⟩
      have hdown := EPath.down hy2
      rw [hxseq]
      have hcast : ((cand old new offset d (k+1) : Nat) : Int) - k
          = ((y2 + 1 : Nat) : Int) := by
        push_cast at hy1 ⊢
        omega
      rw [hcast]
      obtain ⟨s, hs1, hs2⟩ := snake_epath old new (old.length + 1) (d+1) _ (y2+1) hdown
      rw [hs1]
      refine ⟨y2 + 1 + s, ?_, ?_⟩
      · push_cast at hy1 ⊢
        omega
      · rw [show y2 + 1 + s = (y2 + 1) + s by omega]
        exact hs2
    · obtain ⟨j, hj, hjeq⟩ := mem_kRange.mp hm
      obtain ⟨y2, hy1, hy2⟩ := ih (k-1) ⟨j, hj, hjeq⟩
      have hright := EPath.right hy2
      rw [hxseq]
      have hcast : ((cand old new offset d (k-1) + 1 : Nat) : Int) - k
          = ((y2 : Nat) : Int) := by
        push_cast at hy1 ⊢
        omega
      rw [hcast]
      obtain ⟨s, hs1, hs2⟩ := snake_epath old new (old.length + 1) (d+1) _ y2 hright
      rw [hs1]
      exact ⟨y2 + s, by push_cast at hy1 ⊢; omega, hs2⟩

theorem cand_succ_start (old new : List Nat) (offset : Int) (d : Nat) (k : Int) :
    ∃ xs, cand old new offset (d+1) k
        = snake old new (old.length + 1) xs ((xs : Int) - k)
      ∧ (k + 1 ∈ kRange d → cand old new offset d (k+1) ≤ xs)
      ∧ (k - 1 ∈ kRange d → k ≠ -((d : Int)+1) → cand old new offset d (k-1) + 1 ≤ xs) := by
  by_cases hC : k = -((d + 1 : Nat) : Int) ∨ (k ≠ ((d + 1 : Nat) : Int)
      ∧ vIter old new offset (d+1) (offset + k - 1) < vIter old new offset (d+1) (offset + k + 1))
  · refine ⟨vIter old new offset (d+1) (offset + k + 1), ?_, ?_, ?_⟩
    · simp only [cand, innerK]
      rw [if_pos hC]
    · intro hm
      rw [show offset + k + 1 = offset + (k + 1) by ring,
        vIter_succ_at old new offset d hm]
    · intro hm hne
      rcases hC with h1 | ⟨h2, h3⟩
      · exact absurd (by rw [h1]; push_cast; ring) hne
      · rw [show offset + k - 1 = offset + (k - 1) by ring,
          vIter_succ_at old new offset d hm] at h3
        omega
  · have hdef : cand old new offset (d+1) k
        = snake old new (old.length + 1) (vIter old new offset (d+1) (offset + k - 1) + 1)
          (((vIter old new offset (d+1) (offset + k - 1) + 1 : Nat) : Int) - k) := by
      simp only [cand, innerK]
      rw [if_neg hC]
    push_neg at hC
    refine ⟨vIter old new offset (d+1) (offset + k - 1) + 1, hdef, ?_, ?_⟩
    · intro hm
      rcases eq_or_ne k ((d + 1 : Nat) : Int) with he | hne2
      · exfalso
        obtain ⟨j, hj, hjeq⟩ := mem_kRange.mp hm
        omega
      · have h3 := hC.2 hne2
        rw [show offset + k + 1 = offset + (k + 1) by ring,
          vIter_succ_at old new offset d hm] at h3
        omega
    · intro hm _
      rw [show offset + k - 1 = offset + (k - 1) by ring,
        vIter_succ_at old new offset d hm]

theorem cand_lb (old new : List Nat) (offset : Int) {d x y : Nat}
    (h : EPath old new d x y) : x ≤ cand old new offset d ((x : Int) - y) := by
  induction h with
  | base => exact Nat.zero_le _
  | right h ih =>
    rename_i d2 x2 y2
    have hb := ep_bounds h
    obtain ⟨xs, hxs, _, hcl2⟩ := cand_succ_start old new offset d2
      (((x2 + 1 : Nat) : Int) - (y2 : Int))
    rw [hxs]
    have hk1 : ((x2 + 1 : Nat) : Int) - (y2 : Int) - 1 = (x2 : Int) - y2 := by
      push_cast
      ring
    have hm : ((x2 + 1 : Nat) : Int) - (y2 : Int) - 1 ∈ kRange d2 := by
      rw [hk1]
      exact mem_kRange.mpr ⟨(x2 + d2 - y2) / 2, by omega, by omega⟩
    have hne : ((x2 + 1 : Nat) : Int) - (y2 : Int) ≠ -((d2 : Int) + 1) := by
      push_cast
      omega
    have h2 := hcl2 hm hne
    rw [hk1] at h2
    have h3 := snake_ge old new (old.length + 1) xs
      ((xs : Int) - (((x2 + 1 : Nat) : Int) - (y2 : Int)))
    omega
  | down h ih =>
    rename_i d2 x2 y2
    have hb := ep_bounds h
    obtain ⟨xs, hxs, hcl1, _⟩ := cand_succ_start old new offset d2
      ((x2 : Int) - ((y2 + 1 : Nat) : Int))
    rw [hxs]
    have hk1 : (x2 : Int) - ((y2 + 1 : Nat) : Int) + 1 = (x2 : Int) - y2 := by
      push_cast
      ring
    have hm : (x2 : Int) - ((y2 + 1 : Nat) : Int) + 1 ∈ kRange d2 := by
      rw [hk1]
      exact mem_kRange.mpr ⟨(x2 + d2 - y2) / 2, by omega, by omega⟩
    have h2 := hcl1 hm
    rw [hk1] at h2
    have h3 := snake_ge old new (old.length + 1) xs
      ((xs : Int) - ((x2 : Int) - ((y2 + 1 : Nat) : Int)))
    omega
  | diag h hx hy heq ih =>
    rename_i d2 x2 y2
    have hkeq : ((x2 + 1 : Nat) : Int) - ((y2 + 1 : Nat) : Int) = (x2 : Int) - y2 := by
      push_cast
      ring
    rw [hkeq]
    obtain ⟨xs, hxs⟩ := cand_is_snake old new offset d2 ((x2 : Int) - y2)
    rw [hxs] at ih ⊢
    obtain ⟨s, hs1, hs2, hs3⟩ := snake_run_full old new (old.length + 1) xs
      ((xs : Int) - ((x2 : Int) - y2)) (by omega)
    rw [hs1] at ih ⊢
    rcases Nat.eq_or_lt_of_le ih with hE | hL
    · exfalso
      apply hs3
      have hpt : (xs : Int) - ((x2 : Int) - (y2 : Int)) + (s : Nat) = (y2 : Int) := by
        push_cast
        omega
      rw [hpt, ← hE]
      refine ⟨hx, by exact_mod_cast hy, by positivity, ?_⟩
      simpa using heq
    · omega

-- ── The found-break and the first break point ───────────────────

/-- Iteration `d` breaks at diagonal `k`. -/
def BrkP (old new : List Nat) (offset : Int) (d : Nat) (k : Int) : Prop :=
  old.length ≤ cand old new offset d k
    ∧ (new.length : Int) ≤ (cand old new offset d k : Int) - k

theorem innerLoop_gen (old new : List Nat) (offset : Int) (d : Nat) :
    ∀ (ks : List Int) (v : Int → Nat), (∀ k ∈ ks, k ∈ kRange d) →
      (∀ j : Int, (∀ k' ∈ kRange d, offset + k' ≠ j) → v j = vIter old new offset d j) →
      (innerLoop old new offset d ks v = (innerFull old new offset d ks v, false)
          ∧ ∀ k ∈ ks, ¬BrkP old new offset d k)
      ∨ (∃ v2 k0, innerLoop old new offset d ks v = (v2, true)
          ∧ k0 ∈ ks ∧ BrkP old new offset d k0) := by
  intro ks
  induction ks with
  | nil =>
    intro v _ _
    exact Or.inl ⟨rfl, fun k hk => absurd hk (List.not_mem_nil k)⟩
  | cons k ks ih =>
    intro v hsub hv
    have hkr : k ∈ kRange d := hsub k (by simp)
    have hcand : innerK old new offset d k v = cand old new offset d k := by
      apply innerK_congr
      · apply hv
        intro k2 hk2 hc
        have he : k2 = k - 1 := by omega
        subst he
        have := kRange_nonadj d k hkr (k - 1) hk2
        omega
      · apply hv
        intro k2 hk2 hc
        have he : k2 = k + 1 := by omega
        subst he
        have := kRange_nonadj d (k + 1) hk2 k hkr
        omega
    have hunf : innerLoop old new offset d (k :: ks) v
        = if old.length ≤ innerK old new offset d k v
            ∧ (new.length : Int) ≤ (innerK old new offset d k v : Int) - k
          then (vupd v (offset + k) (innerK old new offset d k v), true)
          else innerLoop old new offset d ks
            (vupd v (offset + k) (innerK old new offset d k v)) := rfl
    by_cases hbrk : old.length ≤ innerK old new offset d k v
        ∧ (new.length : Int) ≤ (innerK old new offset d k v : Int) - k
    · rw [hunf, if_pos hbrk]
      rw [hcand] at hbrk
      exact Or.inr ⟨_, k, rfl, by simp, hbrk⟩
    · rw [hunf, if_neg hbrk]
      have hv2 : ∀ j : Int, (∀ k2 ∈ kRange d, offset + k2 ≠ j)
          → vupd v (offset + k) (innerK old new offset d k v) j
            = vIter old new offset d j := by
        intro j hj
        unfold vupd
        rw [if_neg (by
          intro hc
          exact hj k hkr hc.symm)]
        exact hv j hj
      rcases ih _ (fun k2 hk2 => hsub k2 (by simp [hk2])) hv2 with
        ⟨heq, hnone⟩ | ⟨v2, k0, heq, hk0, hbrk0⟩
      · refine Or.inl ⟨heq, ?_⟩
        intro k2 hk2
        rcases List.mem_cons.mp hk2 with rfl | hk3
        · intro hb
          apply hbrk
          rw [hcand]
          exact hb
        · exact hnone k2 hk3
      · exact Or.inr ⟨v2, k0, heq, by simp [hk0], hbrk0⟩

theorem brk_of_epath (old new : List Nat) (offset : Int) {d x y : Nat}
    (h : EPath old new d x y) (hx : old.length ≤ x) (hy : new.length ≤ y) :
    ∃ d2, d2 ≤ d ∧ (d2 < d ∨ (x = old.length ∧ y = new.length))
      ∧ BrkP old new offset d2 ((old.length : Int) - new.length)
      ∧ ((old.length : Int) - new.length) ∈ kRange d2 := by
  have h1 := ep_trim_y h hy
  have h2 := ep_trim_x h1 hx
  have hb := ep_bounds h
  have hb2 := ep_bounds h2
  refine ⟨d - (y - new.length) - (x - old.length), by omega, by omega, ?_, ?_⟩
  · have hlb := cand_lb old new offset h2
    constructor
    · exact hlb
    · have : ((old.length : Nat) : Int) - new.length
          = ((old.length : Int) - (new.length : Int)) := by push_cast; ring
      omega
  · exact mem_kRange.mpr
      ⟨(old.length + (d - (y - new.length) - (x - old.length)) - new.length) / 2,
        by omega, by omega⟩

theorem outerLoop_spec (old new : List Nat) (offset : Int) :
    ∀ (fuel d : Nat) (trace : List (Int → Nat)),
      d + fuel = old.length + new.length + 1 →
      (∀ d2 < d, ∀ k ∈ kRange d2, ¬BrkP old new offset d2 k) →
      trace = (List.range d).map (vIter old new offset) →
      ∃ D vfin, d ≤ D ∧ D ≤ old.length + new.length
        ∧ outerLoop old new offset fuel d (vIter old new offset d) trace
          = ((List.range (D+1)).map (vIter old new offset), vfin)
        ∧ (∃ k0, k0 ∈ kRange D ∧ BrkP old new offset D k0)
        ∧ (∀ d2 < D, ∀ k ∈ kRange d2, ¬BrkP old new offset d2 k) := by
  intro fuel
  induction fuel with
  | zero =>
    intro d trace hfd hnb _
    exfalso
    obtain ⟨d2, hd2, _, hbrk, hmem⟩ := brk_of_epath old new offset
      (ep_full old new) (Nat.le_refl _) (Nat.le_refl _)
    exact hnb d2 (by omega) _ hmem hbrk
  | succ fuel ih =>
    intro d trace hfd hnb htr
    have hdle : d ≤ old.length + new.length := by
      rcases Nat.lt_or_ge (old.length + new.length) d with hgt | hle
      · exfalso
        obtain ⟨d2, hd2, _, hbrk, hmem⟩ := brk_of_epath old new offset
          (ep_full old new) (Nat.le_refl _) (Nat.le_refl _)
        exact hnb d2 (by omega) _ hmem hbrk
      · exact hle
    have htr2 : trace ++ [vIter old new offset d]
        = (List.range (d+1)).map (vIter old new offset) := by
      rw [htr, List.range_succ, List.map_append]
      rfl
    rcases innerLoop_gen old new offset d (kRange d) (vIter old new offset d)
        (fun k hk => hk) (fun j _ => rfl) with ⟨heq, hnone⟩ | ⟨v2, k0, heq, hk0, hbrk0⟩
    · have hres : outerLoop old new offset (fuel+1) d (vIter old new offset d) trace
          = outerLoop old new offset fuel (d+1) (vIter old new offset (d+1))
              (trace ++ [vIter old new offset d]) := by
        simp only [outerLoop]
        rw [if_pos hdle, heq]
        rfl
      obtain ⟨D, vfin, hDd, hDle, hout, hex, hprior⟩ := ih (d+1) (trace ++ [vIter old new offset d]) (by omega) (by
        intro d2 hd2 k hk
        rcases Nat.lt_or_ge d2 d with h | h
        · exact hnb d2 h k hk
        · have hde : d2 = d := by omega
          subst hde
          exact hnone k hk) htr2
      refine ⟨D, vfin, by omega, hDle, ?_, hex, hprior⟩
      rw [hres, hout]
    · have hres : outerLoop old new offset (fuel+1) d (vIter old new offset d) trace
          = (trace ++ [vIter old new offset d], v2) := by
        simp only [outerLoop]
        rw [if_pos hdle, heq]
      refine ⟨d, v2, Nat.le_refl d, hdle, ?_, ⟨k0, hk0, hbrk0⟩, hnb⟩
      rw [hres, htr2]

theorem found_exact (old new : List Nat) (offset : Int) {D : Nat} {k0 : Int}
    (hprior : ∀ d2 < D, ∀ k ∈ kRange d2, ¬BrkP old new offset d2 k)
    (hk0 : k0 ∈ kRange D) (hbrk : BrkP old new offset D k0) :
    cand old new offset D k0 = old.length
      ∧ (cand old new offset D k0 : Int) - k0 = (new.length : Int) := by
  obtain ⟨i, hi, hkeq⟩ := mem_kRange.mp hk0
  obtain ⟨yc, hy1, hy2⟩ := cand_sound old new offset D k0 ⟨i, hi, hkeq⟩
  have hxn : old.length ≤ cand old new offset D k0 := hbrk.1
  have hym : new.length ≤ yc := by
    have h2 := hbrk.2
    omega
  obtain ⟨d2, hd2le, hd2or, hbrk2, hmem2⟩ := brk_of_epath old new offset hy2 hxn hym
  rcases hd2or with hlt | ⟨hxe, hye⟩
  · exact absurd hbrk2 (hprior d2 (by omega) _ hmem2)
  · exact ⟨hxe, by omega⟩

theorem myersDiff_main (old new : List Nat) (hn : ¬old.length = 0)
    (hm : ¬new.length = 0) :
    ∃ D, D ≤ old.length + new.length
      ∧ cand old new ((old.length + new.length : Nat) : Int) D
          ((old.length : Int) - new.length) = old.length
      ∧ (∃ i : Nat, i ≤ D ∧ (old.length : Int) - new.length = -(D : Int) + 2 * i)
      ∧ myersDiff old new
        = (backLoop old new ((old.length + new.length : Nat) : Int)
            ((List.range (D+1)).reverse.map
              (vIter old new ((old.length + new.length : Nat) : Int)))
            D (old.length : Int) (new.length : Int) []).reverse := by
  obtain ⟨D, vfin, _, hDle, hout, ⟨k0, hk0, hbrk⟩, hprior⟩ :=
    outerLoop_spec old new ((old.length + new.length : Nat) : Int)
      (old.length + new.length + 1) 0 []
      (by omega) (fun d2 h => absurd h (Nat.not_lt_zero d2)) rfl
  obtain ⟨hc1, hc2⟩ := found_exact old new _ hprior hk0 hbrk
  have hk0eq : k0 = (old.length : Int) - new.length := by omega
  have hkok : ∃ i : Nat, i ≤ D ∧ (old.length : Int) - new.length = -(D : Int) + 2 * i := by
    obtain ⟨i, hi, hieq⟩ := mem_kRange.mp hk0
    exact ⟨i, hi, by omega⟩
  refine ⟨D, hDle, by rw [← hk0eq]; exact hc1, hkok, ?_⟩
  have hout2 : outerLoop old new ((old.length + new.length : Nat) : Int)
      (old.length + new.length + 1) 0 (fun _ => 0) []
      = ((List.range (D+1)).map
          (vIter old new ((old.length + new.length : Nat) : Int)), vfin) := hout
  simp only [myersDiff]
  rw [if_neg (by omega), if_neg hn, if_neg hm, hout2]
  have hlen : ((List.range (D+1)).map
      (vIter old new ((old.length + new.length : Nat) : Int))).length - 1 = D := by
    simp
  rw [hlen]
  rw [← List.map_reverse]

-- ── Backtracking: the keep-loop and projection helpers ──────────

theorem keepLoop_eq_ite (old : List Nat) (fuel : Nat) (x y px py : Int)
    (ops : List DiffEntry) :
    keepLoop old (fuel+1) x y px py ops
      = if px < x ∧ py < y
        then keepLoop old fuel (x-1) (y-1) px py
          (ops ++ [(DiffOp.K, old.getD (x-1).toNat 0)])
        else (x, y, ops) := rfl

theorem range_reverse_succ (n : Nat) :
    (List.range (n+1)).reverse = n :: (List.range n).reverse := by
  rw [List.range_succ, List.reverse_append]
  rfl

theorem keepLoop_down (old : List Nat) :
    ∀ (s fuel : Nat) (px py : Int) (ops : List DiffEntry), s < fuel →
      keepLoop old fuel (px + (s : Int)) (py + 1 + (s : Int)) px py ops
        = (px, py + 1, ops ++ ((List.range s).reverse.map
            (fun (i : Nat) => (DiffOp.K, old.getD (px + (i : Int)).toNat 0)))) := by
  intro s
  induction s with
  | zero =>
    intro fuel px py ops hf
    obtain ⟨fuel, rfl⟩ := Nat.exists_eq_succ_of_ne_zero (by omega : fuel ≠ 0)
    rw [keepLoop_eq_ite, if_neg (by push_cast; omega)]
    simp
  | succ s ih =>
    intro fuel px py ops hf
    obtain ⟨fuel, rfl⟩ := Nat.exists_eq_succ_of_ne_zero (by omega : fuel ≠ 0)
    rw [keepLoop_eq_ite, if_pos ⟨by push_cast; omega, by push_cast; omega⟩]
    rw [show px + ((s + 1 : Nat) : Int) - 1 = px + (s : Int) by push_cast; ring]
    rw [show py + 1 + ((s + 1 : Nat) : Int) - 1 = py + 1 + (s : Int) by push_cast; ring]
    rw [ih fuel px py _ (by omega)]
    rw [range_reverse_succ]
    simp [List.append_assoc]

theorem keepLoop_right (old : List Nat) :
    ∀ (s fuel : Nat) (px py : Int) (ops : List DiffEntry), s < fuel →
      keepLoop old fuel (px + 1 + (s : Int)) (py + (s : Int)) px py ops
        = (px + 1, py, ops ++ ((List.range s).reverse.map
            (fun (i : Nat) => (DiffOp.K, old.getD (px + 1 + (i : Int)).toNat 0)))) := by
  intro s
  induction s with
  | zero =>
    intro fuel px py ops hf
    obtain ⟨fuel, rfl⟩ := Nat.exists_eq_succ_of_ne_zero (by omega : fuel ≠ 0)
    rw [keepLoop_eq_ite, if_neg (by push_cast; omega)]
    simp
  | succ s ih =>
    intro fuel px py ops hf
    obtain ⟨fuel, rfl⟩ := Nat.exists_eq_succ_of_ne_zero (by omega : fuel ≠ 0)
    rw [keepLoop_eq_ite, if_pos ⟨by push_cast; omega, by push_cast; omega⟩]
    rw [show px + 1 + ((s + 1 : Nat) : Int) - 1 = px + 1 + (s : Int) by push_cast; ring]
    rw [show py + ((s + 1 : Nat) : Int) - 1 = py + (s : Int) by push_cast; ring]
    rw [ih fuel px py _ (by omega)]
    rw [range_reverse_succ]
    simp [List.append_assoc]

theorem take_getD_succ {l : List Nat} {j : Nat} (hj : j < l.length) :
    l.take (j + 1) = l.take j ++ [l.getD j 0] := by
  rw [List.take_succ, List.getElem?_eq_getElem hj]
  rw [List.getD_eq_getElem _ _ hj]
  rfl

theorem take_range_getD (l : List Nat) :
    ∀ (s j : Nat), j + s ≤ l.length →
      l.take j ++ (List.range s).map (fun i => l.getD (j + i) 0) = l.take (j + s) := by
  intro s
  induction s with
  | zero =>
    intro j _
    simp
  | succ s ih =>
    intro j hjs
    rw [List.range_succ, List.map_append]
    rw [← List.append_assoc, ih j (by omega)]
    rw [show j + (s + 1) = (j + s) + 1 by omega, take_getD_succ (by omega)]
    rfl

theorem projNew_append (a b : List DiffEntry) :
    projNew (a ++ b) = projNew a ++ projNew b := by
  unfold projNew
  rw [List.filterMap_append]

theorem projOld_append (a b : List DiffEntry) :
    projOld (a ++ b) = projOld a ++ projOld b := by
  unfold projOld
  rw [List.filterMap_append]

theorem projNew_map_K {α : Type} (l : List α) (g : α → Nat) :
    projNew (l.map (fun i => (DiffOp.K, g i))) = l.map g := by
  induction l with
  | nil => rfl
  | cons a l ih =>
    show projNew ((DiffOp.K, g a) :: l.map (fun i => (DiffOp.K, g i))) = _
    unfold projNew at ih ⊢
    rw [List.filterMap_cons]
    simp only [reduceIte]
    rw [ih]
    rfl

theorem projOld_map_K {α : Type} (l : List α) (g : α → Nat) :
    projOld (l.map (fun i => (DiffOp.K, g i))) = l.map g := by
  induction l with
  | nil => rfl
  | cons a l ih =>
    show projOld ((DiffOp.K, g a) :: l.map (fun i => (DiffOp.K, g i))) = _
    unfold projOld at ih ⊢
    rw [List.filterMap_cons]
    simp only [reduceIte]
    rw [ih]
    rfl

theorem proj_single_I (v : Nat) :
    projNew [(DiffOp.I, v)] = [v] ∧ projOld [(DiffOp.I, v)] = [] := by
  constructor <;> rfl

theorem proj_single_R (v : Nat) :
    projNew [(DiffOp.R, v)] = [] ∧ projOld [(DiffOp.R, v)] = [v] := by
  constructor <;> rfl

theorem toNat_cast (n : Nat) : ((n : Int)).toNat = n := rfl

theorem backLoop_step_I (old new : List Nat) (offset : Int) (tv : Int → Nat)
    (rest : List (Int → Nat)) (dn : Nat) (x y : Int) (acc : List DiffEntry)
    (prevK px x2 y2 : Int) (ops2 : List DiffEntry)
    (hpk : prevK = if x - y = -(dn : Int) ∨ (x - y ≠ (dn : Int)
        ∧ tv (offset + (x - y) - 1) < tv (offset + (x - y) + 1))
      then x - y + 1 else x - y - 1)
    (hpx : px = ((tv (offset + prevK) : Nat) : Int))
    (hkeep : keepLoop old (old.length + 1) x y px (px - prevK) acc = (x2, y2, ops2))
    (dm : Nat) (hdm : dn = dm + 1) (hx2 : x2 = px) :
    backLoop old new offset (tv :: rest) dn x y acc
      = backLoop old new offset rest dm x2 (y2 - 1)
          (ops2 ++ [(DiffOp.I, new.getD (y2 - 1).toNat 0)]) := by
  subst hdm
  subst hpk
  subst hpx
  simp only [backLoop]
  rw [hkeep]
  show (if 0 < dm + 1 then _ else _) = _
  rw [if_pos (by omega : 0 < dm + 1), if_pos hx2]
  rfl

theorem backLoop_step_R (old new : List Nat) (offset : Int) (tv : Int → Nat)
    (rest : List (Int → Nat)) (dn : Nat) (x y : Int) (acc : List DiffEntry)
    (prevK px x2 y2 : Int) (ops2 : List DiffEntry)
    (hpk : prevK = if x - y = -(dn : Int) ∨ (x - y ≠ (dn : Int)
        ∧ tv (offset + (x - y) - 1) < tv (offset + (x - y) + 1))
      then x - y + 1 else x - y - 1)
    (hpx : px = ((tv (offset + prevK) : Nat) : Int))
    (hkeep : keepLoop old (old.length + 1) x y px (px - prevK) acc = (x2, y2, ops2))
    (dm : Nat) (hdm : dn = dm + 1) (hx2 : ¬x2 = px) :
    backLoop old new offset (tv :: rest) dn x y acc
      = backLoop old new offset rest dm (x2 - 1) y2
          (ops2 ++ [(DiffOp.R, old.getD (x2 - 1).toNat 0)]) := by
  subst hdm
  subst hpk
  subst hpx
  simp only [backLoop]
  rw [hkeep]
  show (if 0 < dm + 1 then _ else _) = _
  rw [if_pos (by omega : 0 < dm + 1), if_neg hx2]
  rfl

theorem backLoop_step_zero (old new : List Nat) (offset : Int) (tv : Int → Nat)
    (rest : List (Int → Nat)) (x y : Int) (acc : List DiffEntry)
    (prevK px x2 y2 : Int) (ops2 : List DiffEntry)
    (hpk : prevK = if x - y = -((0 : Nat) : Int) ∨ (x - y ≠ ((0 : Nat) : Int)
        ∧ tv (offset + (x - y) - 1) < tv (offset + (x - y) + 1))
      then x - y + 1 else x - y - 1)
    (hpx : px = ((tv (offset + prevK) : Nat) : Int))
    (hkeep : keepLoop old (old.length + 1) x y px (px - prevK) acc = (x2, y2, ops2)) :
    backLoop old new offset (tv :: rest) 0 x y acc
      = backLoop old new offset rest (0 - 1) x2 y2 ops2 := by
  subst hpk
  subst hpx
  simp only [backLoop]
  rw [hkeep]
  show (if 0 < 0 then _ else _) = _
  rw [if_neg (by omega)]

theorem back_spec (old new : List Nat) (offset : Int) :
    ∀ (d : Nat) (x y : Nat) (acc : List DiffEntry),
      x ≤ old.length → y ≤ new.length →
      (∃ i : Nat, i ≤ d ∧ (x : Int) - y = -(d : Int) + 2 * i) →
      cand old new offset d ((x : Int) - y) = x →
      ∃ E, backLoop old new offset
          ((List.range (d+1)).reverse.map (vIter old new offset)) d
          (x : Int) (y : Int) acc
        = acc ++ E
        ∧ projNew E.reverse = new.take y
        ∧ projOld E.reverse = old.take x := by
  intro d
  induction d with
  | zero =>
    intro x y acc hxn hym hkok hcand
    obtain ⟨i, hi, hkeq⟩ := hkok
    have hxy : x = y := by omega
    subst hxy
    rw [show (x : Int) - (x : Int) = 0 by ring, cand_zero] at hcand
    obtain ⟨s, hs1, hrun, _⟩ := snake_run_full old new (old.length + 1) 0 0 (by omega)
    rw [hs1] at hcand
    have hsx : s = x := by omega
    subst hsx
    have hlist : ((List.range (0+1)).reverse.map (vIter old new offset))
        = [vIter old new offset 0] := rfl
    rw [hlist]
    have hC : (s : Int) - (s : Int) = -((0 : Nat) : Int) ∨ ((s : Int) - s ≠ ((0 : Nat) : Int)
        ∧ vIter old new offset 0 (offset + ((s : Int) - s) - 1)
          < vIter old new offset 0 (offset + ((s : Int) - s) + 1)) :=
      Or.inl (by push_cast; ring)
    have hkeep : keepLoop old (old.length + 1) (s : Int) (s : Int) 0
        (0 - ((s : Int) - s + 1)) acc
        = (0, 0 - ((s : Int) - s + 1) + 1, acc ++ (List.range s).reverse.map
            (fun (i : Nat) => (DiffOp.K, old.getD ((0 : Int) + (i : Int)).toNat 0))) := by
      have h0 := keepLoop_down old s (old.length + 1) 0 (-1) acc (by omega)
      rw [show (0 : Int) + (s : Int) = (s : Int) by ring,
        show (-1 : Int) + 1 + (s : Int) = (s : Int) by ring] at h0
      rw [show (0 : Int) - ((s : Int) - s + 1) = -1 by ring]
      exact h0
    rw [backLoop_step_zero old new offset (vIter old new offset 0) []
      (s : Int) (s : Int) acc ((s : Int) - s + 1) 0 0
      (0 - ((s : Int) - s + 1) + 1)
      (acc ++ (List.range s).reverse.map
        (fun (i : Nat) => (DiffOp.K, old.getD ((0 : Int) + (i : Int)).toNat 0)))
      (by rw [if_pos hC]) (by rfl) hkeep]
    refine ⟨(List.range s).reverse.map
      (fun (i : Nat) => (DiffOp.K, old.getD ((0 : Int) + (i : Int)).toNat 0)), rfl, ?_, ?_⟩
    · have hkR : ((List.range s).reverse.map
          (fun (i : Nat) => (DiffOp.K, old.getD ((0 : Int) + (i : Int)).toNat 0))).reverse
          = (List.range s).map
            (fun (i : Nat) => (DiffOp.K, old.getD ((0 : Int) + (i : Int)).toNat 0)) := by
        rw [← List.map_reverse, List.reverse_reverse]
      rw [hkR, projNew_map_K]
      have hmap : (List.range s).map (fun (i : Nat) => old.getD ((0 : Int) + (i : Int)).toNat 0)
          = (List.range s).map (fun i => new.getD (0 + i) 0) := by
        apply List.map_congr_left
        intro i hi
        have hilt := List.mem_range.mp hi
        obtain ⟨_, _, _, heq⟩ := hrun i hilt
        rw [show ((0 : Int) + (i : Int)).toNat = 0 + i by omega]
        rw [heq]
        congr 1
        all_goals omega
      rw [hmap]
      have ht := take_range_getD new s 0 (by omega)
      rw [List.take_zero, List.nil_append] at ht
      rw [ht, Nat.zero_add]
    · have hkR : ((List.range s).reverse.map
          (fun (i : Nat) => (DiffOp.K, old.getD ((0 : Int) + (i : Int)).toNat 0))).reverse
          = (List.range s).map
            (fun (i : Nat) => (DiffOp.K, old.getD ((0 : Int) + (i : Int)).toNat 0)) := by
        rw [← List.map_reverse, List.reverse_reverse]
      rw [hkR, projOld_map_K]
      have hmap : (List.range s).map (fun (i : Nat) => old.getD ((0 : Int) + (i : Int)).toNat 0)
          = (List.range s).map (fun i => old.getD (0 + i) 0) := by
        apply List.map_congr_left
        intro i hi
        rw [show ((0 : Int) + (i : Int)).toNat = 0 + i by omega]
      rw [hmap]
      have ht := take_range_getD old s 0 (by omega)
      rw [List.take_zero, List.nil_append] at ht
      rw [ht, Nat.zero_add]
  | succ d ih =>
    intro x y acc hxn hym hkok hcand
    obtain ⟨xs, hxs, hcases⟩ := cand_succ_cases old new offset d hkok
    rw [hxs] at hcand
    obtain ⟨s, hs1, hrun, _⟩ := snake_run_full old new (old.length + 1) xs
      ((xs : Int) - ((x : Int) - y)) (by omega)
    rw [hs1] at hcand
    have hlist : ((List.range (d+1+1)).reverse.map (vIter old new offset))
        = vIter old new offset (d+1)
          :: ((List.range (d+1)).reverse.map (vIter old new offset)) := by
      rw [range_reverse_succ]
      rfl
    rw [hlist]
    rcases hcases with ⟨hm, hxseq, hC⟩ | ⟨hm, hxseq, hC⟩
    · -- down move: previous point is on diagonal k+1
      obtain ⟨j, hj, hjeq⟩ := mem_kRange.mp hm
      obtain ⟨yp, hyp1, _⟩ := cand_sound old new offset d ((x : Int) - y + 1) ⟨j, hj, hjeq⟩
      rw [← hxseq] at hyp1
      have hyy : y = yp + 1 + s := by omega
      have hkeep : keepLoop old (old.length + 1) (x : Int) (y : Int)
          (xs : Int) ((xs : Int) - ((x : Int) - y + 1)) acc
          = ((xs : Int), (xs : Int) - ((x : Int) - y + 1) + 1,
             acc ++ (List.range s).reverse.map (fun (i : Nat) =>
               (DiffOp.K, old.getD ((xs : Int) + (i : Int)).toNat 0))) := by
        have h0 := keepLoop_down old s (old.length + 1) (xs : Int)
          ((xs : Int) - ((x : Int) - y + 1)) acc (by omega)
        rw [show ((xs : Int) + (s : Int)) = (x : Int) by push_cast; omega] at h0
        rw [show ((xs : Int) - ((x : Int) - y + 1) + 1 + (s : Int)) = (y : Int) by
          push_cast; omega] at h0
        exact h0
      rw [backLoop_step_I old new offset (vIter old new offset (d+1))
        ((List.range (d+1)).reverse.map (vIter old new offset)) (d+1)
        (x : Int) (y : Int) acc ((x : Int) - y + 1) (xs : Int) (xs : Int)
        ((xs : Int) - ((x : Int) - y + 1) + 1)
        (acc ++ (List.range s).reverse.map (fun (i : Nat) =>
          (DiffOp.K, old.getD ((xs : Int) + (i : Int)).toNat 0)))
        (by rw [if_pos hC]) (by rw [vIter_succ_at old new offset d hm, ← hxseq]) hkeep
        d rfl rfl]
      rw [show (xs : Int) - ((x : Int) - y + 1) + 1 - 1 = ((yp : Nat) : Int) by omega]
      rw [toNat_cast]
      obtain ⟨E2, hE2, hpN, hpO⟩ := ih xs yp
        ((acc ++ (List.range s).reverse.map (fun (i : Nat) =>
          (DiffOp.K, old.getD ((xs : Int) + (i : Int)).toNat 0)))
          ++ [(DiffOp.I, new.getD yp 0)])
        (by omega) (by omega)
        ⟨j, hj, by omega⟩
        (by
          rw [show (xs : Int) - (yp : Int) = (x : Int) - y + 1 by omega]
          exact hxseq.symm)
      refine ⟨(List.range s).reverse.map (fun (i : Nat) =>
          (DiffOp.K, old.getD ((xs : Int) + (i : Int)).toNat 0))
          ++ [(DiffOp.I, new.getD yp 0)] ++ E2, ?_, ?_, ?_⟩
      · rw [hE2]
        simp [List.append_assoc]
      · rw [show ((List.range s).reverse.map (fun (i : Nat) =>
            (DiffOp.K, old.getD ((xs : Int) + (i : Int)).toNat 0))
            ++ [(DiffOp.I, new.getD yp 0)] ++ E2).reverse
            = E2.reverse ++ [(DiffOp.I, new.getD yp 0)]
              ++ ((List.range s).reverse.map (fun (i : Nat) =>
                (DiffOp.K, old.getD ((xs : Int) + (i : Int)).toNat 0))).reverse by
          simp [List.reverse_append]]
        rw [projNew_append, projNew_append, hpN]
        rw [show projNew [(DiffOp.I, new.getD yp 0)] = [new.getD yp 0] from rfl]
        rw [show ((List.range s).reverse.map (fun (i : Nat) =>
            (DiffOp.K, old.getD ((xs : Int) + (i : Int)).toNat 0))).reverse
            = (List.range s).map (fun (i : Nat) =>
              (DiffOp.K, old.getD ((xs : Int) + (i : Int)).toNat 0)) by
          rw [← List.map_reverse, List.reverse_reverse]]
        rw [projNew_map_K]
        rw [show (List.range s).map (fun (i : Nat) => old.getD ((xs : Int) + (i : Int)).toNat 0)
            = (List.range s).map (fun i => new.getD (yp + 1 + i) 0) by
          apply List.map_congr_left
          intro i hi
          have hilt := List.mem_range.mp hi
          obtain ⟨_, _, _, heq⟩ := hrun i hilt
          rw [show ((xs : Int) + (i : Int)).toNat = xs + i by omega]
          rw [heq]
          congr 1
          all_goals omega]
        rw [show new.take y = new.take ((yp + 1) + s) by rw [hyy]]
        rw [← take_range_getD new s (yp + 1) (by omega)]
        rw [take_getD_succ (show yp < new.length by omega)]
      · rw [show ((List.range s).reverse.map (fun (i : Nat) =>
            (DiffOp.K, old.getD ((xs : Int) + (i : Int)).toNat 0))
            ++ [(DiffOp.I, new.getD yp 0)] ++ E2).reverse
            = E2.reverse ++ [(DiffOp.I, new.getD yp 0)]
              ++ ((List.range s).reverse.map (fun (i : Nat) =>
                (DiffOp.K, old.getD ((xs : Int) + (i : Int)).toNat 0))).reverse by
          simp [List.reverse_append]]
        rw [projOld_append, projOld_append, hpO]
        rw [show projOld [(DiffOp.I, new.getD yp 0)] = [] from rfl]
        rw [show ((List.range s).reverse.map (fun (i : Nat) =>
            (DiffOp.K, old.getD ((xs : Int) + (i : Int)).toNat 0))).reverse
            = (List.range s).map (fun (i : Nat) =>
              (DiffOp.K, old.getD ((xs : Int) + (i : Int)).toNat 0)) by
          rw [← List.map_reverse, List.reverse_reverse]]
        rw [projOld_map_K]
        rw [show (List.range s).map (fun (i : Nat) => old.getD ((xs : Int) + (i : Int)).toNat 0)
            = (List.range s).map (fun i => old.getD (xs + i) 0) by
          apply List.map_congr_left
          intro i hi
          rw [show ((xs : Int) + (i : Int)).toNat = xs + i by omega]]
        rw [show old.take x = old.take (xs + s) by rw [← hcand]]
        rw [← take_range_getD old s xs (by omega)]
        simp
    · -- right move: previous point is on diagonal k-1
      obtain ⟨j, hj, hjeq⟩ := mem_kRange.mp hm
      obtain ⟨yp, hyp1, _⟩ := cand_sound old new offset d ((x : Int) - y - 1) ⟨j, hj, hjeq⟩
      have hyy : y = yp + s := by omega
      have hkeep : keepLoop old (old.length + 1) (x : Int) (y : Int)
          ((cand old new offset d ((x : Int) - y - 1) : Int))
          ((cand old new offset d ((x : Int) - y - 1) : Int) - ((x : Int) - y - 1)) acc
          = ((cand old new offset d ((x : Int) - y - 1) : Int) + 1,
             (cand old new offset d ((x : Int) - y - 1) : Int) - ((x : Int) - y - 1),
             acc ++ (List.range s).reverse.map (fun (i : Nat) =>
               (DiffOp.K, old.getD ((cand old new offset d ((x : Int) - y - 1) : Int)
                 + 1 + (i : Int)).toNat 0))) := by
        have h0 := keepLoop_right old s (old.length + 1)
          ((cand old new offset d ((x : Int) - y - 1) : Int))
          ((cand old new offset d ((x : Int) - y - 1) : Int) - ((x : Int) - y - 1)) acc
          (by omega)
        rw [show ((cand old new offset d ((x : Int) - y - 1) : Int) + 1 + (s : Int))
            = (x : Int) by push_cast; omega] at h0
        rw [show ((cand old new offset d ((x : Int) - y - 1) : Int)
            - ((x : Int) - y - 1) + (s : Int)) = (y : Int) by push_cast; omega] at h0
        exact h0
      rw [backLoop_step_R old new offset (vIter old new offset (d+1))
        ((List.range (d+1)).reverse.map (vIter old new offset)) (d+1)
        (x : Int) (y : Int) acc ((x : Int) - y - 1)
        ((cand old new offset d ((x : Int) - y - 1) : Int))
        ((cand old new offset d ((x : Int) - y - 1) : Int) + 1)
        ((cand old new offset d ((x : Int) - y - 1) : Int) - ((x : Int) - y - 1))
        (acc ++ (List.range s).reverse.map (fun (i : Nat) =>
          (DiffOp.K, old.getD ((cand old new offset d ((x : Int) - y - 1) : Int)
            + 1 + (i : Int)).toNat 0)))
        (by rw [if_neg hC]) (by rw [vIter_succ_at old new offset d hm]) hkeep
        d rfl (by omega)]
      rw [show (cand old new offset d ((x : Int) - y - 1) : Int) + 1 - 1
          = ((cand old new offset d ((x : Int) - y - 1) : Nat) : Int) by ring]
      rw [toNat_cast]
      rw [show (cand old new offset d ((x : Int) - y - 1) : Int) - ((x : Int) - y - 1)
          = ((yp : Nat) : Int) by omega]
      obtain ⟨E2, hE2, hpN, hpO⟩ := ih (cand old new offset d ((x : Int) - y - 1)) yp
        ((acc ++ (List.range s).reverse.map (fun (i : Nat) =>
          (DiffOp.K, old.getD ((cand old new offset d ((x : Int) - y - 1) : Int)
            + 1 + (i : Int)).toNat 0)))
          ++ [(DiffOp.R, old.getD (cand old new offset d ((x : Int) - y - 1)) 0)])
        (by omega) (by omega)
        ⟨j, hj, by omega⟩
        (by rw [show ((cand old new offset d ((x : Int) - y - 1) : Nat) : Int) - (yp : Int)
            = (x : Int) - y - 1 by omega])
      refine ⟨(List.range s).reverse.map (fun (i : Nat) =>
          (DiffOp.K, old.getD ((cand old new offset d ((x : Int) - y - 1) : Int)
            + 1 + (i : Int)).toNat 0))
          ++ [(DiffOp.R, old.getD (cand old new offset d ((x : Int) - y - 1)) 0)]
          ++ E2, ?_, ?_, ?_⟩
      · rw [hE2]
        simp [List.append_assoc]
      · rw [show ((List.range s).reverse.map (fun (i : Nat) =>
            (DiffOp.K, old.getD ((cand old new offset d ((x : Int) - y - 1) : Int)
              + 1 + (i : Int)).toNat 0))
            ++ [(DiffOp.R, old.getD (cand old new offset d ((x : Int) - y - 1)) 0)]
            ++ E2).reverse
            = E2.reverse
              ++ [(DiffOp.R, old.getD (cand old new offset d ((x : Int) - y - 1)) 0)]
              ++ ((List.range s).reverse.map (fun (i : Nat) =>
                (DiffOp.K, old.getD ((cand old new offset d ((x : Int) - y - 1) : Int)
                  + 1 + (i : Int)).toNat 0))).reverse by
          simp [List.reverse_append]]
        rw [projNew_append, projNew_append, hpN]
        rw [show projNew [(DiffOp.R, old.getD
          (cand old new offset d ((x : Int) - y - 1)) 0)] = [] from rfl]
        rw [show ((List.range s).reverse.map (fun (i : Nat) =>
            (DiffOp.K, old.getD ((cand old new offset d ((x : Int) - y - 1) : Int)
              + 1 + (i : Int)).toNat 0))).reverse
            = (List.range s).map (fun (i : Nat) =>
              (DiffOp.K, old.getD ((cand old new offset d ((x : Int) - y - 1) : Int)
                + 1 + (i : Int)).toNat 0)) by
          rw [← List.map_reverse, List.reverse_reverse]]
        rw [projNew_map_K]
        rw [show (List.range s).map (fun (i : Nat) =>
            old.getD ((cand old new offset d ((x : Int) - y - 1) : Int)
              + 1 + (i : Int)).toNat 0)
            = (List.range s).map (fun i => new.getD (yp + i) 0) by
          apply List.map_congr_left
          intro i hi
          have hilt := List.mem_range.mp hi
          obtain ⟨_, _, _, heq⟩ := hrun i hilt
          rw [show ((cand old new offset d ((x : Int) - y - 1) : Int)
            + 1 + (i : Int)).toNat = xs + i by omega]
          rw [heq]
          congr 1
          all_goals omega]
        rw [show new.take y = new.take (yp + s) by rw [hyy]]
        rw [← take_range_getD new s yp (by omega)]
        simp
      · rw [show ((List.range s).reverse.map (fun (i : Nat) =>
            (DiffOp.K, old.getD ((cand old new offset d ((x : Int) - y - 1) : Int)
              + 1 + (i : Int)).toNat 0))
            ++ [(DiffOp.R, old.getD (cand old new offset d ((x : Int) - y - 1)) 0)]
            ++ E2).reverse
            = E2.reverse
              ++ [(DiffOp.R, old.getD (cand old new offset d ((x : Int) - y - 1)) 0)]
              ++ ((List.range s).reverse.map (fun (i : Nat) =>
                (DiffOp.K, old.getD ((cand old new offset d ((x : Int) - y - 1) : Int)
                  + 1 + (i : Int)).toNat 0))).reverse by
          simp [List.reverse_append]]
        rw [projOld_append, projOld_append, hpO]
        rw [show projOld [(DiffOp.R, old.getD
            (cand old new offset d ((x : Int) - y - 1)) 0)]
          = [old.getD (cand old new offset d ((x : Int) - y - 1)) 0] from rfl]
        rw [show ((List.range s).reverse.map (fun (i : Nat) =>
            (DiffOp.K, old.getD ((cand old new offset d ((x : Int) - y - 1) : Int)
              + 1 + (i : Int)).toNat 0))).reverse
            = (List.range s).map (fun (i : Nat) =>
              (DiffOp.K, old.getD ((cand old new offset d ((x : Int) - y - 1) : Int)
                + 1 + (i : Int)).toNat 0)) by
          rw [← List.map_reverse, List.reverse_reverse]]
        rw [projOld_map_K]
        rw [show (List.range s).map (fun (i : Nat) =>
            old.getD ((cand old new offset d ((x : Int) - y - 1) : Int)
              + 1 + (i : Int)).toNat 0)
            = (List.range s).map (fun i =>
              old.getD ((cand old new offset d ((x : Int) - y - 1) + 1) + i) 0) by
          apply List.map_congr_left
          intro i hi
          rw [show ((cand old new offset d ((x : Int) - y - 1) : Int)
            + 1 + (i : Int)).toNat
            = (cand old new offset d ((x : Int) - y - 1) + 1) + i by omega]]
        rw [show old.take x
            = old.take ((cand old new offset d ((x : Int) - y - 1) + 1) + s) by
          congr 1
          omega]
        rw [← take_range_getD old s
          (cand old new offset d ((x : Int) - y - 1) + 1) (by omega)]
        rw [take_getD_succ (show cand old new offset d ((x : Int) - y - 1)
          < old.length by omega)]

theorem projNew_map_I (l : List Nat) :
    projNew (l.map (fun v => (DiffOp.I, v))) = l := by
  induction l with
  | nil => rfl
  | cons a l ih =>
    show projNew ((DiffOp.I, a) :: l.map (fun v => (DiffOp.I, v))) = a :: l
    unfold projNew at ih ⊢
    rw [List.filterMap_cons]
    rw [show (if (DiffOp.I : DiffOp) = DiffOp.R then (none : Option Nat) else some a)
      = some a from rfl]
    show a :: _ = a :: l
    rw [ih]

theorem projOld_map_I (l : List Nat) :
    projOld (l.map (fun v => (DiffOp.I, v))) = [] := by
  induction l with
  | nil => rfl
  | cons a l ih =>
    show projOld ((DiffOp.I, a) :: l.map (fun v => (DiffOp.I, v))) = []
    unfold projOld at ih ⊢
    rw [List.filterMap_cons]
    simp only [reduceIte]
    rw [ih]

theorem projNew_map_R (l : List Nat) :
    projNew (l.map (fun v => (DiffOp.R, v))) = [] := by
  induction l with
  | nil => rfl
  | cons a l ih =>
    show projNew ((DiffOp.R, a) :: l.map (fun v => (DiffOp.R, v))) = []
    unfold projNew at ih ⊢
    rw [List.filterMap_cons]
    simp only [reduceIte]
    rw [ih]

theorem projOld_map_R (l : List Nat) :
    projOld (l.map (fun v => (DiffOp.R, v))) = l := by
  induction l with
  | nil => rfl
  | cons a l ih =>
    show projOld ((DiffOp.R, a) :: l.map (fun v => (DiffOp.R, v))) = a :: l
    unfold projOld at ih ⊢
    rw [List.filterMap_cons]
    rw [show (if (DiffOp.R : DiffOp) = DiffOp.I then (none : Option Nat) else some a)
      = some a from rfl]
    show a :: _ = a :: l
    rw [ih]

/-- The keep/insert entries of the diff spell out the new array. -/
theorem myersDiff_projNew (old new : List Nat) :
    projNew (myersDiff old new) = new := by
  by_cases hn : old.length = 0
  · by_cases hm : new.length = 0
    · have he : myersDiff old new = [] := by
        simp only [myersDiff]
        rw [if_pos ⟨hn, hm⟩]
      rw [he, List.length_eq_zero.mp hm]
      rfl
    · have he : myersDiff old new = new.map (fun v => (DiffOp.I, v)) := by
        simp only [myersDiff]
        rw [if_neg (by intro hc; exact hm hc.2), if_pos hn]
      rw [he, projNew_map_I]
  · by_cases hm : new.length = 0
    · have he : myersDiff old new = old.map (fun v => (DiffOp.R, v)) := by
        simp only [myersDiff]
        rw [if_neg (by intro hc; exact hn hc.1), if_neg hn, if_pos hm]
      rw [he, projNew_map_R, List.length_eq_zero.mp hm]
    · obtain ⟨D, hDle, hcand, hkok, heq⟩ := myersDiff_main old new hn hm
      rw [heq]
      obtain ⟨E, hE, hpN, _⟩ := back_spec old new _ D old.length new.length []
        (Nat.le_refl _) (Nat.le_refl _) hkok hcand
      rw [hE, List.nil_append, hpN, List.take_length]

/-- The keep/remove entries of the diff spell out the old array. -/
theorem myersDiff_projOld (old new : List Nat) :
    projOld (myersDiff old new) = old := by
  by_cases hn : old.length = 0
  · by_cases hm : new.length = 0
    · have he : myersDiff old new = [] := by
        simp only [myersDiff]
        rw [if_pos ⟨hn, hm⟩]
      rw [he, List.length_eq_zero.mp hn]
      rfl
    · have he : myersDiff old new = new.map (fun v => (DiffOp.I, v)) := by
        simp only [myersDiff]
        rw [if_neg (by intro hc; exact hm hc.2), if_pos hn]
      rw [he, projOld_map_I, List.length_eq_zero.mp hn]
  · by_cases hm : new.length = 0
    · have he : myersDiff old new = old.map (fun v => (DiffOp.R, v)) := by
        simp only [myersDiff]
        rw [if_neg (by intro hc; exact hn hc.1), if_neg hn, if_pos hm]
      rw [he, projOld_map_R]
    · obtain ⟨D, hDle, hcand, hkok, heq⟩ := myersDiff_main old new hn hm
      rw [heq]
      obtain ⟨E, hE, _, hpO⟩ := back_spec old new _ D old.length new.length []
        (Nat.le_refl _) (Nat.le_refl _) hkok hcand
      rw [hE, List.nil_append, hpO, List.take_length]

-- ── diffPermutations ────────────────────────────────────────────

/-- The per-permutation merge loop body of `diffPermutations`: walk the diff,
pushing every value, and thread `currentIndex` through the old conditions. -/
def applyDiff (conds : List (List Nat)) (flagList : List Nat) :
    List DiffEntry → Nat → List Nat × List (List Nat)
  | [], _ => ([], [])
  | (op, val) :: rest, ci =>
    match op with
    | DiffOp.I =>
      let r := applyDiff conds flagList rest ci
      (val :: r.1, flagList :: r.2)
    | DiffOp.R =>
      let r := applyDiff conds flagList rest (ci+1)
      (val :: r.1, conds.getD ci [] :: r.2)
    | DiffOp.K =>
      let r := applyDiff conds flagList rest (ci+1)
      (val :: r.1, (conds.getD ci [] ++ flagList) :: r.2)

/-- The `for p` loop of `diffPermutations`. -/
def diffPermsLoop : List (List Nat × List Nat) → List Nat × List (List Nat)
    → List Nat × List (List Nat)
  | [], st => st
  | (code, flagList) :: rest, st =>
    diffPermsLoop rest (applyDiff st.2 flagList (myersDiff st.1 code) 0)

/-- `diffPermutations`, with the codes and flag lists passed side by side. -/
def diffPermutations (codes flags : List (List Nat)) :
    List Nat × List (List Nat) :=
  diffPermsLoop (codes.zip flags) ([], [])

/-- The subsequence of lines whose condition list contains the flag
assignment `f`. -/
def filterFlag (f : Nat) (st : List Nat × List (List Nat)) : List Nat :=
  (st.1.zip st.2).filterMap (fun lc => if f ∈ lc.2 then some lc.1 else none)

theorem applyDiff_lengths (conds : List (List Nat)) (flagList : List Nat) :
    ∀ (diff : List DiffEntry) (ci : Nat),
      (applyDiff conds flagList diff ci).1.length = diff.length
      ∧ (applyDiff conds flagList diff ci).2.length = diff.length := by
  intro diff
  induction diff with
  | nil =>
    intro ci
    exact ⟨rfl, rfl⟩
  | cons e rest ih =>
    obtain ⟨op, val⟩ := e
    intro ci
    cases op
    · have := ih (ci+1)
      constructor <;> (show _ + 1 = _ + 1; omega)
    · have := ih ci
      constructor <;> (show _ + 1 = _ + 1; omega)
    · have := ih (ci+1)
      constructor <;> (show _ + 1 = _ + 1; omega)

theorem filterFlag_applyDiff_new {conds : List (List Nat)} {flagList : List Nat}
    {f : Nat} (hf : f ∈ flagList) (hfresh : ∀ c ∈ conds, f ∉ c) :
    ∀ (diff : List DiffEntry) (ci : Nat),
      filterFlag f (applyDiff conds flagList diff ci) = projNew diff := by
  intro diff
  induction diff with
  | nil =>
    intro ci
    rfl
  | cons e rest ih =>
    obtain ⟨op, val⟩ := e
    intro ci
    cases op
    · -- keep: condition is old ++ flagList, contains f
      show filterFlag f (val :: (applyDiff conds flagList rest (ci+1)).1,
        (conds.getD ci [] ++ flagList) :: (applyDiff conds flagList rest (ci+1)).2) = _
      unfold filterFlag
      rw [show ((val :: (applyDiff conds flagList rest (ci+1)).1).zip
          ((conds.getD ci [] ++ flagList) :: (applyDiff conds flagList rest (ci+1)).2))
          = (val, conds.getD ci [] ++ flagList)
            :: ((applyDiff conds flagList rest (ci+1)).1.zip
              (applyDiff conds flagList rest (ci+1)).2) from rfl]
      rw [List.filterMap_cons]
      rw [show (if f ∈ (val, conds.getD ci [] ++ flagList).2
          then some (val, conds.getD ci [] ++ flagList).1 else none)
        = some val from if_pos (List.mem_append.mpr (Or.inr hf))]
      show val :: filterFlag f (applyDiff conds flagList rest (ci+1)) = _
      rw [ih (ci+1)]
      rfl
    · -- insert: condition is flagList, contains f
      show filterFlag f (val :: (applyDiff conds flagList rest ci).1,
        flagList :: (applyDiff conds flagList rest ci).2) = _
      unfold filterFlag
      rw [show ((val :: (applyDiff conds flagList rest ci).1).zip
          (flagList :: (applyDiff conds flagList rest ci).2))
          = (val, flagList) :: ((applyDiff conds flagList rest ci).1.zip
            (applyDiff conds flagList rest ci).2) from rfl]
      rw [List.filterMap_cons]
      rw [show (if f ∈ (val, flagList).2 then some (val, flagList).1 else none)
        = some val from if_pos hf]
      show val :: filterFlag f (applyDiff conds flagList rest ci) = _
      rw [ih ci]
      rfl
    · -- remove: condition is the old one, does not contain f
      show filterFlag f (val :: (applyDiff conds flagList rest (ci+1)).1,
        conds.getD ci [] :: (applyDiff conds flagList rest (ci+1)).2) = _
      unfold filterFlag
      rw [show ((val :: (applyDiff conds flagList rest (ci+1)).1).zip
          (conds.getD ci [] :: (applyDiff conds flagList rest (ci+1)).2))
          = (val, conds.getD ci [])
            :: ((applyDiff conds flagList rest (ci+1)).1.zip
              (applyDiff conds flagList rest (ci+1)).2) from rfl]
      rw [List.filterMap_cons]
      have hnm : f ∉ conds.getD ci [] := by
        rcases Nat.lt_or_ge ci conds.length with hci | hci
        · refine hfresh _ ?_
          rw [List.getD_eq_getElem _ _ hci]
          exact List.getElem_mem _
        · rw [List.getD_eq_default _ _ hci]
          exact List.not_mem_nil f
      rw [show (if f ∈ (val, conds.getD ci []).2
          then some (val, conds.getD ci []).1 else none) = none from if_neg hnm]
      show filterFlag f (applyDiff conds flagList rest (ci+1)) = _
      rw [ih (ci+1)]
      rfl

theorem filterFlag_applyDiff_old {conds : List (List Nat)} {flagList : List Nat}
    {f : Nat} (hf : f ∉ flagList) :
    ∀ (diff : List DiffEntry) (ci : Nat),
      ci + (projOld diff).length ≤ conds.length →
      filterFlag f (applyDiff conds flagList diff ci)
        = ((projOld diff).zip (conds.drop ci)).filterMap
            (fun lc => if f ∈ lc.2 then some lc.1 else none) := by
  intro diff
  induction diff with
  | nil =>
    intro ci hlen
    rfl
  | cons e rest ih =>
    obtain ⟨op, val⟩ := e
    intro ci hlen
    cases op
    · -- keep
      have hpo : projOld ((DiffOp.K, val) :: rest) = val :: projOld rest := rfl
      rw [hpo] at hlen
      have hci : ci < conds.length := by
        have := hlen
        simp only [List.length_cons] at this
        omega
      show filterFlag f (val :: (applyDiff conds flagList rest (ci+1)).1,
        (conds.getD ci [] ++ flagList) :: (applyDiff conds flagList rest (ci+1)).2) = _
      unfold filterFlag
      rw [show ((val :: (applyDiff conds flagList rest (ci+1)).1).zip
          ((conds.getD ci [] ++ flagList) :: (applyDiff conds flagList rest (ci+1)).2))
          = (val, conds.getD ci [] ++ flagList)
            :: ((applyDiff conds flagList rest (ci+1)).1.zip
              (applyDiff conds flagList rest (ci+1)).2) from rfl]
      rw [List.filterMap_cons]
      rw [hpo, List.drop_eq_getElem_cons hci]
      rw [show ((val :: projOld rest).zip (conds[ci] :: conds.drop (ci+1)))
          = (val, conds[ci]) :: ((projOld rest).zip (conds.drop (ci+1))) from rfl]
      rw [List.filterMap_cons]
      have hgd : conds.getD ci [] = conds[ci] := List.getD_eq_getElem _ _ hci
      have hmem : (f ∈ conds.getD ci [] ++ flagList) ↔ (f ∈ conds[ci]) := by
        rw [hgd]
        constructor
        · intro h
          rcases List.mem_append.mp h with h | h
          · exact h
          · exact absurd h hf
        · intro h
          exact List.mem_append.mpr (Or.inl h)
      have hrec := ih (ci+1) (by simp only [List.length_cons] at hlen; omega)
      by_cases hc : f ∈ conds[ci]
      · rw [show (if f ∈ (val, conds.getD ci [] ++ flagList).2
            then some (val, conds.getD ci [] ++ flagList).1 else none)
          = some val from if_pos (hmem.mpr hc)]
        rw [show (if f ∈ (val, conds[ci]).2 then some (val, conds[ci]).1 else none)
          = some val from if_pos hc]
        show val :: filterFlag f (applyDiff conds flagList rest (ci+1)) = _
        rw [hrec]
      · rw [show (if f ∈ (val, conds.getD ci [] ++ flagList).2
            then some (val, conds.getD ci [] ++ flagList).1 else none)
          = none from if_neg (fun h => hc (hmem.mp h))]
        rw [show (if f ∈ (val, conds[ci]).2 then some (val, conds[ci]).1 else none)
          = none from if_neg hc]
        show filterFlag f (applyDiff conds flagList rest (ci+1)) = _
        rw [hrec]
    · -- insert: f not in flagList, entry dropped on both sides
      have hpo : projOld ((DiffOp.I, val) :: rest) = projOld rest := rfl
      rw [hpo] at hlen
      show filterFlag f (val :: (applyDiff conds flagList rest ci).1,
        flagList :: (applyDiff conds flagList rest ci).2) = _
      unfold filterFlag
      rw [show ((val :: (applyDiff conds flagList rest ci).1).zip
          (flagList :: (applyDiff conds flagList rest ci).2))
          = (val, flagList) :: ((applyDiff conds flagList rest ci).1.zip
            (applyDiff conds flagList rest ci).2) from rfl]
      rw [List.filterMap_cons]
      rw [show (if f ∈ (val, flagList).2 then some (val, flagList).1 else none)
        = none from if_neg hf]
      show filterFlag f (applyDiff conds flagList rest ci) = _
      rw [ih ci hlen, hpo]
    · -- remove
      have hpo : projOld ((DiffOp.R, val) :: rest) = val :: projOld rest := rfl
      rw [hpo] at hlen
      have hci : ci < conds.length := by
        simp only [List.length_cons] at hlen
        omega
      show filterFlag f (val :: (applyDiff conds flagList rest (ci+1)).1,
        conds.getD ci [] :: (applyDiff conds flagList rest (ci+1)).2) = _
      unfold filterFlag
      rw [show ((val :: (applyDiff conds flagList rest (ci+1)).1).zip
          (conds.getD ci [] :: (applyDiff conds flagList rest (ci+1)).2))
          = (val, conds.getD ci [])
            :: ((applyDiff conds flagList rest (ci+1)).1.zip
              (applyDiff conds flagList rest (ci+1)).2) from rfl]
      rw [List.filterMap_cons]
      rw [hpo, List.drop_eq_getElem_cons hci]
      rw [show ((val :: projOld rest).zip (conds[ci] :: conds.drop (ci+1)))
          = (val, conds[ci]) :: ((projOld rest).zip (conds.drop (ci+1))) from rfl]
      rw [List.filterMap_cons]
      have hgd : conds.getD ci [] = conds[ci] := List.getD_eq_getElem _ _ hci
      have hrec := ih (ci+1) (by simp only [List.length_cons] at hlen; omega)
      by_cases hc : f ∈ conds[ci]
      · rw [show (if f ∈ (val, conds.getD ci []).2
            then some (val, conds.getD ci []).1 else none)
          = some val from if_pos (hgd ▸ hc)]
        rw [show (if f ∈ (val, conds[ci]).2 then some (val, conds[ci]).1 else none)
          = some val from if_pos hc]
        show val :: filterFlag f (applyDiff conds flagList rest (ci+1)) = _
        rw [hrec]
      · rw [show (if f ∈ (val, conds.getD ci []).2
            then some (val, conds.getD ci []).1 else none)
          = none from if_neg (fun h => hc (hgd ▸ h))]
        rw [show (if f ∈ (val, conds[ci]).2 then some (val, conds[ci]).1 else none)
          = none from if_neg hc]
        show filterFlag f (applyDiff conds flagList rest (ci+1)) = _
        rw [hrec]

theorem applyDiff_cond_mem (conds : List (List Nat)) (flagList : List Nat) :
    ∀ (diff : List DiffEntry) (ci : Nat),
      ∀ c ∈ (applyDiff conds flagList diff ci).2, ∀ g ∈ c,
        g ∈ flagList ∨ ∃ c0 ∈ conds, g ∈ c0 := by
  intro diff
  induction diff with
  | nil =>
    intro ci c hc
    exact absurd hc (List.not_mem_nil c)
  | cons e rest ih =>
    obtain ⟨op, val⟩ := e
    intro ci c hc g hg
    have hold : ∀ {i : Nat}, g ∈ conds.getD i [] → ∃ c0 ∈ conds, g ∈ c0 := by
      intro i hgi
      rcases Nat.lt_or_ge i conds.length with hci | hci
      · refine ⟨conds[i], List.getElem_mem _, ?_⟩
        rw [List.getD_eq_getElem _ _ hci] at hgi
        exact hgi
      · rw [List.getD_eq_default _ _ hci] at hgi
        exact absurd hgi (List.not_mem_nil g)
    cases op
    · rcases (List.mem_cons.mp hc) with hc | hc
      · subst hc
        rcases List.mem_append.mp hg with h | h
        · exact Or.inr (hold h)
        · exact Or.inl h
      · exact ih (ci+1) c hc g hg
    · rcases (List.mem_cons.mp hc) with hc | hc
      · subst hc
        exact Or.inl hg
      · exact ih ci c hc g hg
    · rcases (List.mem_cons.mp hc) with hc | hc
      · subst hc
        exact Or.inr (hold hg)
      · exact ih (ci+1) c hc g hg

theorem diffPermsLoop_preserve (f : Nat) :
    ∀ (perms : List (List Nat × List Nat)) (st : List Nat × List (List Nat)),
      st.1.length = st.2.length →
      (∀ pf ∈ perms, f ∉ pf.2) →
      filterFlag f (diffPermsLoop perms st) = filterFlag f st
      ∧ (diffPermsLoop perms st).1.length = (diffPermsLoop perms st).2.length := by
  intro perms
  induction perms with
  | nil =>
    intro st hlen _
    exact ⟨rfl, hlen⟩
  | cons pf rest ih =>
    obtain ⟨code, flagList⟩ := pf
    intro st hlen hout
    have hfF : f ∉ flagList := hout (code, flagList) (List.mem_cons_self _ _)
    have hstep : diffPermsLoop ((code, flagList) :: rest) st
        = diffPermsLoop rest (applyDiff st.2 flagList (myersDiff st.1 code) 0) := rfl
    have hL := applyDiff_lengths st.2 flagList (myersDiff st.1 code) 0
    have hrec := ih (applyDiff st.2 flagList (myersDiff st.1 code) 0)
      (by rw [hL.1, hL.2]) (fun q hq => hout q (List.mem_cons_of_mem _ hq))
    have hkeep : filterFlag f (applyDiff st.2 flagList (myersDiff st.1 code) 0)
        = filterFlag f st := by
      rw [filterFlag_applyDiff_old hfF (myersDiff st.1 code) 0
        (by rw [myersDiff_projOld]; omega)]
      rw [myersDiff_projOld, List.drop_zero]
      rfl
    rw [hstep]
    exact ⟨by rw [hrec.1, hkeep], hrec.2⟩

theorem diffPermsLoop_main (f : Nat) :
    ∀ (perms : List (List Nat × List Nat)) (st : List Nat × List (List Nat)) (p : Nat),
      st.1.length = st.2.length →
      (∀ c ∈ st.2, f ∉ c) →
      p < perms.length →
      f ∈ (perms.getD p ([], [])).2 →
      (∀ q, q < perms.length → q ≠ p → f ∉ (perms.getD q ([], [])).2) →
      filterFlag f (diffPermsLoop perms st) = (perms.getD p ([], [])).1 := by
  intro perms
  induction perms with
  | nil =>
    intro st p _ _ hp
    exact absurd hp (Nat.not_lt_zero p)
  | cons pf rest ih =>
    obtain ⟨code, flagList⟩ := pf
    intro st p hlen hfresh hp hf hq
    have hstep : diffPermsLoop ((code, flagList) :: rest) st
        = diffPermsLoop rest (applyDiff st.2 flagList (myersDiff st.1 code) 0) := rfl
    have hL := applyDiff_lengths st.2 flagList (myersDiff st.1 code) 0
    cases p with
    | zero =>
      have hfF : f ∈ flagList := hf
      have hgot : filterFlag f (applyDiff st.2 flagList (myersDiff st.1 code) 0)
          = code := by
        rw [filterFlag_applyDiff_new hfF hfresh, myersDiff_projNew]
      have hrest : ∀ pf2 ∈ rest, f ∉ pf2.2 := by
        intro pf2 hmem
        obtain ⟨i, hi, hpf2⟩ := List.getElem_of_mem hmem
        have := hq (i+1) (by simp only [List.length_cons]; omega)
          (Nat.succ_ne_zero i)
        rw [show (((code, flagList) :: rest).getD (i+1) ([], [])) = rest.getD i ([], [])
          from rfl, List.getD_eq_getElem _ _ hi, hpf2] at this
        exact this
      rw [hstep]
      have := diffPermsLoop_preserve f rest
        (applyDiff st.2 flagList (myersDiff st.1 code) 0)
        (by rw [hL.1, hL.2]) hrest
      rw [this.1, hgot]
      rfl
    | succ p' =>
      have hfF : f ∉ flagList := hq 0 (Nat.succ_pos _) (Nat.succ_ne_zero p').symm ∘ id |> fun h => h
      have hfresh2 : ∀ c ∈ (applyDiff st.2 flagList (myersDiff st.1 code) 0).2,
          f ∉ c := by
        intro c hc hfc
        rcases applyDiff_cond_mem st.2 flagList (myersDiff st.1 code) 0 c hc f hfc with
          h | ⟨c0, hc0, hfc0⟩
        · exact hfF h
        · exact hfresh c0 hc0 hfc0
      rw [hstep]
      have := ih (applyDiff st.2 flagList (myersDiff st.1 code) 0) p'
        (by rw [hL.1, hL.2]) hfresh2
        (by simp only [List.length_cons] at hp; omega)
        (by exact hf)
        (by
          intro q hq2 hne
          have := hq (q+1) (by simp only [List.length_cons]; omega)
            (by omega)
          exact this)
      rw [this]
      rfl

theorem zip_getD_pair :
    ∀ (l1 l2 : List (List Nat)) (q : Nat), q < l1.length → q < l2.length →
      ((l1.zip l2).getD q ([], [])) = (l1.getD q [], l2.getD q []) := by
  intro l1
  induction l1 with
  | nil =>
    intro l2 q h
    exact absurd h (Nat.not_lt_zero q)
  | cons a l1 ih =>
    intro l2 q h1 h2
    cases l2 with
    | nil => exact absurd h2 (Nat.not_lt_zero q)
    | cons b l2 =>
      cases q with
      | zero => rfl
      | succ q =>
        show (l1.zip l2).getD q ([], []) = (l1.getD q [], l2.getD q [])
        exact ih l2 q (by simp only [List.length_cons] at h1; omega)
          (by simp only [List.length_cons] at h2; omega)

/-- **C3** `diffPermutations` merges the encoded uniquified permutations into a
single line list with per-line condition lists: for each permutation `p`, the
lines are diffed (via `myersDiff`) against permutation `p`'s code, inserted
lines get permutation `p`'s flag list as condition, kept lines accumulate it
onto their existing conditions, and removed lines keep their old conditions.
Consequently, filtering the merged lines by any flag assignment `f` belonging
to permutation `p` (flag lists being pairwise disjoint) reconstructs exactly
permutation `p`'s code. -/
theorem C3_diff_permutations_reconstruct (codes flags : List (List Nat)) (p f : Nat)
    (hlen : codes.length = flags.length)
    (hdisj : flags.Pairwise (fun a b => ∀ g ∈ a, g ∉ b))
    (hp : p < codes.length)
    (hf : f ∈ flags.getD p []) :
    filterFlag f (diffPermutations codes flags) = codes.getD p [] := by
  have hpl : (codes.zip flags).length = codes.length := by
    rw [List.length_zip, hlen, Nat.min_self]
  have hpf : p < flags.length := hlen ▸ hp
  have hzp : (codes.zip flags).getD p ([], []) = (codes.getD p [], flags.getD p []) :=
    zip_getD_pair codes flags p hp hpf
  have hq : ∀ q, q < (codes.zip flags).length → q ≠ p →
      f ∉ ((codes.zip flags).getD q ([], [])).2 := by
    intro q hq hne hmem
    have hqc : q < codes.length := hpl ▸ hq
    have hqf : q < flags.length := hlen ▸ hqc
    rw [zip_getD_pair codes flags q hqc hqf] at hmem
    have hpair := List.pairwise_iff_getElem.mp hdisj
    rcases Nat.lt_or_ge q p with hlt | hge
    · have hmem2 : f ∈ flags[q] := by
        rw [show ((codes.getD q [], flags.getD q []) : List Nat × List Nat).2
          = flags.getD q [] from rfl, List.getD_eq_getElem _ _ hqf] at hmem
        exact hmem
      have := hpair q p hqf hpf hlt f hmem2
      rw [List.getD_eq_getElem _ _ hpf] at hf
      exact this hf
    · have hlt2 : p < q := by omega
      have := hpair p q hpf hqf hlt2 f (by rw [List.getD_eq_getElem _ _ hpf] at hf; exact hf)
      refine this ?_
      rw [show ((codes.getD q [], flags.getD q []) : List Nat × List Nat).2
        = flags.getD q [] from rfl, List.getD_eq_getElem _ _ hqf] at hmem
      exact hmem
  have := diffPermsLoop_main f (codes.zip flags) ([], []) p rfl
    (fun c hc => absurd hc (List.not_mem_nil c))
    (hpl ▸ hp) (by rw [hzp]; exact hf) hq
  rw [show diffPermutations codes flags = diffPermsLoop (codes.zip flags) ([], [])
    from rfl, this, hzp]

theorem C3_diff_permutations_witness :
    ([[1,2],[2,3]] : List (List Nat)).length = ([[10],[20]] : List (List Nat)).length
    ∧ ([[10],[20]] : List (List Nat)).Pairwise (fun a b => ∀ g ∈ a, g ∉ b)
    ∧ 1 < ([[1,2],[2,3]] : List (List Nat)).length
    ∧ 20 ∈ ([[10],[20]] : List (List Nat)).getD 1 []
    ∧ filterFlag 20 (diffPermutations [[1,2],[2,3]] [[10],[20]]) = [2,3] :=
  ⟨rfl, by decide, by decide, by decide,
    C3_diff_permutations_reconstruct [[1,2],[2,3]] [[10],[20]] 1 20 rfl
      (by decide) (by decide) (by decide)⟩

end MD

end AzureSpar
